import Mathlib

/-
Verification development for the wavesplatform/state-consumer ingestion
daemon.  The Rust sources under src/ are shallowly embedded as Lean
definitions:

  * src/data_entries/daemon.rs   : fragment splitting, append, squash, rollback
  * src/data_entries/repo.rs     : the store operations (two logical tables
                                   plus the data_entries uid sequence)
  * src/data_entries/updates.rs  : the upstream batcher and the event decoder
  * src/readiness.rs             : the readiness poller

Machine integers (i64) are modelled as Int; the step relation of the daemon
carries the explicit side condition that assigned uids stay below MAX_UID,
which is what i64 arithmetic guarantees in the running system.  Fallible
store operations (SQL statements that can return no row) return Option;
a None aborts the surrounding transaction, so the reachability relation
only advances on some.
-/

set_option linter.unusedVariables false

/-- FRAGMENT_SEPARATOR from src/data_entries/mod.rs line 17. -/
def FRAGMENT_SEPARATOR : String := "__"

/-- STRING_DESCRIPTOR from src/data_entries/mod.rs line 18. -/
def STRING_DESCRIPTOR : String := "s"

/-- INTEGER_DESCRIPTOR from src/data_entries/mod.rs line 19. -/
def INTEGER_DESCRIPTOR : String := "d"

/-- Separator of the type-descriptor header, the "%" literal of
src/data_entries/daemon.rs line 364. -/
def PERCENT : String := "%"

/-- MAX_UID from src/data_entries/repo.rs line 18: std::i64::MAX - 1,
that is 2^63 - 2. -/
def MAX_UID : Int := 2 ^ 63 - 2

/-- Fuelled worker for string splitting; mirrors Rust str::split with a
non-empty separator (leftmost, non-overlapping matches).  The fuel is the
length of the remaining input, so the fallback branch is unreachable for
non-empty separators. -/
def splitChars (sep : List Char) : Nat → List Char → List Char → List (List Char)
  | 0, l, cur => [cur.reverse ++ l]
  | Nat.succ fuel, [], cur => [cur.reverse]
  | Nat.succ fuel, c :: rest, cur =>
    if sep.isPrefixOf (c :: rest) then
      cur.reverse :: splitChars sep fuel ((c :: rest).drop sep.length) []
    else
      splitChars sep fuel rest (c :: cur)

/-- Rust str::split(sep) collected to a vector (sep non-empty). -/
def splitStr (sep : String) (s : String) : List String :=
  (splitChars sep.data s.data.length s.data []).map (fun cs => String.mk cs)

/-- Rust str::parse::<i64>(): optional single sign, at least one ASCII
digit, value within the i64 range. -/
def parseI64 (s : String) : Option Int :=
  let p : Int × List Char :=
    match s.data with
    | '+' :: rest => (1, rest)
    | '-' :: rest => (-1, rest)
    | cs => (1, cs)
  if p.2 = [] then none
  else if p.2.all (fun c => c.isDigit) then
    let n : Nat := p.2.foldl (fun acc c => acc * 10 + (c.toNat - 48)) 0
    let v : Int := p.1 * n
    if -(2 ^ 63) ≤ v ∧ v ≤ 2 ^ 63 - 1 then some v else none
  else none

/-- split_to_fragments from src/data_entries/daemon.rs lines 357-372: split
the value on "__"; the first piece is split on "%" with its first element
skipped (the source comment says "first item is empty"); the remaining
descriptor list is zipped with the remaining pieces. -/
def splitToFragments (value : String) : List (String × String) :=
  match splitStr FRAGMENT_SEPARATOR value with
  | [] => []
  | t :: rest => ((splitStr PERCENT t).drop 1).zip rest

/-- extract_string_fragment from src/data_entries/daemon.rs lines 136-144. -/
def extractStringFragment (values : List (String × String)) (position : Nat) : Option String :=
  match values.get? position with
  | some tv => if tv.1 = STRING_DESCRIPTOR then some tv.2 else none
  | none => none

/-- extract_integer_fragment from src/data_entries/daemon.rs lines 146-154. -/
def extractIntegerFragment (values : List (String × String)) (position : Nat) : Option Int :=
  match values.get? position with
  | some tv => if tv.1 = INTEGER_DESCRIPTOR then parseI64 tv.2 else none
  | none => none

/-- DataEntry from src/data_entries/mod.rs lines 28-37 (a decoded on-chain
data entry; value_binary is a byte vector). -/
structure DataEntry where
  address : String
  key : String
  transaction_id : String
  value_binary : Option (List Nat)
  value_bool : Option Bool
  value_integer : Option Int
  value_string : Option String

/-- BlockMicroblockAppend from src/data_entries/mod.rs lines 188-194. -/
structure BlockMicroblockAppend where
  id : String
  time_stamp : Option Int
  height : Nat
  data_entries : List DataEntry

/-- BlockchainUpdate from src/data_entries/mod.rs lines 196-201. -/
inductive BlockchainUpdate where
  | block (b : BlockMicroblockAppend)
  | microblock (b : BlockMicroblockAppend)
  | rollback (sig : String)

/-- BlockMicroblock from src/data_entries/mod.rs lines 180-186 (the row
shape handed to insert_blocks_or_microblocks; the uid is assigned by the
store). -/
structure BlockMicroblock where
  id : String
  time_stamp : Option Int
  height : Int

/-- A committed row of the blocks_microblocks table. -/
structure BlockRow where
  uid : Int
  id : String
  height : Int
  time_stamp : Option Int
deriving DecidableEq

/-- InsertableDataEntry from src/data_entries/mod.rs lines 54-113: a row of
the data_entries table. -/
structure InsertableDataEntry where
  block_uid : Int
  transaction_id : String
  uid : Int
  superseded_by : Int
  address : String
  key : String
  value_binary : Option (List Nat)
  value_bool : Option Bool
  value_integer : Option Int
  value_string : Option String
  fragment_0_integer : Option Int
  fragment_0_string : Option String
  fragment_1_integer : Option Int
  fragment_1_string : Option String
  fragment_2_integer : Option Int
  fragment_2_string : Option String
  fragment_3_integer : Option Int
  fragment_3_string : Option String
  fragment_4_integer : Option Int
  fragment_4_string : Option String
  fragment_5_integer : Option Int
  fragment_5_string : Option String
  fragment_6_integer : Option Int
  fragment_6_string : Option String
  fragment_7_integer : Option Int
  fragment_7_string : Option String
  fragment_8_integer : Option Int
  fragment_8_string : Option String
  fragment_9_integer : Option Int
  fragment_9_string : Option String
  fragment_10_integer : Option Int
  fragment_10_string : Option String
  value_fragment_0_integer : Option Int
  value_fragment_0_string : Option String
  value_fragment_1_integer : Option Int
  value_fragment_1_string : Option String
  value_fragment_2_integer : Option Int
  value_fragment_2_string : Option String
  value_fragment_3_integer : Option Int
  value_fragment_3_string : Option String
  value_fragment_4_integer : Option Int
  value_fragment_4_string : Option String
  value_fragment_5_integer : Option Int
  value_fragment_5_string : Option String
  value_fragment_6_integer : Option Int
  value_fragment_6_string : Option String
  value_fragment_7_integer : Option Int
  value_fragment_7_string : Option String
  value_fragment_8_integer : Option Int
  value_fragment_8_string : Option String
  value_fragment_9_integer : Option Int
  value_fragment_9_string : Option String
  value_fragment_10_integer : Option Int
  value_fragment_10_string : Option String

/-- The (address, key) pair of a data-entry row; the Eq and Hash
implementations of InsertableDataEntry in mod.rs compare exactly this. -/
def InsertableDataEntry.addrKey (r : InsertableDataEntry) : String × String :=
  (r.address, r.key)

/-- DataEntryUpdate from src/data_entries/mod.rs lines 130-136. -/
structure DataEntryUpdate where
  superseded_by : Int
  address : String
  key : String

/-- DeletedDataEntry from src/data_entries/mod.rs lines 138-143. -/
structure DeletedDataEntry where
  uid : Int
  address : String
  key : String
deriving DecidableEq

/-- The (address, key) pair of a deleted row; the Eq and Hash
implementations of DeletedDataEntry in mod.rs compare exactly this. -/
def DeletedDataEntry.addrKey (d : DeletedDataEntry) : String × String :=
  (d.address, d.key)

/-- The persistent state acted on by the repository: the two logical tables
plus the data_entries uid sequence (nextUid is the next value the sequence
will hand out) and the serial counter behind the blocks_microblocks uid
column (nextBlockUid). -/
structure Store where
  blocks : List BlockRow
  dataEntries : List InsertableDataEntry
  nextUid : Int
  nextBlockUid : Int

/-- The row of largest uid, or none for the empty list (ORDER BY uid DESC
LIMIT 1); uids are unique in every committed store. -/
def maxUidRow : List BlockRow → Option BlockRow
  | [] => none
  | b :: bs =>
    match maxUidRow bs with
    | none => some b
    | some c => some (if c.uid < b.uid then b else c)

/-- get_total_block_id from src/data_entries/repo.rs lines 105-113: the id
of the highest-uid microblock row (null time_stamp), if any. -/
def getTotalBlockId (s : Store) : Option String :=
  (maxUidRow (s.blocks.filter (fun b => b.time_stamp.isNone))).map (fun b => b.id)

/-- get_key_block_uid from src/data_entries/repo.rs lines 97-103: max(uid)
over rows with non-null time_stamp; the SQL max over an empty set is null
and the surrounding get_result then fails, modelled as none. -/
def getKeyBlockUid (s : Store) : Option Int :=
  (maxUidRow (s.blocks.filter (fun b => b.time_stamp.isSome))).map (fun b => b.uid)

/-- get_block_uid from src/data_entries/repo.rs lines 86-95: the uid of the
row with the given id; none (a failed transaction) if absent. -/
def getBlockUid (s : Store) (blockId : String) : Option Int :=
  (s.blocks.find? (fun b => decide (b.id = blockId))).map (fun b => b.uid)

/-- insert_blocks_or_microblocks from src/data_entries/repo.rs lines
124-130: bulk insert returning the assigned uids in input order. -/
def insertBlocksOrMicroblocks (s : Store) (items : List BlockMicroblock) :
    List Int × Store :=
  let uids := (List.range items.length).map (fun i => s.nextBlockUid + (i : Int))
  let rows := (uids.zip items).map (fun p =>
    { uid := p.1, id := p.2.id, height := p.2.height, time_stamp := p.2.time_stamp : BlockRow })
  (uids,
   { s with blocks := s.blocks ++ rows, nextBlockUid := s.nextBlockUid + items.length })

/-- insert_data_entries from src/data_entries/repo.rs lines 132-183
restricted to the data_entries table: the rows are appended (the source
inserts them in chunks of 2000, which concatenates to the same table
contents; the auxiliary data_entries_history_keys index is not modelled,
no claim mentions it). -/
def insertDataEntries (s : Store) (entries : List InsertableDataEntry) : Store :=
  { s with dataEntries := s.dataEntries ++ entries }

/-- close_superseded_by from src/data_entries/repo.rs lines 185-203: every
row whose (address, key) occurs in the update list and whose superseded_by
is MAX_UID receives the update's superseded_by. -/
def closeSupersededBy (s : Store) (updates : List DataEntryUpdate) : Store :=
  { s with dataEntries := s.dataEntries.map (fun r =>
      match updates.find? (fun u => decide (u.address = r.address ∧ u.key = r.key)) with
      | some u =>
        if r.superseded_by = MAX_UID then { r with superseded_by := u.superseded_by } else r
      | none => r) }

/-- reopen_superseded_by from src/data_entries/repo.rs lines 205-212: every
row whose superseded_by occurs in the list is reset to MAX_UID. -/
def reopenSupersededBy (s : Store) (uids : List Int) : Store :=
  { s with dataEntries := s.dataEntries.map (fun r =>
      if r.superseded_by ∈ uids then { r with superseded_by := MAX_UID } else r) }

/-- set_next_update_uid from src/data_entries/repo.rs lines 214-222:
setval(seq, n, false), so the next value the sequence returns is n. -/
def setNextUpdateUid (s : Store) (n : Int) : Store :=
  { s with nextUid := n }

/-- get_next_update_uid from src/data_entries/repo.rs lines 115-122. -/
def getNextUpdateUid (s : Store) : Int :=
  s.nextUid

/-- change_block_id from src/data_entries/repo.rs lines 224-231. -/
def changeBlockId (s : Store) (blockUid : Int) (newBlockId : String) : Store :=
  { s with blocks := s.blocks.map (fun b =>
      if b.uid = blockUid then { b with id := newBlockId } else b) }

/-- update_data_entries_block_references from src/data_entries/repo.rs
lines 233-249 (data_entries part): rows with block_uid greater than the
argument are re-pointed to it. -/
def updateDataEntriesBlockReferences (s : Store) (blockUid : Int) : Store :=
  { s with dataEntries := s.dataEntries.map (fun r =>
      if blockUid < r.block_uid then { r with block_uid := blockUid } else r) }

/-- delete_microblocks from src/data_entries/repo.rs lines 251-257. -/
def deleteMicroblocks (s : Store) : Store :=
  { s with blocks := s.blocks.filter (fun b => b.time_stamp.isSome) }

/-- rollback_blocks_microblocks from src/data_entries/repo.rs lines
259-265: delete the block rows with uid greater than the argument. -/
def rollbackBlocksMicroblocks (s : Store) (blockUid : Int) : Store :=
  { s with blocks := s.blocks.filter (fun b => decide (b.uid ≤ blockUid)) }

/-- rollback_data_entries from src/data_entries/repo.rs lines 267-282:
delete the data-entry rows with block_uid greater than the argument and
return them as (uid, address, key) triples. -/
def rollbackDataEntriesOp (s : Store) (blockUid : Int) :
    List DeletedDataEntry × Store :=
  ((s.dataEntries.filter (fun r => decide (blockUid < r.block_uid))).map
     (fun r => { uid := r.uid, address := r.address, key := r.key : DeletedDataEntry }),
   { s with dataEntries := s.dataEntries.filter (fun r => decide (r.block_uid ≤ blockUid)) })

/-- Entry construction of append_data_entries, src/data_entries/daemon.rs
lines 222-292: fragments are extracted from the key and, when present,
from value_string; superseded_by starts as the -1 placeholder. -/
def mkInsertableDataEntry (blockUid : Int) (de : DataEntry) (uid : Int) :
    InsertableDataEntry :=
  let key_fragments := splitToFragments de.key
  let value_fragments :=
    match de.value_string with
    | some value => splitToFragments value
    | none => []
  { block_uid := blockUid
    transaction_id := de.transaction_id
    uid := uid
    superseded_by := -1
    address := de.address
    key := de.key
    value_binary := de.value_binary
    value_bool := de.value_bool
    value_integer := de.value_integer
    value_string := de.value_string
    fragment_0_integer := extractIntegerFragment key_fragments 0
    fragment_0_string := extractStringFragment key_fragments 0
    fragment_1_integer := extractIntegerFragment key_fragments 1
    fragment_1_string := extractStringFragment key_fragments 1
    fragment_2_integer := extractIntegerFragment key_fragments 2
    fragment_2_string := extractStringFragment key_fragments 2
    fragment_3_integer := extractIntegerFragment key_fragments 3
    fragment_3_string := extractStringFragment key_fragments 3
    fragment_4_integer := extractIntegerFragment key_fragments 4
    fragment_4_string := extractStringFragment key_fragments 4
    fragment_5_integer := extractIntegerFragment key_fragments 5
    fragment_5_string := extractStringFragment key_fragments 5
    fragment_6_integer := extractIntegerFragment key_fragments 6
    fragment_6_string := extractStringFragment key_fragments 6
    fragment_7_integer := extractIntegerFragment key_fragments 7
    fragment_7_string := extractStringFragment key_fragments 7
    fragment_8_integer := extractIntegerFragment key_fragments 8
    fragment_8_string := extractStringFragment key_fragments 8
    fragment_9_integer := extractIntegerFragment key_fragments 9
    fragment_9_string := extractStringFragment key_fragments 9
    fragment_10_integer := extractIntegerFragment key_fragments 10
    fragment_10_string := extractStringFragment key_fragments 10
    value_fragment_0_integer := extractIntegerFragment value_fragments 0
    value_fragment_0_string := extractStringFragment value_fragments 0
    value_fragment_1_integer := extractIntegerFragment value_fragments 1
    value_fragment_1_string := extractStringFragment value_fragments 1
    value_fragment_2_integer := extractIntegerFragment value_fragments 2
    value_fragment_2_string := extractStringFragment value_fragments 2
    value_fragment_3_integer := extractIntegerFragment value_fragments 3
    value_fragment_3_string := extractStringFragment value_fragments 3
    value_fragment_4_integer := extractIntegerFragment value_fragments 4
    value_fragment_4_string := extractStringFragment value_fragments 4
    value_fragment_5_integer := extractIntegerFragment value_fragments 5
    value_fragment_5_string := extractStringFragment value_fragments 5
    value_fragment_6_integer := extractIntegerFragment value_fragments 6
    value_fragment_6_string := extractStringFragment value_fragments 6
    value_fragment_7_integer := extractIntegerFragment value_fragments 7
    value_fragment_7_string := extractStringFragment value_fragments 7
    value_fragment_8_integer := extractIntegerFragment value_fragments 8
    value_fragment_8_string := extractStringFragment value_fragments 8
    value_fragment_9_integer := extractIntegerFragment value_fragments 9
    value_fragment_9_string := extractStringFragment value_fragments 9
    value_fragment_10_integer := extractIntegerFragment value_fragments 10
    value_fragment_10_string := extractStringFragment value_fragments 10 }

/-- The enumerate-and-assign pass of append_data_entries (daemon.rs lines
222-292): the i-th update of the stable input order becomes an entry with
uid = next + i. -/
def mkEntriesFrom (next : Int) : List (Int × DataEntry) → List InsertableDataEntry
  | [] => []
  | (bu, de) :: rest => mkInsertableDataEntry bu de next :: mkEntriesFrom (next + 1) rest

/-- Worker for firstOccKeys: keep the keys not seen before, in order. -/
def firstOccAux (seen : List (String × String)) :
    List (String × String) → List (String × String)
  | [] => []
  | k :: ks => if k ∈ seen then firstOccAux seen ks else k :: firstOccAux (k :: seen) ks

/-- Keys in order of first occurrence, each once: the key set of the
HashMap grouping of daemon.rs (HashMap iteration order is arbitrary there;
no observable result of the daemon depends on this order). -/
def firstOccKeys (l : List (String × String)) : List (String × String) :=
  firstOccAux [] l

/-- Ordered insertion by uid (the comparator of sorted_by_key in
daemon.rs); stable, like the Rust sort. -/
def insertByUid (e : InsertableDataEntry) :
    List InsertableDataEntry → List InsertableDataEntry
  | [] => [e]
  | x :: xs => if e.uid ≤ x.uid then e :: x :: xs else x :: insertByUid e xs

/-- Insertion sort by uid, the model of sorted_by_key(|item| item.uid). -/
def sortByUid : List InsertableDataEntry → List InsertableDataEntry
  | [] => []
  | x :: xs => insertByUid x (sortByUid xs)

/-- The reverse pass of append_data_entries (daemon.rs lines 304-328): walk
a uid-sorted group from the highest uid down, give each entry the uid of
the entry walked just before it (the in-group successor), and give the
highest entry the initial accumulator std::i64::MAX - 1, which equals
MAX_UID; the source then re-sorts the group by uid. -/
def assignChain (l : List InsertableDataEntry) : List InsertableDataEntry :=
  sortByUid
    (l.foldr
      (fun cur acc => (cur.uid, { cur with superseded_by := acc.1 } :: acc.2))
      (MAX_UID, ([] : List InsertableDataEntry))).2

/-- The HashMap grouping of append_data_entries: one group per distinct
(address, key), each group listing its entries in input order. -/
def groupEntries (entries : List InsertableDataEntry) :
    List ((String × String) × List InsertableDataEntry) :=
  (firstOccKeys (entries.map (fun e => e.addrKey))).map
    (fun k => (k, entries.filter (fun e => decide (e.addrKey = k))))

/-- The grouping of append_data_entries followed by the per-group reverse
superseded_by pass (daemon.rs lines 294-328). -/
def chainedGroups (entries : List InsertableDataEntry) :
    List ((String × String) × List InsertableDataEntry) :=
  (groupEntries entries).map (fun g => (g.1, assignChain g.2))

/-- The first_uids list of append_data_entries (daemon.rs lines 330-341):
the head of each group closes the previously current row of that
(address, key).  The groups are non-empty by construction, so the unwrap
on the group head in the source cannot fire; the empty arm below is
unreachable. -/
def firstUidsOf (gc : List ((String × String) × List InsertableDataEntry)) :
    List DataEntryUpdate :=
  gc.filterMap (fun g =>
    (g.2.head?).map (fun first =>
      { address := first.address, key := first.key, superseded_by := first.uid }))

/-- The flattened uid-sorted row list inserted by append_data_entries
(daemon.rs lines 345-352). -/
def insertedOf (gc : List ((String × String) × List InsertableDataEntry)) :
    List InsertableDataEntry :=
  sortByUid ((gc.map (fun g => g.2)).flatten)

/-- append_data_entries from src/data_entries/daemon.rs lines 215-355:
read the next uid, build the entries with uids next, next+1, ..., group
them by (address, key), run the reverse superseded_by pass per group,
close the previously current rows with the first uid of each group,
insert the flattened uid-sorted entries, and advance the sequence by the
number of entries. -/
def appendDataEntries (s : Store) (updates : List (Int × DataEntry)) : Store :=
  let next_uid := getNextUpdateUid s
  let updates_count : Int := updates.length
  let entries := mkEntriesFrom next_uid updates
  let groupedChained := chainedGroups entries
  let s1 := closeSupersededBy s (firstUidsOf groupedChained)
  let s2 := insertDataEntries s1 (insertedOf groupedChained)
  setNextUpdateUid s2 (next_uid + updates_count)

/-- The (block_uid, data_entry) pair list of append_blocks_or_microblocks
(daemon.rs lines 191-206): the returned uids zipped with the appends,
appends without entries skipped, flattened in order. -/
def flattenedUpdates (uids : List Int) (appends : List BlockMicroblockAppend) :
    List (Int × DataEntry) :=
  (((uids.zip appends).filter (fun p => decide (0 < p.2.data_entries.length))).map
    (fun p => p.2.data_entries.map (fun de => (p.1, de)))).flatten

/-- append_blocks_or_microblocks from src/data_entries/daemon.rs lines
176-213: insert the block rows, pair the returned uids with the appends,
flatten the (block_uid, data_entry) pairs of appends that carry entries,
and append the data entries when any exist. -/
def appendBlocksOrMicroblocks (s : Store) (appends : List BlockMicroblockAppend) : Store :=
  let r := insertBlocksOrMicroblocks s (appends.map (fun a =>
    { id := a.id, height := (a.height : Int), time_stamp := a.time_stamp }))
  let s1 := r.2
  let data_entries := flattenedUpdates r.1 appends
  if 0 < data_entries.length then appendDataEntries s1 data_entries else s1

/-- squash_microblocks from src/data_entries/daemon.rs lines 374-391: a
no-op when no microblock row exists; otherwise re-point the data entries
above the key block to it, delete the microblock rows, and rewrite the key
block id to the total block id.  get_key_block_uid failing (no key block
at all) aborts the transaction, modelled as none. -/
def squashMicroblocks (s : Store) : Option Store :=
  match getTotalBlockId s with
  | some total_block_id =>
    match getKeyBlockUid s with
    | some key_block_uid =>
      let s1 := updateDataEntriesBlockReferences s key_block_uid
      let s2 := deleteMicroblocks s1
      some (changeBlockId s2 key_block_uid total_block_id)
    | none => none
  | none => some s

/-- The per-group minimum uid selection of rollback (daemon.rs lines
166-169): min_by_key over a non-empty group. -/
def minUidOf (l : List DeletedDataEntry) : Option Int :=
  match l.map (fun d => d.uid) with
  | [] => none
  | u :: us => some (us.foldl min u)

/-- rollback from src/data_entries/daemon.rs lines 156-174: delete the
data entries above the target block, group the deleted triples by
(address, key), reopen the rows whose superseded_by is the lowest deleted
uid of a group, and delete the block rows above the target. -/
def rollbackStore (s : Store) (blockUid : Int) : Store :=
  let r := rollbackDataEntriesOp s blockUid
  let deletes := r.1
  let s1 := r.2
  let lowest_deleted_uids : List Int :=
    (firstOccKeys (deletes.map (fun d => d.addrKey))).filterMap
      (fun k => minUidOf (deletes.filter (fun d => decide (d.addrKey = k))))
  let s2 := reopenSupersededBy s1 lowest_deleted_uids
  rollbackBlocksMicroblocks s2 blockUid

/-- The list of lowest deleted uids per (address, key) group computed by
rollback (daemon.rs lines 162-170), named for reuse in statements. -/
def lowestDeletedUids (s : Store) (blockUid : Int) : List Int :=
  (firstOccKeys ((rollbackDataEntriesOp s blockUid).1.map
    (fun d => d.addrKey))).filterMap
      (fun k => minUidOf ((rollbackDataEntriesOp s blockUid).1.filter
        (fun d => decide (d.addrKey = k))))

/-- UpdatesItem from src/data_entries/daemon.rs lines 16-20: the result of
coalescing consecutive Block events of a batch. -/
inductive UpdatesItem where
  | blocks (bs : List BlockMicroblockAppend)
  | microblock (b : BlockMicroblockAppend)
  | rollback (sig : String)

/-- One step of the daemon transaction body (daemon.rs lines 111-123):
Blocks squashes first and then appends; Microblock appends a singleton
list; Rollback resolves the block uid and rolls back. -/
def applyUpdatesItem (s : Store) : UpdatesItem → Option Store
  | .blocks bs => (squashMicroblocks s).map (fun s1 => appendBlocksOrMicroblocks s1 bs)
  | .microblock m => some (appendBlocksOrMicroblocks s [m])
  | .rollback sig => (getBlockUid s sig).map (fun uid => rollbackStore s uid)

/-- Processing a list of items in order, aborting on the first error, as
the try_fold of the daemon transaction does. -/
def applyUpdatesItems (s : Store) : List UpdatesItem → Option Store
  | [] => some s
  | it :: rest =>
    match applyUpdatesItem s it with
    | some s1 => applyUpdatesItems s1 rest
    | none => none

/-- Number of data entries an item inserts. -/
def itemEntryCount : UpdatesItem → Nat
  | .blocks bs => (bs.map (fun b => b.data_entries.length)).sum
  | .microblock m => m.data_entries.length
  | .rollback _ => 0

/-- The store of a freshly created database: empty tables, both uid
sequences at 1 (Postgres sequences start at 1). -/
def initialStore : Store :=
  { blocks := [], dataEntries := [], nextUid := 1, nextBlockUid := 1 }

/-- The committed stores of the daemon: the initial store, plus everything
obtained by one committed item.  The bound on nextUid is the i64
non-overflow guarantee under which the Rust code runs: every uid the step
assigns stays below MAX_UID. -/
inductive Reachable : Store → Prop where
  | init : Reachable initialStore
  | step (s : Store) (item : UpdatesItem) (t : Store) :
      Reachable s →
      s.nextUid + (itemEntryCount item : Int) ≤ MAX_UID →
      applyUpdatesItem s item = some t →
      Reachable t

/-- The rows of the data_entries table carrying a given (address, key), in
table order. -/
def rowsForKey (s : Store) (a k : String) : List InsertableDataEntry :=
  s.dataEntries.filter (fun r => decide (r.addrKey = (a, k)))

/-- Number of rows of a given (address, key) that are current, that is
carry superseded_by = MAX_UID. -/
def currentCount (s : Store) (a k : String) : Nat :=
  (rowsForKey s a k).countP (fun r => decide (r.superseded_by = MAX_UID))

/-- A store without microblock rows (every block row has a timestamp). -/
def noMicroblockRows (s : Store) : Prop :=
  ∀ b ∈ s.blocks, b.time_stamp.isSome

instance (s : Store) : Decidable (noMicroblockRows s) := by
  unfold noMicroblockRows
  exact inferInstance

/-- The bs58 alphabet used by the bs58 crate. -/
def BASE58_ALPHABET : String := "123456789ABCDEFGHJKLMNPQRSTUVWXYZabcdefghijkmnopqrstuvwxyz"

/-- Digit of the base-58 big-endian expansion. -/
def base58Char (n : Nat) : Char :=
  BASE58_ALPHABET.data.getD n '1'

/-- Fuelled worker for base58Digits; a fuel of n suffices since the value
shrinks by a factor of 58 per digit. -/
def base58DigitsGo : Nat → Nat → List Char → List Char
  | 0, _, acc => acc
  | fuel + 1, n, acc =>
    if n = 0 then acc else base58DigitsGo fuel (n / 58) (base58Char (n % 58) :: acc)

/-- Big-endian base-58 digits of a natural number, accumulator style. -/
def base58Digits (n : Nat) (acc : List Char) : List Char :=
  base58DigitsGo n n acc

/-- bs58::encode on a byte vector: one alphabet-leading character per
leading zero byte, then the base-58 expansion of the remaining value. -/
def base58 (bytes : List Nat) : String :=
  let zeros := (bytes.takeWhile (fun b => decide (b = 0))).length
  let n := bytes.foldl (fun acc b => acc * 256 + b % 256) 0
  String.mk (List.replicate zeros '1' ++ (if n = 0 then [] else base58Digits n []))

/-- Block header of the upstream protobuf (only the field the decoder
reads). -/
structure BlockHeaderMsg where
  timestamp : Int

/-- Upstream Block message (header optional, as in protobuf). -/
structure BlockMsg where
  header : Option BlockHeaderMsg

/-- BlockAppend of the upstream protobuf. -/
structure BlockAppendMsg where
  block : Option BlockMsg

/-- SignedMicroBlock of the upstream protobuf (only the field the decoder
reads). -/
structure SignedMicroBlockMsg where
  total_block_id : List Nat

/-- MicroBlockAppend of the upstream protobuf; micro_block is optional. -/
structure MicroBlockAppendMsg where
  micro_block : Option SignedMicroBlockMsg

/-- Append body of the upstream protobuf. -/
inductive BodyMsg where
  | block (b : BlockAppendMsg)
  | microBlock (m : MicroBlockAppendMsg)

/-- Tagged value of a raw upstream data entry. -/
inductive RawValue where
  | intValue (v : Int)
  | boolValue (v : Bool)
  | binaryValue (v : List Nat)
  | stringValue (v : String)

/-- Raw upstream data entry (key plus tagged value; no value represents a
delete). -/
structure RawDataEntry where
  key : String
  value : Option RawValue

/-- Entry of a transaction state update: raw address bytes plus the data
entry. -/
structure RawDataEntryUpdate where
  address : List Nat
  data_entry : Option RawDataEntry

/-- Transaction state update of the upstream protobuf (only the
data_entries field matters here). -/
structure StateUpdateMsg where
  data_entries : List RawDataEntryUpdate

/-- Append of the upstream protobuf: body, transaction ids and per
transaction state updates, as destructured by the decoder. -/
structure AppendMsg where
  body : Option BodyMsg
  transaction_ids : List (List Nat)
  transaction_state_updates : List StateUpdateMsg

/-- Update variant of BlockchainUpdated. -/
inductive UpdateMsg where
  | append (a : AppendMsg)
  | rollback

/-- BlockchainUpdated of the upstream protobuf. -/
structure BlockchainUpdatedMsg where
  id : List Nat
  height : Int
  update : Option UpdateMsg

/-- Message of the InvalidMessage error for an empty append body
(src/data_entries/updates.rs lines 195-197 and 244-246). -/
def ERR_BODY_EMPTY : String := "Append body is empty."

/-- Message of the InvalidMessage error for an unknown update
(src/data_entries/updates.rs lines 250-252). -/
def ERR_UNKNOWN_UPDATE : String := "Unknown blockchain update."

/-- Outcome of the TryFrom conversion: success, an InvalidMessage error,
or a Rust panic (the unwrap of a None). -/
inductive ConvResult where
  | ok (u : BlockchainUpdate)
  | invalidMessage (msg : String)
  | panic
deriving Inhabited

/-- TryFrom of BlockchainUpdated for BlockchainUpdate, src/data_entries/
updates.rs lines 171-255.  The txs/transfers computation of lines 186-219
is dead code (its filter_map always yields None, so transfers is always
empty) and the struct built in mod.rs carries no transfers field; the
observable output is exactly the match of lines 221-253.  Note that
data_entries is the literal vec![] of lines 230 and 240: this decoder
never reads transaction_state_updates or transaction_ids.  The microblock
arm unwraps the optional micro_block field (line 236): a missing field is
a panic, not an InvalidMessage error. -/
def tryFromBlockchainUpdated (value : BlockchainUpdatedMsg) : ConvResult :=
  match value.update with
  | some (.append a) =>
    match a.body with
    | some (.block ba) =>
      .ok (.block
        { id := base58 value.id
          time_stamp := ba.block.bind (fun b => b.header.map (fun h => h.timestamp))
          height := value.height.toNat
          data_entries := [] })
    | some (.microBlock ma) =>
      match ma.micro_block with
      | some mb =>
        .ok (.microblock
          { id := base58 mb.total_block_id
            time_stamp := none
            height := value.height.toNat
            data_entries := [] })
      | none => .panic
    | none => .invalidMessage ERR_BODY_EMPTY
  | some .rollback => .ok (.rollback (base58 value.id))
  | none => .invalidMessage ERR_UNKNOWN_UPDATE

/-- NUL escaping of spec section 4.2: every NUL byte becomes the two
character sequence backslash zero. -/
def escapeNul (s : String) : String :=
  String.mk (s.data.foldr
    (fun c acc => if c = Char.ofNat 0 then '\\' :: '0' :: acc else c :: acc) [])

/-- Modelled from the spec, section 4.2 (the data-entry extraction absent
from the decoder in src/): one record per raw data entry, with address
base58-encoded, key and string value NUL-escaped, exactly one value column
set from the tagged value, and transaction_id the base58 encoding of the
transaction id paired with the state update by index. -/
def specDataEntryOfRaw (txid : List Nat) (raw : RawDataEntryUpdate) : DataEntry :=
  { address := base58 raw.address
    key := escapeNul ((raw.data_entry.map (fun d => d.key)).getD (String.mk []))
    transaction_id := base58 txid
    value_binary :=
      match raw.data_entry.bind (fun d => d.value) with
      | some (.binaryValue v) => some v
      | _ => none
    value_bool :=
      match raw.data_entry.bind (fun d => d.value) with
      | some (.boolValue v) => some v
      | _ => none
    value_integer :=
      match raw.data_entry.bind (fun d => d.value) with
      | some (.intValue v) => some v
      | _ => none
    value_string :=
      match raw.data_entry.bind (fun d => d.value) with
      | some (.stringValue v) => some (escapeNul v)
      | _ => none }

/-- Modelled from the spec, section 4.2: iterate the state-updates array
paired with the transaction-ids array by index and collect one record per
raw data entry. -/
def specDataEntriesOfAppend (a : AppendMsg) : List DataEntry :=
  ((a.transaction_state_updates.zip a.transaction_ids).map
    (fun p => p.1.data_entries.map (specDataEntryOfRaw p.2))).flatten

/-- State of the upstream batcher loop of DataEntriesSourceImpl::run,
src/data_entries/updates.rs lines 41-96: the pending batch, the height of
the last received message, and the monotonic instant at which the current
batch was started. -/
structure BatcherState where
  result : List BlockchainUpdate
  last_height : Nat
  start : Nat

/-- BlockchainUpdatesWithLastHeight from src/data_entries/mod.rs lines
203-207. -/
structure BlockchainUpdatesWithLastHeight where
  last_height : Nat
  updates : List BlockchainUpdate

/-- One iteration of the batcher loop after a successfully decoded event
(updates.rs lines 60-94): push the event, mark the batch for flushing when
the event is a Block and the batch reached batch_max_size or the elapsed
time since start reached batch_max_wait_time, or unconditionally for a
Microblock or Rollback; on flush, send the batch, clear the buffer and
reset the time origin.  Time is the value of the monotonic clock (now);
elapsed = now - start. -/
def runStep (batch_max_size batch_max_wait_time : Nat)
    (st : BatcherState) (now : Nat) (upd : BlockchainUpdate) (height : Nat) :
    BatcherState × Option BlockchainUpdatesWithLastHeight :=
  let result := st.result ++ [upd]
  let flush : Bool :=
    match upd with
    | .block _ =>
      decide (batch_max_size ≤ result.length) ||
        decide (batch_max_wait_time ≤ now - st.start)
    | .microblock _ => true
    | .rollback _ => true
  if flush then
    ({ result := [], last_height := height, start := now },
     some { last_height := height, updates := result })
  else
    ({ result := result, last_height := height, start := st.start }, none)

/-- MAX_BLOCK_AGE from src/readiness.rs line 10 (seconds). -/
def MAX_BLOCK_AGE : Nat := 300

/-- Readiness value emitted on the readiness channel. -/
inductive Readiness where
  | ready
  | dead
deriving DecidableEq

/-- The tracked state of the readiness poller (src/readiness.rs lines
13-16): last seen block timestamp and the monotonic instant of its last
change. -/
structure LastBlock where
  timestamp : Int
  last_change : Nat
deriving DecidableEq

/-- One poll of the readiness task, src/readiness.rs lines 79-109: given
the tracked state, the current monotonic instant, and the result of the
last-block-timestamp query (error, no row, or a timestamp), produce the
emitted status and the new tracked state. -/
def readinessPoll (last_block : LastBlock) (now : Nat)
    (query_result : Except Unit (Option Int)) : Readiness × LastBlock :=
  match query_result with
  | .ok (some timestamp) =>
    if last_block.timestamp < timestamp then
      (.ready, { timestamp := timestamp, last_change := now })
    else if MAX_BLOCK_AGE < now - last_block.last_change then
      (.dead, last_block)
    else
      (.ready, last_block)
  | .ok none => (.ready, last_block)
  | .error _ => (.dead, last_block)

/-- Modelled from the claim (C8) wording: a value strictly greater than
the tracked timestamp gives Ready; otherwise Dead is emitted when the
monotonic time since the last change exceeds MAX_BLOCK_AGE and Ready
otherwise; a failed query gives Dead.  A successful query with no row
falls into the otherwise branch of this reading. -/
def claimedReadiness (last_block : LastBlock) (now : Nat)
    (query_result : Except Unit (Option Int)) : Readiness :=
  match query_result with
  | .error _ => .dead
  | .ok r =>
    match r with
    | some timestamp =>
      if last_block.timestamp < timestamp then .ready
      else if MAX_BLOCK_AGE < now - last_block.last_change then .dead else .ready
    | none =>
      if MAX_BLOCK_AGE < now - last_block.last_change then .dead else .ready

/-- The linked-list shape of the rows of one (address, key): each row's
superseded_by is the uid of the next row, and the last row carries
MAX_UID. -/
def chainLinksOK : List InsertableDataEntry → Prop
  | [] => True
  | [e] => e.superseded_by = MAX_UID
  | e :: f :: rest => e.superseded_by = f.uid ∧ chainLinksOK (f :: rest)

/-- Structural form of the reverse superseded_by pass on a uid-sorted
group: link every row to its successor, the last row becomes current. -/
def chainLink : List InsertableDataEntry → List InsertableDataEntry
  | [] => []
  | [e] => [{ e with superseded_by := MAX_UID }]
  | e :: f :: rest => { e with superseded_by := f.uid } :: chainLink (f :: rest)

/-- The rows of a list carrying a given (address, key), in order. -/
def fiberOf (l : List InsertableDataEntry) (k : String × String) :
    List InsertableDataEntry :=
  l.filter (fun e => decide (e.addrKey = k))

/-- The inductive invariant of the committed store.  uid_lt_next and
next_le_max bound the data-entry uids by the sequence; uid_asc and bu_mono
say the table is ordered by uid and (weakly) by block_uid; bu_lt_nextB and
blocks_uid_lt bound the block uids; sup_lt_or_max bounds every
superseded_by; chains is the per-key linked-list shape. -/
structure StoreInv (s : Store) : Prop where
  uid_lt_next : ∀ r ∈ s.dataEntries, r.uid < s.nextUid
  next_le_max : s.nextUid ≤ MAX_UID
  uid_asc : s.dataEntries.Pairwise (fun a b => a.uid < b.uid)
  bu_mono : s.dataEntries.Pairwise (fun a b => a.block_uid ≤ b.block_uid)
  bu_lt_nextB : ∀ r ∈ s.dataEntries, r.block_uid < s.nextBlockUid
  blocks_uid_lt : ∀ b ∈ s.blocks, b.uid < s.nextBlockUid
  sup_lt_or_max : ∀ r ∈ s.dataEntries, r.superseded_by = MAX_UID ∨ r.superseded_by < s.nextUid
  chains : ∀ a k, chainLinksOK (rowsForKey s a k)

/-- Relation between a pre-append row and the same row after a sequence of
appends that inserted the rows newE: either the row is untouched (and if
it was current, no inserted row carries its key), or it was current and
was closed with the uid of the first inserted row of its key. -/
def closedFrom (newE : List InsertableDataEntry)
    (r r2 : InsertableDataEntry) : Prop :=
  (r2 = r ∧ (r.superseded_by = MAX_UID → fiberOf newE r.addrKey = [])) ∨
  (r.superseded_by = MAX_UID ∧ ∃ x rest, fiberOf newE r.addrKey = x :: rest ∧
    r2 = { r with superseded_by := x.uid })

/-- Shape of a store obtained from s by appends only, relative to a
rollback target U: the blocks gained a suffix of rows above U, and the
data entries consist of the old rows (possibly closed, as per closedFrom)
followed by the inserted rows, all attached above U and with fresh
uids. -/
def AppendDelta (s t : Store) (U : Int) : Prop :=
  ∃ oldPart newE newB,
    t.blocks = s.blocks ++ newB ∧
    (∀ b ∈ newB, U < b.uid) ∧
    t.dataEntries = oldPart ++ newE ∧
    List.Forall₂ (closedFrom newE) s.dataEntries oldPart ∧
    (∀ e ∈ newE, U < e.block_uid ∧ s.nextUid ≤ e.uid)

/-- A sequence of daemon items consisting of block appends followed by
microblock appends (the shape under which no squash folds freshly
appended microblocks into the base block). -/
def blocksThenMicros (bitems : List (List BlockMicroblockAppend))
    (mitems : List BlockMicroblockAppend) : List UpdatesItem :=
  bitems.map UpdatesItem.blocks ++ mitems.map UpdatesItem.microblock

/-- Total number of data entries carried by a list of items. -/
def itemsEntryCount (items : List UpdatesItem) : Nat :=
  (items.map itemEntryCount).sum

/-- The contiguity reading of claim C5: the uids of the committed data
entries are exactly the first values handed out by data_entries_uid_seq
(which starts at 1), with no gap. -/
def uidsContiguous (s : Store) : Prop :=
  s.dataEntries.map (fun r => r.uid) =
    (List.range s.dataEntries.length).map (fun i => 1 + (i : Int))

instance (s : Store) : Decidable (uidsContiguous s) := by
  unfold uidsContiguous
  exact inferInstance

/-- Concrete scenario data: an address. -/
def addrX : String := "x"

/-- Concrete scenario data: a key without fragment header. -/
def keyPlain : String := "k"

/-- Concrete scenario data: the key of spec scenario S1. -/
def keyHash42 : String := "#__42"

/-- Concrete scenario data: the second key of spec scenario S1. -/
def keyDollarHello : String := "$__hello"

/-- Concrete scenario data: the integer-descriptor key actually recognised
by split_to_fragments. -/
def keyPercentD42 : String := "%d__42"

/-- Concrete scenario data: the string-descriptor key actually recognised
by split_to_fragments. -/
def keyPercentSHello : String := "%s__hello"

/-- Concrete scenario data: block ids. -/
def idA : String := "A"

/-- Concrete scenario data: block id of the second block. -/
def idB : String := "B"

/-- Concrete scenario data: block id of the third block. -/
def idC : String := "C"

/-- Concrete scenario data: total block id of a microblock. -/
def idMu : String := "M"

/-- Concrete scenario data: a transaction id. -/
def txId1 : String := "t"

/-- Concrete scenario data: the fragment text of keyPercentD42. -/
def str42 : String := "42"

/-- Concrete scenario data: the fragment text of keyPercentSHello. -/
def strHello : String := "hello"

/-- Concrete scenario data: an integer data entry under keyPlain. -/
def deK : DataEntry :=
  { address := addrX, key := keyPlain, transaction_id := txId1,
    value_binary := none, value_bool := none, value_integer := some 1,
    value_string := none }

/-- Concrete scenario data: a data entry with the key of spec scenario S1. -/
def deHash42 : DataEntry :=
  { address := addrX, key := keyHash42, transaction_id := txId1,
    value_binary := none, value_bool := none, value_integer := some 1,
    value_string := none }

/-- Concrete scenario data: a data entry with the dollar key of spec
scenario S1. -/
def deDollarHello : DataEntry :=
  { address := addrX, key := keyDollarHello, transaction_id := txId1,
    value_binary := none, value_bool := none, value_integer := none,
    value_string := some idA }

/-- Concrete scenario data: a data entry with a recognised integer
descriptor key. -/
def dePercentD42 : DataEntry :=
  { address := addrX, key := keyPercentD42, transaction_id := txId1,
    value_binary := none, value_bool := none, value_integer := some 1,
    value_string := none }

/-- Concrete scenario data: a data entry with a recognised string
descriptor key. -/
def dePercentSHello : DataEntry :=
  { address := addrX, key := keyPercentSHello, transaction_id := txId1,
    value_binary := none, value_bool := none, value_integer := none,
    value_string := none }

/-- Concrete scenario data: key block A carrying one data entry. -/
def appendA1 : BlockMicroblockAppend :=
  { id := idA, time_stamp := some 1000, height := 1, data_entries := [deK] }

/-- Concrete scenario data: key block B carrying one data entry for the
same (address, key). -/
def appendB1 : BlockMicroblockAppend :=
  { id := idB, time_stamp := some 2000, height := 2, data_entries := [deK] }

/-- Concrete scenario data: key block C carrying one data entry for the
same (address, key). -/
def appendC1 : BlockMicroblockAppend :=
  { id := idC, time_stamp := some 3000, height := 3, data_entries := [deK] }

/-- Concrete scenario data: key block A without data entries. -/
def appendA0 : BlockMicroblockAppend :=
  { id := idA, time_stamp := some 1000, height := 1, data_entries := [] }

/-- Concrete scenario data: key block B without data entries. -/
def appendB0 : BlockMicroblockAppend :=
  { id := idB, time_stamp := some 2000, height := 2, data_entries := [] }

/-- Concrete scenario data: a microblock without data entries. -/
def appendMu0 : BlockMicroblockAppend :=
  { id := idMu, time_stamp := none, height := 2, data_entries := [] }

/-- The committed store after appending block A with one entry. -/
def storeS1 : Store := appendBlocksOrMicroblocks initialStore [appendA1]

/-- storeS1 after appending block B with one entry for the same key. -/
def storeS2 : Store := appendBlocksOrMicroblocks storeS1 [appendB1]

/-- storeS2 after rolling back to block A (uid 1). -/
def storeS4 : Store := rollbackStore storeS2 1

/-- storeS4 after appending block C with one entry. -/
def storeS5 : Store := appendBlocksOrMicroblocks storeS4 [appendC1]

/-- The committed store after appending the empty block A. -/
def storeA0 : Store := appendBlocksOrMicroblocks initialStore [appendA0]

/-- Concrete upstream bytes: a raw address. -/
def addrBytes : List Nat := [1, 2, 3]

/-- Concrete upstream bytes: a transaction id. -/
def txidBytes : List Nat := [9]

/-- Concrete upstream bytes: a message id. -/
def msgIdBytes : List Nat := [7, 7]

/-- Concrete upstream data: one raw data entry update. -/
def rawDeC4 : RawDataEntryUpdate :=
  { address := addrBytes,
    data_entry := some { key := keyPlain, value := some (.intValue 1) } }

/-- Concrete upstream data: an Append with a Block body, one transaction
id and one state update carrying one data entry. -/
def appendMsgC4 : AppendMsg :=
  { body := some (.block { block := some { header := some { timestamp := 1000 } } })
    transaction_ids := [txidBytes]
    transaction_state_updates := [{ data_entries := [rawDeC4] }] }

/-- Concrete upstream data: the full message around appendMsgC4. -/
def msgC4 : BlockchainUpdatedMsg :=
  { id := msgIdBytes, height := 1, update := some (.append appendMsgC4) }

/-- Concrete upstream data: an Append with a MicroBlock body whose nested
micro_block field is absent. -/
def msgMicroNone : BlockchainUpdatedMsg :=
  { id := msgIdBytes, height := 2,
    update := some (.append
      { body := some (.microBlock { micro_block := none })
        transaction_ids := []
        transaction_state_updates := [] }) }

/-
Theorems.  Claim theorems are named c<N>_..., with their witnesses and
counterexamples; everything else is shared lemma infrastructure.
-/

/-- C9: rollback never writes to data_entries_uid_seq; the next value of
the sequence after a rollback to any target block uid equals its value
before. -/
theorem c9_rollback_keeps_uid_seq (s : Store) (blockUid : Int) :
    (rollbackStore s blockUid).nextUid = s.nextUid := rfl

/-- C6: on a store without microblock rows, squash_microblocks performs no
mutation at all: the returned store is the input store (so blocks,
data entries and the uid sequence are unchanged, and squash is idempotent
in that state). -/
theorem c6_squash_noop (s : Store) (h : noMicroblockRows s) :
    squashMicroblocks s = some s := by
  have hf : s.blocks.filter (fun b => b.time_stamp.isNone) = [] := by
    rw [List.filter_eq_nil_iff]
    intro b hb
    have hs := h b hb
    cases hts : b.time_stamp with
    | none => rw [hts] at hs; simp at hs
    | some v => simp [hts]
  have hg : getTotalBlockId s = none := by
    simp [getTotalBlockId, hf, maxUidRow]
  simp [squashMicroblocks, hg]

/-- Witness for C6 at a concrete one-key-block store. -/
theorem c6_witness :
    noMicroblockRows storeA0 ∧ squashMicroblocks storeA0 = some storeA0 :=
  ⟨by decide, c6_squash_noop storeA0 (by decide)⟩

/-- C10: decoding an Append with a MicroBlock body yields a Microblock
event with id the base58 encoding of total_block_id and a null timestamp
when the nested micro_block field is present, and panics (unwrap on None)
rather than returning an InvalidMessage error when it is absent. -/
theorem c10_microblock_decode (v : BlockchainUpdatedMsg) (a : AppendMsg)
    (ma : MicroBlockAppendMsg)
    (h1 : v.update = some (.append a)) (h2 : a.body = some (.microBlock ma)) :
    (∀ mb, ma.micro_block = some mb →
      tryFromBlockchainUpdated v = .ok (.microblock
        { id := base58 mb.total_block_id, time_stamp := none,
          height := v.height.toNat, data_entries := [] })) ∧
    (ma.micro_block = none → tryFromBlockchainUpdated v = .panic) := by
  constructor
  · intro mb hmb
    simp [tryFromBlockchainUpdated, h1, h2, hmb]
  · intro hmb
    simp [tryFromBlockchainUpdated, h1, h2, hmb]

/-- Witness for C10: the concrete absent-micro_block message panics. -/
theorem c10_witness : tryFromBlockchainUpdated msgMicroNone = .panic :=
  (c10_microblock_decode msgMicroNone _ _ rfl rfl).2 rfl

/-- C4, evaluation at the failing input: the decoder returns the Block
event with data_entries empty although the message carries one raw data
entry, while the extraction described by the spec yields one record. -/
theorem c4_decoder_drops_data_entries :
    tryFromBlockchainUpdated msgC4 = .ok (.block
      { id := base58 msgIdBytes, time_stamp := some 1000, height := 1,
        data_entries := [] }) ∧
    (specDataEntriesOfAppend appendMsgC4).length = 1 :=
  ⟨rfl, by decide⟩

/-- C3, counterexample: the key of spec scenario S1 yields no fragments at
all, because split_to_fragments drops the text before the first "%" of
the header and recognises only the descriptors "d" and "s"; in particular
fragment_0_integer of an entry with key "#__42" is null, not 42, and
fragment_0_string of an entry with key "$__hello" is null, not "hello". -/
theorem c3_counterexample :
    (mkInsertableDataEntry 1 deHash42 1).fragment_0_integer = none ∧
    (mkInsertableDataEntry 1 deHash42 1).fragment_0_integer ≠ some 42 ∧
    (mkInsertableDataEntry 1 deDollarHello 1).fragment_0_string = none ∧
    (mkInsertableDataEntry 1 deDollarHello 1).fragment_0_string ≠ some strHello := by
  refine ⟨by decide, by decide, by decide, by decide⟩

/-- C3, amended: fragments are extracted by splitting the text on "__";
the first piece is split on "%" and everything before the first "%" is
discarded, so descriptors must be preceded by "%"; descriptor "s" yields
the string fragment and descriptor "d" yields the parsed integer
fragment; "#" and "$" are not descriptors.  Concretely, an entry with key
"%d__42" is stored with fragment_0_integer = 42, an entry with key
"%s__hello" with fragment_0_string = "hello", and the keys "#__42" and
"$__hello" yield null fragments. -/
theorem c3_amended_fragments :
    (∀ vs i v, extractIntegerFragment vs i = some v →
      ∃ tv, vs.get? i = some tv ∧ tv.1 = INTEGER_DESCRIPTOR ∧ parseI64 tv.2 = some v) ∧
    (∀ vs i v, extractStringFragment vs i = some v →
      ∃ tv, vs.get? i = some tv ∧ tv.1 = STRING_DESCRIPTOR ∧ tv.2 = v) ∧
    splitToFragments keyPercentD42 = [(INTEGER_DESCRIPTOR, str42)] ∧
    splitToFragments keyHash42 = [] ∧
    (mkInsertableDataEntry 1 dePercentD42 1).fragment_0_integer = some 42 ∧
    (mkInsertableDataEntry 1 dePercentSHello 1).fragment_0_string = some strHello ∧
    (mkInsertableDataEntry 1 deHash42 1).fragment_0_integer = none ∧
    (mkInsertableDataEntry 1 deDollarHello 1).fragment_0_string = none := by
  refine ⟨?_, ?_, by decide, by decide, by decide, by decide, by decide, by decide⟩
  · intro vs i v h
    cases hg : vs.get? i with
    | none =>
      simp only [extractIntegerFragment, hg] at h
      exact absurd h (by simp)
    | some tv =>
      simp only [extractIntegerFragment, hg] at h
      by_cases ht : tv.1 = INTEGER_DESCRIPTOR
      · rw [if_pos ht] at h
        exact ⟨tv, rfl, ht, h⟩
      · rw [if_neg ht] at h
        exact absurd h (by simp)
  · intro vs i v h
    cases hg : vs.get? i with
    | none =>
      simp only [extractStringFragment, hg] at h
      exact absurd h (by simp)
    | some tv =>
      simp only [extractStringFragment, hg] at h
      by_cases ht : tv.1 = STRING_DESCRIPTOR
      · rw [if_pos ht] at h
        exact ⟨tv, rfl, ht, by exact Option.some.inj h⟩
      · rw [if_neg ht] at h
        exact absurd h (by simp)

/-- Witness for C3 (amended): the integer-descriptor rule applied at a
concrete fragment list. -/
theorem c3_witness :
    ∃ tv, [(INTEGER_DESCRIPTOR, str42)].get? 0 = some tv ∧
      tv.1 = INTEGER_DESCRIPTOR ∧ parseI64 tv.2 = some 42 :=
  c3_amended_fragments.1 [(INTEGER_DESCRIPTOR, str42)] 0 42 (by decide)

/-- C8, counterexample: when the query succeeds but yields no row and the
tracked timestamp is stale beyond MAX_BLOCK_AGE, the poller emits Ready
(leaving the tracked state unchanged), while the claim as stated requires
Dead. -/
theorem c8_counterexample :
    readinessPoll (LastBlock.mk 5 0) 301 (.ok none) = (.ready, LastBlock.mk 5 0) ∧
    claimedReadiness (LastBlock.mk 5 0) 301 (.ok none) = .dead ∧
    Readiness.ready ≠ Readiness.dead :=
  ⟨rfl, rfl, by decide⟩

/-- C8, amended: a queried timestamp strictly greater than the tracked one
advances both tracked fields and emits Ready; a queried timestamp not
greater emits Dead when the monotonic time since the last change exceeds
MAX_BLOCK_AGE and Ready otherwise; a successful query with no row emits
Ready and leaves the tracked state unchanged; a failed query emits
Dead. -/
theorem c8_amended_readiness (lb : LastBlock) (now : Nat)
    (q : Except Unit (Option Int)) :
    (∀ t, q = .ok (some t) → lb.timestamp < t →
      readinessPoll lb now q = (.ready, { timestamp := t, last_change := now })) ∧
    (∀ t, q = .ok (some t) → t ≤ lb.timestamp →
      readinessPoll lb now q =
        ((if MAX_BLOCK_AGE < now - lb.last_change then .dead else .ready), lb)) ∧
    (q = .ok none → readinessPoll lb now q = (.ready, lb)) ∧
    (∀ e, q = .error e → readinessPoll lb now q = (.dead, lb)) := by
  refine ⟨?_, ?_, ?_, ?_⟩
  · intro t hq hlt
    subst hq
    simp [readinessPoll, hlt]
  · intro t hq hle
    subst hq
    by_cases hc : MAX_BLOCK_AGE < now - lb.last_change <;>
      simp [readinessPoll, not_lt.mpr hle, hc]
  · intro hq
    subst hq
    simp [readinessPoll]
  · intro e hq
    subst hq
    simp [readinessPoll]

/-- Witness for C8 (amended): the stale-value branch at concrete inputs. -/
theorem c8_witness :
    readinessPoll (LastBlock.mk 5 0) 301 (.ok (some 4)) =
      ((if MAX_BLOCK_AGE < 301 - (LastBlock.mk 5 0).last_change
        then Readiness.dead else Readiness.ready), LastBlock.mk 5 0) :=
  (c8_amended_readiness (LastBlock.mk 5 0) 301 (.ok (some 4))).2.1 4 rfl (by decide)

/-- C7: after each decoded event the batcher flushes exactly under the
documented conditions: for a Block, iff the pending batch (including the
event) reached batch_max_size or the elapsed time since the batch origin
reached batch_max_wait; for a Microblock or Rollback, always; and every
flush clears the buffer and resets the time origin to the current
instant. -/
theorem c7_batcher (msize mwait : Nat) (st : BatcherState) (now h : Nat)
    (upd : BlockchainUpdate) :
    (∀ b, upd = .block b →
      ((runStep msize mwait st now upd h).2.isSome ↔
        (msize ≤ st.result.length + 1 ∨ mwait ≤ now - st.start))) ∧
    (∀ b, upd = .microblock b → (runStep msize mwait st now upd h).2.isSome) ∧
    (∀ sig, upd = .rollback sig → (runStep msize mwait st now upd h).2.isSome) ∧
    (∀ st2 out, runStep msize mwait st now upd h = (st2, some out) →
      st2.result = [] ∧ st2.start = now) := by
  refine ⟨?_, ?_, ?_, ?_⟩
  · intro b hb
    subst hb
    by_cases h1 : msize ≤ st.result.length + 1 <;>
      by_cases h2 : mwait ≤ now - st.start <;>
        simp [runStep, h1, h2]
  · intro b hb
    subst hb
    simp [runStep]
  · intro sig hb
    subst hb
    simp [runStep]
  · intro st2 out he
    cases upd with
    | block b =>
      simp only [runStep] at he
      split at he
      · injection he with h1 h2
        subst h1
        exact ⟨rfl, rfl⟩
      · injection he with h1 h2
        exact absurd h2 (by simp)
    | microblock b =>
      injection he with h1 h2
      subst h1
      exact ⟨rfl, rfl⟩
    | rollback sig =>
      injection he with h1 h2
      subst h1
      exact ⟨rfl, rfl⟩

/-- Witness for C7: the Block branch at concrete inputs (batch too small,
wait not reached: no flush). -/
theorem c7_witness :
    (runStep 2 5 (BatcherState.mk [] 0 0) 3 (.block appendA0) 7).2.isSome ↔
      (2 ≤ (BatcherState.mk [] 0 0).result.length + 1 ∨
        5 ≤ 3 - (BatcherState.mk [] 0 0).start) :=
  (c7_batcher 2 5 (BatcherState.mk [] 0 0) 3 7 (.block appendA0)).1 appendA0 rfl

/-- C2, counterexample: on the reachable store holding only the key block
A (uid 1), appending a microblock and then a block — a legal append
sequence — and rolling back to uid 1 does not restore the
blocks_microblocks table: the squash performed by the block append deleted
the microblock row and rewrote the id of block A to the microblock total
id, and the rollback does not undo either. -/
theorem c2_counterexample :
    Reachable storeA0 ∧
    (∀ b ∈ storeA0.blocks, b.uid ≤ 1) ∧
    (applyUpdatesItems storeA0
        [.microblock appendMu0, .blocks [appendB0]]).map
      (fun t => (rollbackStore t 1).blocks) ≠ some storeA0.blocks := by
  refine ⟨?_, by decide, by decide⟩
  exact Reachable.step _ (.blocks [appendA0]) _ Reachable.init (by decide) rfl

/-- C5, counterexample to the contiguity clause: append block A (entry uid
1), block B (entry uid 2), roll back to A, append block C; the new entry
receives uid 3 (the sequence was not rewound), so the committed uids are
1 and 3 — distinct, but not a contiguous prefix of the sequence values. -/
theorem c5_counterexample :
    Reachable storeS5 ∧
    storeS5.dataEntries.map (fun r => r.uid) = [1, 3] ∧
    ¬ uidsContiguous storeS5 := by
  refine ⟨?_, by decide, by decide⟩
  have h1 : Reachable storeS1 :=
    Reachable.step _ (.blocks [appendA1]) _ Reachable.init (by decide) rfl
  have h2 : Reachable storeS2 :=
    Reachable.step _ (.blocks [appendB1]) _ h1 (by decide) rfl
  have h3 : Reachable storeS4 :=
    Reachable.step _ (.rollback idA) _ h2 (by decide) rfl
  exact Reachable.step _ (.blocks [appendC1]) _ h3 (by decide) rfl

/-- insertByUid produces a permutation of consing. -/
theorem perm_insertByUid (e : InsertableDataEntry) :
    ∀ l : List InsertableDataEntry, List.Perm (insertByUid e l) (e :: l) := by
  intro l
  induction l with
  | nil => simp [insertByUid]
  | cons x xs ih =>
    by_cases h : e.uid ≤ x.uid
    · simp [insertByUid, h]
    · rw [insertByUid, if_neg h]
      exact ((ih.cons x).trans (List.Perm.swap e x xs))

/-- sortByUid produces a permutation of its input. -/
theorem perm_sortByUid : ∀ l : List InsertableDataEntry, List.Perm (sortByUid l) l := by
  intro l
  induction l with
  | nil => simp [sortByUid]
  | cons x xs ih =>
    exact (perm_insertByUid x (sortByUid xs)).trans (ih.cons x)

/-- Inserting an element below every element of a list prepends it. -/
theorem insertByUid_front (e : InsertableDataEntry) (l : List InsertableDataEntry)
    (h : ∀ y ∈ l, e.uid ≤ y.uid) : insertByUid e l = e :: l := by
  cases l with
  | nil => rfl
  | cons x xs => simp [insertByUid, h x (by simp)]

/-- insertByUid preserves sortedness by uid. -/
theorem sorted_insertByUid (e : InsertableDataEntry) :
    ∀ l : List InsertableDataEntry,
      l.Pairwise (fun a b => a.uid ≤ b.uid) →
      (insertByUid e l).Pairwise (fun a b => a.uid ≤ b.uid) := by
  intro l
  induction l with
  | nil => intro _; simp [insertByUid]
  | cons x xs ih =>
    intro h
    rw [List.pairwise_cons] at h
    by_cases he : e.uid ≤ x.uid
    · rw [insertByUid, if_pos he, List.pairwise_cons]
      refine ⟨?_, List.pairwise_cons.mpr h⟩
      intro y hy
      rcases List.mem_cons.mp hy with rfl | hy2
      · exact he
      · exact le_trans he (h.1 y hy2)
    · rw [insertByUid, if_neg he, List.pairwise_cons]
      refine ⟨?_, ih h.2⟩
      intro y hy
      rcases List.mem_cons.mp ((perm_insertByUid e xs).mem_iff.mp hy) with rfl | hy2
      · omega
      · exact h.1 y hy2

/-- sortByUid sorts by uid. -/
theorem sorted_sortByUid (l : List InsertableDataEntry) :
    (sortByUid l).Pairwise (fun a b => a.uid ≤ b.uid) := by
  induction l with
  | nil => simp [sortByUid]
  | cons x xs ih => exact sorted_insertByUid x (sortByUid xs) ih

/-- sortByUid is the identity on lists already sorted by uid. -/
theorem sortByUid_of_sorted :
    ∀ l : List InsertableDataEntry,
      l.Pairwise (fun a b => a.uid ≤ b.uid) → sortByUid l = l := by
  intro l
  induction l with
  | nil => intro _; rfl
  | cons x xs ih =>
    intro h
    rw [List.pairwise_cons] at h
    rw [sortByUid, ih h.2]
    exact insertByUid_front x xs h.1

/-- Filtering commutes with ordered insertion into a sorted list. -/
theorem filter_insertByUid (p : InsertableDataEntry → Bool) (e : InsertableDataEntry) :
    ∀ l : List InsertableDataEntry,
      l.Pairwise (fun a b => a.uid ≤ b.uid) →
      (insertByUid e l).filter p =
        if p e then insertByUid e (l.filter p) else l.filter p := by
  intro l
  induction l with
  | nil =>
    intro _
    cases hp : p e <;> simp [insertByUid, List.filter_cons, hp]
  | cons x xs ih =>
    intro h
    rw [List.pairwise_cons] at h
    by_cases he : e.uid ≤ x.uid
    · rw [insertByUid, if_pos he]
      have hfr : insertByUid e ((x :: xs).filter p) = e :: (x :: xs).filter p := by
        apply insertByUid_front
        intro y hy
        rcases List.mem_cons.mp (List.mem_of_mem_filter hy) with rfl | hmem
        · exact he
        · exact le_trans he (h.1 y hmem)
      cases hp : p e
      · rw [List.filter_cons_of_neg (by simp [hp]), if_neg (by simp [hp])]
      · rw [List.filter_cons_of_pos (by simp [hp]), if_pos (by simp [hp]), hfr]
    · rw [insertByUid, if_neg he]
      cases hp : p e <;> cases hpx : p x
      · rw [List.filter_cons_of_neg (by simp [hpx]),
          List.filter_cons_of_neg (by simp [hpx]), ih h.2, if_neg (by simp [hp]),
          if_neg (by simp [hp])]
      · rw [List.filter_cons_of_pos (by simp [hpx]),
          List.filter_cons_of_pos (by simp [hpx]), ih h.2, if_neg (by simp [hp]),
          if_neg (by simp [hp])]
      · rw [List.filter_cons_of_neg (by simp [hpx]),
          List.filter_cons_of_neg (by simp [hpx]), ih h.2, if_pos (by simp [hp]),
          if_pos (by simp [hp])]
      · rw [List.filter_cons_of_pos (by simp [hpx]), ih h.2, if_pos (by simp [hp]),
          List.filter_cons_of_pos (by simp [hpx]), if_pos (by simp [hp]),
          insertByUid, if_neg he]

/-- Filtering commutes with sortByUid. -/
theorem filter_sortByUid (p : InsertableDataEntry → Bool) :
    ∀ l : List InsertableDataEntry,
      (sortByUid l).filter p = sortByUid (l.filter p) := by
  intro l
  induction l with
  | nil => rfl
  | cons x xs ih =>
    rw [sortByUid, filter_insertByUid p x (sortByUid xs) (sorted_sortByUid xs)]
    cases hp : p x
    · rw [List.filter_cons_of_neg (by simp [hp]), if_neg (by simp [hp]), ih]
    · rw [List.filter_cons_of_pos (by simp [hp]), if_pos (by simp [hp]), ih, sortByUid]

/-- Membership in firstOccAux: present in the input and not yet seen. -/
theorem mem_firstOccAux :
    ∀ (l seen : List (String × String)) (k : String × String),
      k ∈ firstOccAux seen l ↔ (k ∈ l ∧ k ∉ seen) := by
  intro l
  induction l with
  | nil => intro seen k; simp [firstOccAux]
  | cons a as ih =>
    intro seen k
    by_cases ha : a ∈ seen
    · rw [firstOccAux, if_pos ha, ih]
      constructor
      · rintro ⟨h1, h2⟩
        exact ⟨List.mem_cons_of_mem a h1, h2⟩
      · rintro ⟨h1, h2⟩
        rcases List.mem_cons.mp h1 with rfl | h1
        · exact absurd ha h2
        · exact ⟨h1, h2⟩
    · rw [firstOccAux, if_neg ha]
      constructor
      · intro h1
        rcases List.mem_cons.mp h1 with rfl | h1
        · exact ⟨List.mem_cons_self _ _, ha⟩
        · rw [ih] at h1
          exact ⟨List.mem_cons_of_mem a h1.1,
            fun hk => h1.2 (List.mem_cons_of_mem a hk)⟩
      · rintro ⟨h1, h2⟩
        rcases List.mem_cons.mp h1 with rfl | h1
        · exact List.mem_cons_self _ _
        · by_cases hk : k = a
          · subst hk
            exact List.mem_cons_self _ _
          · refine List.mem_cons_of_mem a ((ih _ k).mpr ⟨h1, ?_⟩)
            intro hc
            rcases List.mem_cons.mp hc with h | h
            · exact hk h
            · exact h2 h

/-- firstOccAux never repeats a key. -/
theorem nodup_firstOccAux :
    ∀ (l seen : List (String × String)), (firstOccAux seen l).Nodup := by
  intro l
  induction l with
  | nil => intro seen; simp [firstOccAux]
  | cons a as ih =>
    intro seen
    by_cases ha : a ∈ seen
    · rw [firstOccAux, if_pos ha]
      exact ih seen
    · rw [firstOccAux, if_neg ha, List.nodup_cons]
      refine ⟨?_, ih _⟩
      intro hc
      exact ((mem_firstOccAux as (a :: seen) a).mp hc).2 (List.mem_cons_self _ _)

/-- Membership in firstOccKeys is membership in the input. -/
theorem mem_firstOccKeys (l : List (String × String)) (k : String × String) :
    k ∈ firstOccKeys l ↔ k ∈ l := by
  rw [firstOccKeys, mem_firstOccAux]
  simp

/-- firstOccKeys never repeats a key. -/
theorem nodup_firstOccKeys (l : List (String × String)) :
    (firstOccKeys l).Nodup :=
  nodup_firstOccAux l []

/-- Membership in a fiber. -/
theorem mem_fiberOf (r : InsertableDataEntry) (l : List InsertableDataEntry)
    (k : String × String) : r ∈ fiberOf l k ↔ r ∈ l ∧ r.addrKey = k := by
  simp [fiberOf, List.mem_filter]

/-- Fibers distribute over append. -/
theorem fiberOf_append (l₁ l₂ : List InsertableDataEntry) (k : String × String) :
    fiberOf (l₁ ++ l₂) k = fiberOf l₁ k ++ fiberOf l₂ k := by
  simp [fiberOf, List.filter_append]

/-- Fibers commute with maps that preserve the (address, key) pair. -/
theorem fiberOf_map (f : InsertableDataEntry → InsertableDataEntry)
    (hf : ∀ r, (f r).addrKey = r.addrKey) (l : List InsertableDataEntry)
    (k : String × String) : fiberOf (l.map f) k = (fiberOf l k).map f := by
  induction l with
  | nil => rfl
  | cons x xs ih =>
    by_cases hx : x.addrKey = k
    · have h1 : fiberOf ((x :: xs).map f) k = f x :: fiberOf (xs.map f) k := by
        rw [List.map_cons, fiberOf, List.filter_cons_of_pos (by simp [hf, hx])]
        rfl
      have h2 : fiberOf (x :: xs) k = x :: fiberOf xs k := by
        rw [fiberOf, List.filter_cons_of_pos (by simp [hx])]
        rfl
      rw [h1, h2, List.map_cons, ih]
    · have h1 : fiberOf ((x :: xs).map f) k = fiberOf (xs.map f) k := by
        rw [List.map_cons, fiberOf, List.filter_cons_of_neg (by simp [hf, hx])]
        rfl
      have h2 : fiberOf (x :: xs) k = fiberOf xs k := by
        rw [fiberOf, List.filter_cons_of_neg (by simp [hx])]
        rfl
      rw [h1, h2, ih]

/-- Fibers commute with sortByUid. -/
theorem fiberOf_sortByUid (l : List InsertableDataEntry) (k : String × String) :
    fiberOf (sortByUid l) k = sortByUid (fiberOf l k) :=
  filter_sortByUid _ l

/-- The uid list of chainLink is the uid list of its input. -/
theorem chainLink_map_uid :
    ∀ l : List InsertableDataEntry,
      (chainLink l).map (fun r => r.uid) = l.map (fun r => r.uid) := by
  intro l
  induction l with
  | nil => rfl
  | cons e rest ih =>
    cases rest with
    | nil => rfl
    | cons f rest2 =>
      rw [chainLink, List.map_cons, List.map_cons, ih]

/-- chainLink of a non-empty list is its head with superseded_by rewritten
(to the uid of the second element, or MAX_UID), consed onto the chainLink
of the tail. -/
theorem chainLink_cons (e : InsertableDataEntry) (rest : List InsertableDataEntry) :
    ∃ v, chainLink (e :: rest) = { e with superseded_by := v } :: chainLink rest ∧
      (rest = [] → v = MAX_UID) ∧
      (∀ f rest2, rest = f :: rest2 → v = f.uid) := by
  cases rest with
  | nil =>
    refine ⟨MAX_UID, ?_, fun _ => rfl, ?_⟩
    · rw [chainLink, chainLink]
    · intro f rest2 h
      cases h
  | cons f rest2 =>
    refine ⟨f.uid, ?_, ?_, ?_⟩
    · rw [chainLink]
    · intro h
      cases h
    · intro f2 rest3 h
      cases h
      rfl

/-- Every element of chainLink is an input element with only superseded_by
rewritten. -/
theorem chainLink_mem :
    ∀ (l : List InsertableDataEntry) (r : InsertableDataEntry), r ∈ chainLink l →
      ∃ e ∈ l, r = { e with superseded_by := r.superseded_by } := by
  intro l
  induction l with
  | nil =>
    intro r hr
    exact absurd hr (by simp [chainLink])
  | cons e rest ih =>
    intro r hr
    obtain ⟨v, hv, _, _⟩ := chainLink_cons e rest
    rw [hv] at hr
    rcases List.mem_cons.mp hr with heq | hr2
    · subst heq
      exact ⟨e, List.mem_cons_self _ _, rfl⟩
    · obtain ⟨e2, he2, hr2⟩ := ih r hr2
      exact ⟨e2, List.mem_cons_of_mem e he2, hr2⟩

/-- Every superseded_by produced by chainLink is MAX_UID or the uid of an
input element. -/
theorem chainLink_sup :
    ∀ (l : List InsertableDataEntry) (r : InsertableDataEntry), r ∈ chainLink l →
      r.superseded_by = MAX_UID ∨ ∃ f ∈ l, r.superseded_by = f.uid := by
  intro l
  induction l with
  | nil =>
    intro r hr
    exact absurd hr (by simp [chainLink])
  | cons e rest ih =>
    intro r hr
    obtain ⟨v, hv, hnil, hcons⟩ := chainLink_cons e rest
    rw [hv] at hr
    rcases List.mem_cons.mp hr with heq | hr2
    · subst heq
      cases rest with
      | nil => exact Or.inl (hnil rfl)
      | cons f rest2 =>
        refine Or.inr ⟨f, List.mem_cons_of_mem e (List.mem_cons_self _ _), ?_⟩
        exact hcons f rest2 rfl
    · rcases ih r hr2 with h | ⟨g, hg, hgu⟩
      · exact Or.inl h
      · exact Or.inr ⟨g, List.mem_cons_of_mem e hg, hgu⟩

/-- The output of chainLink satisfies the linked-list shape. -/
theorem chainLink_linksOK (l : List InsertableDataEntry) :
    chainLinksOK (chainLink l) := by
  induction l with
  | nil => simp [chainLink, chainLinksOK]
  | cons e rest ih =>
    cases rest with
    | nil => simp [chainLink, chainLinksOK]
    | cons f rest2 =>
      obtain ⟨v, hv, _, _⟩ := chainLink_cons f rest2
      show chainLinksOK ({ e with superseded_by := f.uid } :: chainLink (f :: rest2))
      rw [hv] at ih ⊢
      exact ⟨rfl, ih⟩

/-- The reverse fold of assignChain computes chainLink (and the uid of the
head as the final accumulator). -/
theorem foldrPass (l : List InsertableDataEntry) :
    (l.foldr (fun cur acc => (cur.uid, { cur with superseded_by := acc.1 } :: acc.2))
      (MAX_UID, ([] : List InsertableDataEntry))) =
      ((match l with | [] => MAX_UID | x :: _ => x.uid), chainLink l) := by
  induction l with
  | nil => rfl
  | cons e rest ih =>
    rw [List.foldr_cons, ih]
    cases rest with
    | nil => rfl
    | cons f rest2 => rfl

/-- assignChain is chainLink followed by the re-sort. -/
theorem assignChain_eq (l : List InsertableDataEntry) :
    assignChain l = sortByUid (chainLink l) := by
  rw [assignChain, foldrPass]

/-- On a uid-sorted group, assignChain is exactly chainLink. -/
theorem assignChain_of_sorted (l : List InsertableDataEntry)
    (h : l.Pairwise (fun a b => a.uid ≤ b.uid)) : assignChain l = chainLink l := by
  rw [assignChain_eq]
  apply sortByUid_of_sorted
  have h2 : List.Pairwise (fun a b : Int => a ≤ b) (l.map (fun r => r.uid)) :=
    (List.pairwise_map).mpr h
  rw [← chainLink_map_uid] at h2
  exact (List.pairwise_map).mp h2

/-- Partitioning a list into the fibers of a duplicate-free covering key
list is a permutation of the list. -/
theorem perm_fiber_partition :
    ∀ (keys : List (String × String)) (l : List InsertableDataEntry),
      keys.Nodup → (∀ e ∈ l, e.addrKey ∈ keys) →
      List.Perm ((keys.map (fun k => fiberOf l k)).flatten) l := by
  intro keys
  induction keys with
  | nil =>
    intro l _ hcov
    have : l = [] := by
      cases l with
      | nil => rfl
      | cons e es => exact absurd (hcov e (List.mem_cons_self _ _)) (by simp)
    subst this
    simp
  | cons k ks ih =>
    intro l hnd hcov
    rw [List.nodup_cons] at hnd
    rw [List.map_cons, List.flatten_cons]
    have hks : (ks.map (fun k2 => fiberOf l k2)) =
        (ks.map (fun k2 => fiberOf (l.filter (fun e => !(decide (e.addrKey = k)))) k2)) := by
      apply List.map_congr_left
      intro k2 hk2
      have hne : k2 ≠ k := by
        intro he
        subst he
        exact hnd.1 hk2
      rw [fiberOf, fiberOf, List.filter_filter]
      apply List.filter_congr
      intro e he
      by_cases hek : e.addrKey = k2
      · simp [hek, hne]
      · simp [hek]
    rw [hks]
    have hperm2 := ih (l.filter (fun e => !(decide (e.addrKey = k)))) hnd.2 ?side
    case side =>
      intro e he
      rw [List.mem_filter] at he
      have := hcov e he.1
      rcases List.mem_cons.mp this with hk | hk
      · exfalso
        have := he.2
        rw [hk] at this
        simp at this
      · exact hk
    exact (List.Perm.append_left (fiberOf l k) hperm2).trans
      (List.filter_append_perm _ l)

/-- The uid of a constructed entry. -/
theorem mkIDE_uid (bu : Int) (de : DataEntry) (u : Int) :
    (mkInsertableDataEntry bu de u).uid = u := rfl

/-- The block uid of a constructed entry. -/
theorem mkIDE_bu (bu : Int) (de : DataEntry) (u : Int) :
    (mkInsertableDataEntry bu de u).block_uid = bu := rfl

/-- The (address, key) of a constructed entry. -/
theorem mkIDE_addrKey (bu : Int) (de : DataEntry) (u : Int) :
    (mkInsertableDataEntry bu de u).addrKey = (de.address, de.key) := rfl

/-- mkEntriesFrom preserves length. -/
theorem mkEntriesFrom_length :
    ∀ (us : List (Int × DataEntry)) (next : Int),
      (mkEntriesFrom next us).length = us.length := by
  intro us
  induction us with
  | nil => intro next; rfl
  | cons p rest ih =>
    intro next
    cases p with
    | mk bu de => rw [mkEntriesFrom, List.length_cons, ih, List.length_cons]

/-- Every entry built by mkEntriesFrom has its uid in the assigned range. -/
theorem mkEntriesFrom_uid_bound :
    ∀ (us : List (Int × DataEntry)) (next : Int) (r : InsertableDataEntry),
      r ∈ mkEntriesFrom next us → next ≤ r.uid ∧ r.uid < next + us.length := by
  intro us
  induction us with
  | nil =>
    intro next r hr
    exact absurd hr (by simp [mkEntriesFrom])
  | cons p rest ih =>
    intro next r hr
    cases p with
    | mk bu de =>
      rw [mkEntriesFrom] at hr
      rcases List.mem_cons.mp hr with rfl | hr2
      · rw [mkIDE_uid, List.length_cons]
        constructor
        · exact le_refl _
        · have : (0 : Int) ≤ rest.length := Int.ofNat_nonneg _
          omega
      · have := ih (next + 1) r hr2
        rw [List.length_cons]
        omega

/-- Every entry built by mkEntriesFrom is the constructed entry of one of
the input updates. -/
theorem mkEntriesFrom_mem :
    ∀ (us : List (Int × DataEntry)) (next : Int) (r : InsertableDataEntry),
      r ∈ mkEntriesFrom next us →
      ∃ p ∈ us, r = mkInsertableDataEntry p.1 p.2 r.uid := by
  intro us
  induction us with
  | nil =>
    intro next r hr
    exact absurd hr (by simp [mkEntriesFrom])
  | cons p rest ih =>
    intro next r hr
    cases p with
    | mk bu de =>
      rw [mkEntriesFrom] at hr
      rcases List.mem_cons.mp hr with rfl | hr2
      · exact ⟨(bu, de), List.mem_cons_self _ _, rfl⟩
      · obtain ⟨q, hq, hr3⟩ := ih (next + 1) r hr2
        exact ⟨q, List.mem_cons_of_mem _ hq, hr3⟩

/-- The entries of mkEntriesFrom are strictly uid-ascending. -/
theorem mkEntriesFrom_pairwise_uid :
    ∀ (us : List (Int × DataEntry)) (next : Int),
      (mkEntriesFrom next us).Pairwise (fun a b => a.uid < b.uid) := by
  intro us
  induction us with
  | nil => intro next; simp [mkEntriesFrom]
  | cons p rest ih =>
    intro next
    cases p with
    | mk bu de =>
      rw [mkEntriesFrom, List.pairwise_cons]
      refine ⟨?_, ih (next + 1)⟩
      intro r hr
      have := (mkEntriesFrom_uid_bound rest (next + 1) r hr).1
      rw [mkIDE_uid]
      omega

/-- mkEntriesFrom with weakly ascending input block uids yields weakly
ascending entry block uids. -/
theorem mkEntriesFrom_pairwise_bu :
    ∀ (us : List (Int × DataEntry)) (next : Int),
      us.Pairwise (fun p q => p.1 ≤ q.1) →
      (mkEntriesFrom next us).Pairwise (fun a b => a.block_uid ≤ b.block_uid) := by
  intro us
  induction us with
  | nil => intro next _; simp [mkEntriesFrom]
  | cons p rest ih =>
    intro next h
    rw [List.pairwise_cons] at h
    cases p with
    | mk bu de =>
      rw [mkEntriesFrom, List.pairwise_cons]
      refine ⟨?_, ih (next + 1) h.2⟩
      intro r hr
      obtain ⟨q, hq, hr2⟩ := mkEntriesFrom_mem rest (next + 1) r hr
      rw [mkIDE_bu, hr2, mkIDE_bu]
      exact h.1 q hq

/-- Position i of mkEntriesFrom is the entry built from position i of the
updates with uid next + i. -/
theorem mkEntriesFrom_get? :
    ∀ (us : List (Int × DataEntry)) (next : Int) (i : Nat),
      (mkEntriesFrom next us).get? i =
        (us.get? i).map (fun p => mkInsertableDataEntry p.1 p.2 (next + (i : Int))) := by
  intro us
  induction us with
  | nil => intro next i; cases i <;> rfl
  | cons p rest ih =>
    intro next i
    cases p with
    | mk bu de =>
      cases i with
      | zero => simp [mkEntriesFrom]
      | succ j =>
        have h1 : (mkEntriesFrom next ((bu, de) :: rest)).get? (j + 1) =
            (mkEntriesFrom (next + 1) rest).get? j := rfl
        have h2 : (((bu, de) :: rest)).get? (j + 1) = rest.get? j := rfl
        rw [h1, h2, ih (next + 1) j]
        have h3 : next + 1 + (j : Int) = next + (((j + 1 : Nat)) : Int) := by
          push_cast
          ring
        rw [h3]

/-- Uniqueness of lists that are permutations and both strictly sorted by
an integer measure. -/
theorem eq_of_perm_of_pairwise_lt {α : Type} (f : α → Int) {l₁ l₂ : List α}
    (hp : List.Perm l₁ l₂)
    (h₁ : l₁.Pairwise (fun a b => f a < f b))
    (h₂ : l₂.Pairwise (fun a b => f a < f b)) : l₁ = l₂ := by
  haveI : IsAntisymm α (fun a b => f a < f b) :=
    ⟨fun a b hab hba => absurd (lt_trans hab hba) (lt_irrefl _)⟩
  exact List.eq_of_perm_of_sorted hp h₁ h₂

/-- chainLink preserves weak uid sortedness. -/
theorem chainLink_pairwise_le (l : List InsertableDataEntry)
    (h : l.Pairwise (fun a b => a.uid ≤ b.uid)) :
    (chainLink l).Pairwise (fun a b => a.uid ≤ b.uid) := by
  have h2 : List.Pairwise (fun a b : Int => a ≤ b) (l.map (fun r => r.uid)) :=
    (List.pairwise_map).mpr h
  rw [← chainLink_map_uid] at h2
  exact (List.pairwise_map).mp h2

/-- A fiber of a strictly uid-sorted list is weakly uid-sorted. -/
theorem fiber_pairwise_le (entries : List InsertableDataEntry)
    (hpw : entries.Pairwise (fun a b => a.uid < b.uid)) (k : String × String) :
    (fiberOf entries k).Pairwise (fun a b => a.uid ≤ b.uid) :=
  (List.Pairwise.sublist (List.filter_sublist entries) hpw).imp (fun h => le_of_lt h)

/-- chainedGroups in fiber form. -/
theorem chainedGroups_eq (entries : List InsertableDataEntry) :
    chainedGroups entries =
      (firstOccKeys (entries.map (fun e => e.addrKey))).map
        (fun k => (k, assignChain (fiberOf entries k))) := by
  rw [chainedGroups, groupEntries, List.map_map]
  rfl

/-- A fiber is non-empty exactly when its key occurs among the entry
keys. -/
theorem fiber_ne_nil_iff (entries : List InsertableDataEntry) (k : String × String) :
    fiberOf entries k ≠ [] ↔ k ∈ entries.map (fun e => e.addrKey) := by
  constructor
  · intro h
    cases hf : fiberOf entries k with
    | nil => exact absurd hf h
    | cons x xs =>
      have hx : x ∈ fiberOf entries k := by
        rw [hf]
        exact List.mem_cons_self _ _
      rw [mem_fiberOf] at hx
      rw [List.mem_map]
      exact ⟨x, hx.1, hx.2⟩
  · intro h hf
    rw [List.mem_map] at h
    obtain ⟨e, he, hek⟩ := h
    have : e ∈ fiberOf entries k := (mem_fiberOf e entries k).mpr ⟨he, hek⟩
    rw [hf] at this
    exact absurd this (by simp)

/-- The fiber of a flatten of keyed lists over duplicate-free keys picks
the list of the key, when present. -/
theorem fiberOf_flatten_of_keyed (F : (String × String) → List InsertableDataEntry)
    (hF : ∀ k r, r ∈ F k → r.addrKey = k) :
    ∀ (keys : List (String × String)), keys.Nodup → ∀ k0,
      fiberOf ((keys.map F).flatten) k0 = if k0 ∈ keys then F k0 else [] := by
  intro keys
  induction keys with
  | nil =>
    intro _ k0
    simp [fiberOf]
  | cons k ks ih =>
    intro hnd k0
    rw [List.nodup_cons] at hnd
    rw [List.map_cons, List.flatten_cons, fiberOf_append, ih hnd.2 k0]
    by_cases hk : k0 = k
    · subst hk
      have h1 : fiberOf (F k0) k0 = F k0 := by
        rw [fiberOf, List.filter_eq_self]
        intro r hr
        simp [hF k0 r hr]
      rw [h1, if_neg (fun hc => hnd.1 hc), if_pos (List.mem_cons_self _ _)]
      simp
    · have h1 : fiberOf (F k) k0 = [] := by
        rw [fiberOf, List.filter_eq_nil_iff]
        intro r hr
        simp only [hF k r hr, decide_eq_true_eq]
        exact fun hc => hk hc.symm
      rw [h1, List.nil_append]
      by_cases hm : k0 ∈ ks
      · rw [if_pos hm, if_pos (List.mem_cons_of_mem k hm)]
      · rw [if_neg hm, if_neg (by
          intro hc
          rcases List.mem_cons.mp hc with h | h
          · exact hk h
          · exact hm h)]

/-- The central structure lemma: every fiber of the inserted row list is
the chainLink of the corresponding fiber of the constructed entries. -/
theorem fiberOf_insertedOf (entries : List InsertableDataEntry)
    (hpw : entries.Pairwise (fun a b => a.uid < b.uid)) (k0 : String × String) :
    fiberOf (insertedOf (chainedGroups entries)) k0 = chainLink (fiberOf entries k0) := by
  rw [insertedOf, chainedGroups_eq, List.map_map]
  have hcomp : ((fun g : (String × String) × List InsertableDataEntry => g.2) ∘
      fun k => (k, assignChain (fiberOf entries k))) =
      fun k => chainLink (fiberOf entries k) := by
    funext k
    exact assignChain_of_sorted _ (fiber_pairwise_le entries hpw k)
  rw [hcomp, fiberOf_sortByUid]
  rw [fiberOf_flatten_of_keyed (fun k => chainLink (fiberOf entries k)) ?keyed
    (firstOccKeys (entries.map (fun e => e.addrKey)))
    (nodup_firstOccKeys _) k0]
  case keyed =>
    intro k r hr
    obtain ⟨e, he, hre⟩ := chainLink_mem _ r hr
    rw [mem_fiberOf] at he
    rw [hre]
    exact he.2
  by_cases hm : k0 ∈ firstOccKeys (entries.map (fun e => e.addrKey))
  · rw [if_pos hm]
    apply sortByUid_of_sorted
    exact chainLink_pairwise_le _ (fiber_pairwise_le entries hpw k0)
  · rw [if_neg hm]
    have : fiberOf entries k0 = [] := by
      by_contra hc
      exact hm ((mem_firstOccKeys _ _).mpr ((fiber_ne_nil_iff entries k0).mp hc))
    rw [this]
    rfl

/-- insertedOf in chainLink-fiber form. -/
theorem insertedOf_eq_sort (entries : List InsertableDataEntry)
    (hpw : entries.Pairwise (fun a b => a.uid < b.uid)) :
    insertedOf (chainedGroups entries) =
      sortByUid (((firstOccKeys (entries.map (fun e => e.addrKey))).map
        (fun k => chainLink (fiberOf entries k))).flatten) := by
  rw [insertedOf, chainedGroups_eq, List.map_map]
  have hcomp : ((fun g : (String × String) × List InsertableDataEntry => g.2) ∘
      fun k => (k, assignChain (fiberOf entries k))) =
      fun k => chainLink (fiberOf entries k) := by
    funext k
    exact assignChain_of_sorted _ (fiber_pairwise_le entries hpw k)
  rw [hcomp]

/-- The fibers of the entry keys partition the entries. -/
theorem perm_entries_partition (entries : List InsertableDataEntry) :
    List.Perm (((firstOccKeys (entries.map (fun e => e.addrKey))).map
      (fun k => fiberOf entries k)).flatten) entries := by
  apply perm_fiber_partition
  · exact nodup_firstOccKeys _
  · intro e he
    rw [mem_firstOccKeys, List.mem_map]
    exact ⟨e, he, rfl⟩

/-- Every inserted row is a constructed entry with only superseded_by
rewritten, to MAX_UID or to the uid of another constructed entry. -/
theorem insertedOf_mem (entries : List InsertableDataEntry)
    (hpw : entries.Pairwise (fun a b => a.uid < b.uid)) (r : InsertableDataEntry)
    (hr : r ∈ insertedOf (chainedGroups entries)) :
    (∃ e ∈ entries, r = { e with superseded_by := r.superseded_by }) ∧
    (r.superseded_by = MAX_UID ∨ ∃ f ∈ entries, r.superseded_by = f.uid) := by
  rw [insertedOf_eq_sort entries hpw] at hr
  have hr2 := (perm_sortByUid _).mem_iff.mp hr
  rw [List.mem_flatten] at hr2
  obtain ⟨L, hL, hrL⟩ := hr2
  rw [List.mem_map] at hL
  obtain ⟨k, hk, hLk⟩ := hL
  subst hLk
  constructor
  · obtain ⟨e, he, hre⟩ := chainLink_mem _ r hrL
    rw [mem_fiberOf] at he
    exact ⟨e, he.1, hre⟩
  · rcases chainLink_sup _ r hrL with h | ⟨f, hf, hfu⟩
    · exact Or.inl h
    · rw [mem_fiberOf] at hf
      exact Or.inr ⟨f, hf.1, hfu⟩

/-- The uid list of the inserted rows equals the uid list of the
constructed entries (insertion re-sorts what was already globally
uid-sorted). -/
theorem insertedOf_map_uid (entries : List InsertableDataEntry)
    (hpw : entries.Pairwise (fun a b => a.uid < b.uid)) :
    (insertedOf (chainedGroups entries)).map (fun r => r.uid) =
      entries.map (fun r => r.uid) := by
  have hflat : (((firstOccKeys (entries.map (fun e => e.addrKey))).map
      (fun k => chainLink (fiberOf entries k))).flatten).map (fun r => r.uid) =
      (((firstOccKeys (entries.map (fun e => e.addrKey))).map
        (fun k => fiberOf entries k)).flatten).map (fun r => r.uid) := by
    rw [List.map_flatten, List.map_flatten, List.map_map, List.map_map]
    have : (List.map (fun r => r.uid) ∘ fun k => chainLink (fiberOf entries k)) =
        (List.map (fun r => r.uid) ∘ fun k => fiberOf entries k) := by
      funext k
      exact chainLink_map_uid _
    rw [this]
  have hperm : List.Perm ((insertedOf (chainedGroups entries)).map (fun r => r.uid))
      (entries.map (fun r => r.uid)) := by
    rw [insertedOf_eq_sort entries hpw]
    exact ((perm_sortByUid _).map _).trans
      (by rw [hflat]; exact (perm_entries_partition entries).map _)
  haveI : IsAntisymm Int (fun a b : Int => a ≤ b) := ⟨fun a b => le_antisymm⟩
  have h1 : List.Pairwise (fun a b : Int => a ≤ b)
      ((insertedOf (chainedGroups entries)).map (fun r => r.uid)) := by
    rw [insertedOf_eq_sort entries hpw]
    exact (List.pairwise_map).mpr (sorted_sortByUid _)
  have h2 : List.Pairwise (fun a b : Int => a ≤ b)
      (entries.map (fun r => r.uid)) :=
    ((List.pairwise_map).mpr hpw).imp (fun h => le_of_lt h)
  exact List.eq_of_perm_of_sorted hperm h1 h2

/-- The inserted rows are strictly uid-sorted. -/
theorem insertedOf_pairwise_lt (entries : List InsertableDataEntry)
    (hpw : entries.Pairwise (fun a b => a.uid < b.uid)) :
    (insertedOf (chainedGroups entries)).Pairwise (fun a b => a.uid < b.uid) := by
  have h : List.Pairwise (fun a b : Int => a < b)
      ((insertedOf (chainedGroups entries)).map (fun r => r.uid)) := by
    rw [insertedOf_map_uid entries hpw]
    exact (List.pairwise_map).mpr hpw
  exact (List.pairwise_map).mp h

/-- The length of the inserted rows. -/
theorem insertedOf_length (entries : List InsertableDataEntry)
    (hpw : entries.Pairwise (fun a b => a.uid < b.uid)) :
    (insertedOf (chainedGroups entries)).length = entries.length := by
  have h := congrArg List.length (insertedOf_map_uid entries hpw)
  rw [List.length_map, List.length_map] at h
  exact h

/-- chainLink preserves the (uid, block_uid, address, key) projection. -/
theorem chainLink_map_proj :
    ∀ l : List InsertableDataEntry,
      (chainLink l).map (fun r => (r.uid, r.block_uid, r.address, r.key)) =
        l.map (fun r => (r.uid, r.block_uid, r.address, r.key)) := by
  intro l
  induction l with
  | nil => rfl
  | cons e rest ih =>
    cases rest with
    | nil => rfl
    | cons f rest2 =>
      rw [chainLink, List.map_cons, List.map_cons, ih]

/-- The inserted rows agree with the constructed entries position by
position on uid, block uid, address and key. -/
theorem insertedOf_map_proj (entries : List InsertableDataEntry)
    (hpw : entries.Pairwise (fun a b => a.uid < b.uid)) :
    (insertedOf (chainedGroups entries)).map
        (fun r => (r.uid, r.block_uid, r.address, r.key)) =
      entries.map (fun r => (r.uid, r.block_uid, r.address, r.key)) := by
  have hflat : (((firstOccKeys (entries.map (fun e => e.addrKey))).map
      (fun k => chainLink (fiberOf entries k))).flatten).map
        (fun r => (r.uid, r.block_uid, r.address, r.key)) =
      (((firstOccKeys (entries.map (fun e => e.addrKey))).map
        (fun k => fiberOf entries k)).flatten).map
          (fun r => (r.uid, r.block_uid, r.address, r.key)) := by
    rw [List.map_flatten, List.map_flatten, List.map_map, List.map_map]
    have : (List.map (fun r : InsertableDataEntry =>
          (r.uid, r.block_uid, r.address, r.key)) ∘
        fun k => chainLink (fiberOf entries k)) =
        (List.map (fun r : InsertableDataEntry =>
          (r.uid, r.block_uid, r.address, r.key)) ∘ fun k => fiberOf entries k) := by
      funext k
      exact chainLink_map_proj _
    rw [this]
  have hperm : List.Perm ((insertedOf (chainedGroups entries)).map
      (fun r => (r.uid, r.block_uid, r.address, r.key)))
      (entries.map (fun r => (r.uid, r.block_uid, r.address, r.key))) := by
    rw [insertedOf_eq_sort entries hpw]
    exact ((perm_sortByUid _).map _).trans
      (by rw [hflat]; exact (perm_entries_partition entries).map _)
  apply eq_of_perm_of_pairwise_lt (fun t => t.1) hperm
  · exact (List.pairwise_map).mpr (insertedOf_pairwise_lt entries hpw)
  · exact (List.pairwise_map).mpr hpw

/-- find? on a list with a unique match returns that match. -/
theorem find?_unique_match {α : Type} (p : α → Bool) :
    ∀ (l : List α) (x : α), x ∈ l → p x = true →
      (∀ y ∈ l, p y = true → y = x) → l.find? p = some x := by
  intro l
  induction l with
  | nil =>
    intro x hx _ _
    exact absurd hx (by simp)
  | cons a as ih =>
    intro x hx hpx huniq
    by_cases hpa : p a = true
    · rw [List.find?_cons_of_pos _ hpa]
      rw [huniq a (List.mem_cons_self _ _) hpa]
    · rw [List.find?_cons_of_neg _ hpa]
      rcases List.mem_cons.mp hx with rfl | hx2
      · exact absurd hpx hpa
      · exact ih x hx2 hpx (fun y hy hpy => huniq y (List.mem_cons_of_mem a hy) hpy)

/-- Every element of first_uids records, for its (address, key), the uid of
the first constructed entry of that key. -/
theorem firstUids_mem (entries : List InsertableDataEntry)
    (hpw : entries.Pairwise (fun a b => a.uid < b.uid)) (u : DataEntryUpdate)
    (hu : u ∈ firstUidsOf (chainedGroups entries)) :
    ∃ e₁ rest, fiberOf entries (u.address, u.key) = e₁ :: rest ∧
      u.superseded_by = e₁.uid := by
  rw [chainedGroups_eq] at hu
  simp only [firstUidsOf, List.mem_filterMap, List.mem_map] at hu
  obtain ⟨g, ⟨k, hk, hgk⟩, hgu⟩ := hu
  subst hgk
  simp only [assignChain_of_sorted _ (fiber_pairwise_le entries hpw k)] at hgu
  cases hf : fiberOf entries k with
  | nil =>
    rw [hf] at hgu
    simp [chainLink] at hgu
  | cons e₁ rest =>
    rw [hf] at hgu
    obtain ⟨v, hv, _, _⟩ := chainLink_cons e₁ rest
    rw [hv] at hgu
    simp only [List.head?_cons, Option.map_some'] at hgu
    have he₁ : e₁.addrKey = k := by
      have hm : e₁ ∈ fiberOf entries k := by
        rw [hf]
        exact List.mem_cons_self _ _
      exact ((mem_fiberOf e₁ entries k).mp hm).2
    have hgu2 : ({ superseded_by := e₁.uid, address := e₁.address, key := e₁.key }
        : DataEntryUpdate) = u := Option.some.inj hgu
    subst hgu2
    refine ⟨e₁, rest, ?_, rfl⟩
    show fiberOf entries (e₁.address, e₁.key) = e₁ :: rest
    rw [show ((e₁.address : String), (e₁.key : String)) = k from he₁]
    exact hf

/-- For a key with a non-empty fiber, first_uids contains the record
closing that key with the uid of the fiber head. -/
theorem firstUids_for_key (entries : List InsertableDataEntry)
    (hpw : entries.Pairwise (fun a b => a.uid < b.uid)) (A K : String)
    (e₁ : InsertableDataEntry) (rest : List InsertableDataEntry)
    (hf : fiberOf entries (A, K) = e₁ :: rest) :
    ({ address := A, key := K, superseded_by := e₁.uid } : DataEntryUpdate) ∈
      firstUidsOf (chainedGroups entries) := by
  have hkm : (A, K) ∈ firstOccKeys (entries.map (fun e => e.addrKey)) := by
    rw [mem_firstOccKeys]
    exact (fiber_ne_nil_iff entries (A, K)).mp (by rw [hf]; simp)
  have he₁ : e₁.addrKey = (A, K) := by
    have hm : e₁ ∈ fiberOf entries (A, K) := by
      rw [hf]
      exact List.mem_cons_self _ _
    exact ((mem_fiberOf e₁ entries (A, K)).mp hm).2
  have haddr : e₁.address = A := congrArg Prod.fst he₁
  have hkey : e₁.key = K := congrArg Prod.snd he₁
  rw [chainedGroups_eq]
  simp only [firstUidsOf, List.mem_filterMap, List.mem_map]
  refine ⟨((A, K), assignChain (fiberOf entries (A, K))), ⟨(A, K), hkm, rfl⟩, ?_⟩
  rw [assignChain_of_sorted _ (fiber_pairwise_le entries hpw (A, K)), hf]
  obtain ⟨v, hv, _, _⟩ := chainLink_cons e₁ rest
  rw [hv]
  simp only [List.head?_cons, Option.map_some']
  rw [haddr, hkey]

/-- find? against first_uids for a key with no constructed entry. -/
theorem findFirstUids_nil (entries : List InsertableDataEntry)
    (hpw : entries.Pairwise (fun a b => a.uid < b.uid)) (A K : String)
    (hf : fiberOf entries (A, K) = []) :
    (firstUidsOf (chainedGroups entries)).find?
        (fun u => decide (u.address = A ∧ u.key = K)) = none := by
  rw [List.find?_eq_none]
  intro u hu hp
  rw [decide_eq_true_eq] at hp
  obtain ⟨e₁, rest, hfe, _⟩ := firstUids_mem entries hpw u hu
  rw [hp.1, hp.2, hf] at hfe
  exact absurd hfe (by simp)

/-- find? against first_uids for a key with constructed entries: the
record carrying the uid of the first entry of the key. -/
theorem findFirstUids_cons (entries : List InsertableDataEntry)
    (hpw : entries.Pairwise (fun a b => a.uid < b.uid)) (A K : String)
    (e₁ : InsertableDataEntry) (rest : List InsertableDataEntry)
    (hf : fiberOf entries (A, K) = e₁ :: rest) :
    (firstUidsOf (chainedGroups entries)).find?
        (fun u => decide (u.address = A ∧ u.key = K)) =
      some { address := A, key := K, superseded_by := e₁.uid } := by
  apply find?_unique_match
  · exact firstUids_for_key entries hpw A K e₁ rest hf
  · simp
  · intro y hy hpy
    rw [decide_eq_true_eq] at hpy
    obtain ⟨e₁2, rest2, hfe2, hy2⟩ := firstUids_mem entries hpw y hy
    rw [hpy.1, hpy.2, hf] at hfe2
    have he : e₁2 = e₁ := ((List.cons.inj hfe2).1).symm
    cases y with
    | mk ys ya yk =>
      have h1 : ya = A := hpy.1
      have h2 : yk = K := hpy.2
      have h3 : ys = e₁.uid := by
        rw [← he]
        exact hy2
      rw [h1, h2, h3]

/-- One mapped row of close_superseded_by, classified against the rows
about to be inserted. -/
theorem closeRow_cases (entries : List InsertableDataEntry)
    (hpw : entries.Pairwise (fun a b => a.uid < b.uid)) (r : InsertableDataEntry) :
    closedFrom (insertedOf (chainedGroups entries)) r
      (match (firstUidsOf (chainedGroups entries)).find?
          (fun u => decide (u.address = r.address ∧ u.key = r.key)) with
        | some u =>
          if r.superseded_by = MAX_UID then { r with superseded_by := u.superseded_by }
          else r
        | none => r) := by
  have hfib : fiberOf (insertedOf (chainedGroups entries)) (r.address, r.key) =
      chainLink (fiberOf entries (r.address, r.key)) :=
    fiberOf_insertedOf entries hpw (r.address, r.key)
  cases hf : fiberOf entries (r.address, r.key) with
  | nil =>
    rw [findFirstUids_nil entries hpw r.address r.key hf]
    refine Or.inl ⟨rfl, fun _ => ?_⟩
    show fiberOf (insertedOf (chainedGroups entries)) (r.address, r.key) = []
    rw [hfib, hf]
    rfl
  | cons e₁ rest =>
    rw [findFirstUids_cons entries hpw r.address r.key e₁ rest hf]
    by_cases hsup : r.superseded_by = MAX_UID
    · show closedFrom _ r (if r.superseded_by = MAX_UID
        then { r with superseded_by := e₁.uid } else r)
      rw [if_pos hsup]
      obtain ⟨v, hv, _, _⟩ := chainLink_cons e₁ rest
      refine Or.inr ⟨hsup, { e₁ with superseded_by := v }, chainLink rest, ?_, rfl⟩
      show fiberOf (insertedOf (chainedGroups entries)) (r.address, r.key) = _
      rw [hfib, hf, hv]
    · show closedFrom _ r (if r.superseded_by = MAX_UID
        then { r with superseded_by := e₁.uid } else r)
      rw [if_neg hsup]
      exact Or.inl ⟨rfl, fun hmax => absurd hmax hsup⟩

/-- Forall₂ of a pointwise classified map. -/
theorem forall₂_map_self {α : Type} (R : α → α → Prop) (f : α → α) :
    ∀ l : List α, (∀ a ∈ l, R a (f a)) → List.Forall₂ R l (l.map f) := by
  intro l
  induction l with
  | nil => intro _; simp
  | cons a as ih =>
    intro h
    rw [List.map_cons]
    exact List.Forall₂.cons (h a (List.mem_cons_self _ _))
      (ih (fun b hb => h b (List.mem_cons_of_mem a hb)))

/-- Forall₂ gives a related left element for every right element. -/
theorem forall₂_mem_right {α β : Type} {R : α → β → Prop} :
    ∀ {l₁ : List α} {l₂ : List β}, List.Forall₂ R l₁ l₂ →
      ∀ b ∈ l₂, ∃ a ∈ l₁, R a b := by
  intro l₁ l₂ h
  induction h with
  | nil => intro b hb; exact absurd hb (by simp)
  | cons hab htail ih =>
    intro b hb
    rcases List.mem_cons.mp hb with rfl | hb2
    · exact ⟨_, List.mem_cons_self _ _, hab⟩
    · obtain ⟨a, ha, hr⟩ := ih b hb2
      exact ⟨a, List.mem_cons_of_mem _ ha, hr⟩

/-- Every row produced by the close map is the original row with only
superseded_by possibly rewritten. -/
theorem closeRow_shape (fu : List DataEntryUpdate) (r : InsertableDataEntry) :
    ∃ v, (match fu.find? (fun u => decide (u.address = r.address ∧ u.key = r.key)) with
      | some u =>
        if r.superseded_by = MAX_UID then { r with superseded_by := u.superseded_by }
        else r
      | none => r) = { r with superseded_by := v } := by
  cases fu.find? (fun u => decide (u.address = r.address ∧ u.key = r.key)) with
  | none => exact ⟨r.superseded_by, rfl⟩
  | some u =>
    by_cases hs : r.superseded_by = MAX_UID
    · refine ⟨u.superseded_by, ?_⟩
      show (if r.superseded_by = MAX_UID
          then ({ r with superseded_by := u.superseded_by }) else r) = _
      rw [if_pos hs]
    · refine ⟨r.superseded_by, ?_⟩
      show (if r.superseded_by = MAX_UID
          then ({ r with superseded_by := u.superseded_by }) else r) = _
      rw [if_neg hs]

/-- A trivially satisfied relation is pairwise. -/
theorem pairwise_of_trivial {α : Type} (R : α → α → Prop) (h : ∀ a b, R a b) :
    ∀ l : List α, l.Pairwise R := by
  intro l
  induction l with
  | nil => simp
  | cons a as ih =>
    rw [List.pairwise_cons]
    exact ⟨fun b _ => h a b, ih⟩

/-- Pairwise on first components transfers to a zip. -/
theorem pairwise_fst_zip {α β : Type} (R : α → α → Prop) :
    ∀ (l₁ : List α) (l₂ : List β), l₁.Pairwise R →
      (l₁.zip l₂).Pairwise (fun a b => R a.1 b.1) := by
  intro l₁
  induction l₁ with
  | nil => intro l₂ _; simp
  | cons x xs ih =>
    intro l₂ h
    cases l₂ with
    | nil => simp
    | cons y ys =>
      rw [List.pairwise_cons] at h
      rw [List.zip_cons_cons, List.pairwise_cons]
      refine ⟨?_, ih ys h.2⟩
      intro q hq
      exact h.1 q.1 (List.of_mem_zip hq).1

/-- rowsForKey is the fiber of the data entries. -/
theorem rowsForKey_eq_fiber (s : Store) (a k : String) :
    rowsForKey s a k = fiberOf s.dataEntries (a, k) := rfl

/-- Appending a freshly chained key group to a closed chain yields a
chain: the old current row (the only one with MAX_UID, given that no uid
equals MAX_UID) is redirected to the head of the new group. -/
theorem chainLinksOK_map_close :
    ∀ (l : List InsertableDataEntry), chainLinksOK l →
      (∀ r ∈ l, r.uid ≠ MAX_UID) →
      ∀ (x : InsertableDataEntry) (t2 : List InsertableDataEntry),
        chainLinksOK (x :: t2) →
        chainLinksOK ((l.map (fun r =>
          if r.superseded_by = MAX_UID then { r with superseded_by := x.uid } else r)) ++
          x :: t2) := by
  intro l
  induction l with
  | nil =>
    intro _ _ x t2 hx
    exact hx
  | cons e tail ih =>
    intro hl hne x t2 hx
    cases tail with
    | nil =>
      have he : e.superseded_by = MAX_UID := hl
      rw [List.map_cons, List.map_nil, if_pos he]
      exact ⟨rfl, hx⟩
    | cons f rest =>
      have hl2 : e.superseded_by = f.uid ∧ chainLinksOK (f :: rest) := hl
      have hef : ¬ e.superseded_by = MAX_UID := by
        rw [hl2.1]
        exact hne f (List.mem_cons_of_mem e (List.mem_cons_self _ _))
      rw [List.map_cons, if_neg hef]
      have hcons : (f :: rest).map (fun r =>
          if r.superseded_by = MAX_UID then { r with superseded_by := x.uid } else r) =
          (if f.superseded_by = MAX_UID then { f with superseded_by := x.uid } else f) ::
            rest.map (fun r =>
              if r.superseded_by = MAX_UID then { r with superseded_by := x.uid } else r) :=
        List.map_cons _ _ _
      have hih := ih hl2.2 (fun r hr => hne r (List.mem_cons_of_mem e hr)) x t2 hx
      rw [hcons] at hih ⊢
      rw [List.cons_append] at hih ⊢
      refine ⟨?_, hih⟩
      by_cases hf : f.superseded_by = MAX_UID
      · rw [if_pos hf]
        exact hl2.1
      · rw [if_neg hf]
        exact hl2.1

/-- closedFrom only rewrites superseded_by. -/
theorem closedFrom_shape {ins : List InsertableDataEntry}
    {r r2 : InsertableDataEntry} (h : closedFrom ins r r2) :
    ∃ v, r2 = { r with superseded_by := v } := by
  rcases h with ⟨heq, _⟩ | ⟨_, x, rest, _, heq⟩
  · exact ⟨r.superseded_by, by rw [heq]⟩
  · exact ⟨x.uid, heq⟩

/-- closedFrom keeps the superseded_by or redirects it to an inserted
row. -/
theorem closedFrom_sup {ins : List InsertableDataEntry}
    {r r2 : InsertableDataEntry} (h : closedFrom ins r r2) :
    r2.superseded_by = r.superseded_by ∨ ∃ x ∈ ins, r2.superseded_by = x.uid := by
  rcases h with ⟨heq, _⟩ | ⟨_, x, rest, hfib, heq⟩
  · rw [heq]
    exact Or.inl rfl
  · refine Or.inr ⟨x, ?_, by rw [heq]⟩
    have : x ∈ fiberOf ins r.addrKey := by
      rw [hfib]
      exact List.mem_cons_self _ _
    exact ((mem_fiberOf x ins r.addrKey).mp this).1

/-- Pairwise transport along a Forall₂ relation. -/
theorem pairwise_of_forall₂ {α β : Type} {R : α → β → Prop} {P : α → α → Prop}
    {Q : β → β → Prop}
    (hT : ∀ a a' b b', R a b → R a' b' → P a a' → Q b b') :
    ∀ {l₁ : List α} {l₂ : List β}, List.Forall₂ R l₁ l₂ →
      l₁.Pairwise P → l₂.Pairwise Q := by
  intro l₁ l₂ h
  induction h with
  | nil => intro _; simp
  | cons hab htail ih =>
    intro hp
    rw [List.pairwise_cons] at hp
    rw [List.pairwise_cons]
    refine ⟨?_, ih hp.2⟩
    intro b' hb'
    obtain ⟨a', ha', hr⟩ := forall₂_mem_right htail b' hb'
    exact hT _ _ _ _ hab hr (hp.1 a' ha')

/-- The data-entry table after append_data_entries: the closed old rows
followed by the inserted rows. -/
theorem appendDataEntries_decomp (s : Store) (us : List (Int × DataEntry)) :
    (appendDataEntries s us).dataEntries =
      s.dataEntries.map (fun r =>
        match (firstUidsOf (chainedGroups (mkEntriesFrom s.nextUid us))).find?
            (fun u => decide (u.address = r.address ∧ u.key = r.key)) with
        | some u =>
          if r.superseded_by = MAX_UID then { r with superseded_by := u.superseded_by }
          else r
        | none => r) ++ insertedOf (chainedGroups (mkEntriesFrom s.nextUid us)) := rfl

/-- append_data_entries advances the sequence by the number of entries. -/
theorem appendDataEntries_nextUid (s : Store) (us : List (Int × DataEntry)) :
    (appendDataEntries s us).nextUid = s.nextUid + (us.length : Int) := rfl

/-- append_data_entries does not touch the block table. -/
theorem appendDataEntries_blocks (s : Store) (us : List (Int × DataEntry)) :
    (appendDataEntries s us).blocks = s.blocks := rfl

/-- append_data_entries does not touch the block uid counter. -/
theorem appendDataEntries_nextBlockUid (s : Store) (us : List (Int × DataEntry)) :
    (appendDataEntries s us).nextBlockUid = s.nextBlockUid := rfl

/-- The closed old rows of append_data_entries are classified by
closedFrom against the inserted rows. -/
theorem appendDataEntries_closed (s : Store) (us : List (Int × DataEntry)) :
    List.Forall₂ (closedFrom (insertedOf (chainedGroups (mkEntriesFrom s.nextUid us))))
      s.dataEntries
      (s.dataEntries.map (fun r =>
        match (firstUidsOf (chainedGroups (mkEntriesFrom s.nextUid us))).find?
            (fun u => decide (u.address = r.address ∧ u.key = r.key)) with
        | some u =>
          if r.superseded_by = MAX_UID then { r with superseded_by := u.superseded_by }
          else r
        | none => r)) :=
  forall₂_map_self _ _ _
    (fun r _ => closeRow_cases _ (mkEntriesFrom_pairwise_uid us s.nextUid) r)
/-- append_data_entries preserves the store invariant, provided the
incoming block uids sit between the existing data and the block counter,
are weakly ascending, and the assigned uids stay below MAX_UID. -/
theorem StoreInv_appendDataEntries (s : Store) (us : List (Int × DataEntry))
    (hinv : StoreInv s)
    (hbu_lo : ∀ p ∈ us, ∀ r ∈ s.dataEntries, r.block_uid ≤ p.1)
    (hbu_hi : ∀ p ∈ us, p.1 < s.nextBlockUid)
    (hbu_mono : us.Pairwise (fun p q => p.1 ≤ q.1))
    (hbound : s.nextUid + (us.length : Int) ≤ MAX_UID) :
    StoreInv (appendDataEntries s us) := by
  have hpw := mkEntriesFrom_pairwise_uid us s.nextUid
  have hf2 := appendDataEntries_closed s us
  have hD := appendDataEntries_decomp s us
  have hNlen : (0 : Int) ≤ (us.length : Int) := Int.ofNat_nonneg _
  have hInsMem : ∀ q ∈ insertedOf (chainedGroups (mkEntriesFrom s.nextUid us)),
      s.nextUid ≤ q.uid ∧ q.uid < s.nextUid + (us.length : Int) ∧
      (∃ p ∈ us, q.block_uid = p.1) ∧
      (q.superseded_by = MAX_UID ∨
        (s.nextUid ≤ q.superseded_by ∧
          q.superseded_by < s.nextUid + (us.length : Int))) := by
    intro q hq
    obtain ⟨⟨e, he, hqe⟩, hsup⟩ := insertedOf_mem _ hpw q hq
    have hb := mkEntriesFrom_uid_bound us s.nextUid e he
    obtain ⟨p, hp, hep⟩ := mkEntriesFrom_mem us s.nextUid e he
    have hqu : q.uid = e.uid := by rw [hqe]
    have hqb : q.block_uid = e.block_uid := by rw [hqe]
    refine ⟨by rw [hqu]; exact hb.1, by rw [hqu]; exact hb.2, ⟨p, hp, ?_⟩, ?_⟩
    · rw [hqb, hep, mkIDE_bu]
    · rcases hsup with h | ⟨f, hf, hfu⟩
      · exact Or.inl h
      · have hfb := mkEntriesFrom_uid_bound us s.nextUid f hf
        exact Or.inr ⟨by rw [hfu]; exact hfb.1, by rw [hfu]; exact hfb.2⟩
  have hOldMem : ∀ r2 ∈ s.dataEntries.map (fun r =>
      match (firstUidsOf (chainedGroups (mkEntriesFrom s.nextUid us))).find?
          (fun u => decide (u.address = r.address ∧ u.key = r.key)) with
      | some u =>
        if r.superseded_by = MAX_UID then { r with superseded_by := u.superseded_by }
        else r
      | none => r),
      ∃ r ∈ s.dataEntries,
        closedFrom (insertedOf (chainedGroups (mkEntriesFrom s.nextUid us))) r r2 :=
    forall₂_mem_right hf2
  refine ⟨?_, ?_, ?_, ?_, ?_, ?_, ?_, ?_⟩
  · -- uid_lt_next
    intro r hr
    rw [hD] at hr
    rw [appendDataEntries_nextUid]
    rcases List.mem_append.mp hr with hr1 | hr2
    · obtain ⟨r0, hr0, hc⟩ := hOldMem r hr1
      obtain ⟨v, hv⟩ := closedFrom_shape hc
      have he1 : r.uid = r0.uid := by rw [hv]
      rw [he1]
      have := hinv.uid_lt_next r0 hr0
      omega
    · exact (hInsMem r hr2).2.1
  · -- next_le_max
    rw [appendDataEntries_nextUid]
    exact hbound
  · -- uid_asc
    rw [hD, List.pairwise_append]
    refine ⟨?_, insertedOf_pairwise_lt _ hpw, ?_⟩
    · refine pairwise_of_forall₂ ?_ hf2 hinv.uid_asc
      intro a a' b b' h1 h2 hlt
      obtain ⟨v1, hv1⟩ := closedFrom_shape h1
      obtain ⟨v2, hv2⟩ := closedFrom_shape h2
      have e1 : b.uid = a.uid := by rw [hv1]
      have e2 : b'.uid = a'.uid := by rw [hv2]
      rw [e1, e2]
      exact hlt
    · intro r2 hr2 q hq
      obtain ⟨r0, hr0, hc⟩ := hOldMem r2 hr2
      obtain ⟨v, hv⟩ := closedFrom_shape hc
      have e1 : r2.uid = r0.uid := by rw [hv]
      have := hinv.uid_lt_next r0 hr0
      have := (hInsMem q hq).1
      omega
  · -- bu_mono
    rw [hD, List.pairwise_append]
    refine ⟨?_, ?_, ?_⟩
    · refine pairwise_of_forall₂ ?_ hf2 hinv.bu_mono
      intro a a' b b' h1 h2 hle
      obtain ⟨v1, hv1⟩ := closedFrom_shape h1
      obtain ⟨v2, hv2⟩ := closedFrom_shape h2
      have e1 : b.block_uid = a.block_uid := by rw [hv1]
      have e2 : b'.block_uid = a'.block_uid := by rw [hv2]
      rw [e1, e2]
      exact hle
    · have hbue := mkEntriesFrom_pairwise_bu us s.nextUid hbu_mono
      have h1 : ((mkEntriesFrom s.nextUid us).map
          (fun r => (r.uid, r.block_uid, r.address, r.key))).Pairwise
            (fun t t' => t.2.1 ≤ t'.2.1) := (List.pairwise_map).mpr hbue
      rw [← insertedOf_map_proj _ hpw] at h1
      have h2 := List.pairwise_map.mp h1
      exact h2
    · intro r2 hr2 q hq
      obtain ⟨r0, hr0, hc⟩ := hOldMem r2 hr2
      obtain ⟨v, hv⟩ := closedFrom_shape hc
      have e1 : r2.block_uid = r0.block_uid := by rw [hv]
      obtain ⟨p, hp, hqp⟩ := (hInsMem q hq).2.2.1
      rw [e1, hqp]
      exact hbu_lo p hp r0 hr0
  · -- bu_lt_nextB
    intro r hr
    rw [hD] at hr
    rw [appendDataEntries_nextBlockUid]
    rcases List.mem_append.mp hr with hr1 | hr2
    · obtain ⟨r0, hr0, hc⟩ := hOldMem r hr1
      obtain ⟨v, hv⟩ := closedFrom_shape hc
      have e1 : r.block_uid = r0.block_uid := by rw [hv]
      rw [e1]
      exact hinv.bu_lt_nextB r0 hr0
    · obtain ⟨p, hp, hqp⟩ := (hInsMem r hr2).2.2.1
      rw [hqp]
      exact hbu_hi p hp
  · -- blocks_uid_lt
    rw [appendDataEntries_blocks, appendDataEntries_nextBlockUid]
    exact hinv.blocks_uid_lt
  · -- sup_lt_or_max
    intro r hr
    rw [hD] at hr
    rw [appendDataEntries_nextUid]
    rcases List.mem_append.mp hr with hr1 | hr2
    · obtain ⟨r0, hr0, hc⟩ := hOldMem r hr1
      rcases closedFrom_sup hc with he | ⟨x, hx, he⟩
      · rcases hinv.sup_lt_or_max r0 hr0 with h | h
        · exact Or.inl (by rw [he, h])
        · exact Or.inr (by rw [he]; omega)
      · have := (hInsMem x hx).1
        have := (hInsMem x hx).2.1
        exact Or.inr (by rw [he]; omega)
    · rcases (hInsMem r hr2).2.2.2 with h | h
      · exact Or.inl h
      · exact Or.inr (by omega)
  · -- chains
    intro a k
    rw [rowsForKey_eq_fiber, hD, fiberOf_append]
    have hpres : ∀ r0 : InsertableDataEntry,
        ((fun r : InsertableDataEntry =>
          match (firstUidsOf (chainedGroups (mkEntriesFrom s.nextUid us))).find?
              (fun u : DataEntryUpdate =>
                decide (u.address = r.address ∧ u.key = r.key)) with
          | some u =>
            if r.superseded_by = MAX_UID then { r with superseded_by := u.superseded_by }
            else r
          | none => r) r0).addrKey = r0.addrKey := by
      intro r0
      obtain ⟨v, hv⟩ := closeRow_shape
        (firstUidsOf (chainedGroups (mkEntriesFrom s.nextUid us))) r0
      simp only []
      rw [hv]
      rfl
    rw [fiberOf_map _ hpres s.dataEntries (a, k),
      fiberOf_insertedOf _ hpw (a, k)]
    have hch : chainLinksOK (fiberOf s.dataEntries (a, k)) := hinv.chains a k
    cases hfib : fiberOf (mkEntriesFrom s.nextUid us) (a, k) with
    | nil =>
      have hmap : (fiberOf s.dataEntries (a, k)).map (fun r =>
          match (firstUidsOf (chainedGroups (mkEntriesFrom s.nextUid us))).find?
              (fun u => decide (u.address = r.address ∧ u.key = r.key)) with
          | some u =>
            if r.superseded_by = MAX_UID then { r with superseded_by := u.superseded_by }
            else r
          | none => r) = (fiberOf s.dataEntries (a, k)).map id := by
        apply List.map_congr_left
        intro r hrm
        have hak : r.addrKey = (a, k) := ((mem_fiberOf r _ _).mp hrm).2
        have hra : r.address = a := congrArg Prod.fst hak
        have hrk : r.key = k := congrArg Prod.snd hak
        rw [hra, hrk, findFirstUids_nil _ hpw a k hfib]
        rfl
      rw [hmap, List.map_id]
      have hnil : chainLink ([] : List InsertableDataEntry) = [] := rfl
      rw [hnil, List.append_nil]
      exact hch
    | cons e₁ rest =>
      obtain ⟨v, hv, _, _⟩ := chainLink_cons e₁ rest
      rw [hv]
      have hmap : (fiberOf s.dataEntries (a, k)).map (fun r =>
          match (firstUidsOf (chainedGroups (mkEntriesFrom s.nextUid us))).find?
              (fun u => decide (u.address = r.address ∧ u.key = r.key)) with
          | some u =>
            if r.superseded_by = MAX_UID then { r with superseded_by := u.superseded_by }
            else r
          | none => r) = (fiberOf s.dataEntries (a, k)).map (fun r =>
            if r.superseded_by = MAX_UID
            then { r with superseded_by := ({ e₁ with superseded_by := v }
              : InsertableDataEntry).uid }
            else r) := by
        apply List.map_congr_left
        intro r hrm
        have hak : r.addrKey = (a, k) := ((mem_fiberOf r _ _).mp hrm).2
        have hra : r.address = a := congrArg Prod.fst hak
        have hrk : r.key = k := congrArg Prod.snd hak
        simp only []
        rw [hra, hrk, findFirstUids_cons _ hpw a k e₁ rest hfib]
      rw [hmap]
      refine chainLinksOK_map_close (fiberOf s.dataEntries (a, k)) hch ?_
        ({ e₁ with superseded_by := v }) (chainLink rest) ?_
      · intro r hrm
        have hmem : r ∈ s.dataEntries := ((mem_fiberOf r _ _).mp hrm).1
        have h1 := hinv.uid_lt_next r hmem
        have h2 := hinv.next_le_max
        omega
      · rw [← hv]
        exact chainLink_linksOK (e₁ :: rest)

/-- flatMap of singletons is a map. -/
theorem flatMap_singleton_map {α β : Type} (g : α → β) :
    ∀ l : List α, (l.flatMap (fun a => [g a])) = l.map g := by
  intro l
  induction l with
  | nil => rfl
  | cons a as ih =>
    rw [List.flatMap_cons, ih, List.singleton_append]
    rfl

/-- The coerced form of the block-uid range that appears in
insert_blocks_or_microblocks equals the plain mapped range. -/
theorem rangeCast_eq (nb : Int) (n : Nat) :
    (List.range n).map (fun i => nb + (i : Int)) =
      (List.range n).map (fun i : Nat => nb + (i : Int)) := by
  have h : (do let a ← List.range n; pure ((a : Int))) =
      (List.range n).flatMap (fun a : Nat => [(a : Int)]) := rfl
  rw [h, flatMap_singleton_map, List.map_map]
  rfl

/-- The uids handed out for inserted block rows lie in [nextBlockUid,
nextBlockUid + count). -/
theorem mem_blockUids (nb : Int) (n : Nat) (u : Int)
    (hu : u ∈ (List.range n).map (fun i : Nat => nb + (i : Int))) :
    nb ≤ u ∧ u < nb + (n : Int) := by
  rw [List.mem_map] at hu
  obtain ⟨i, hi, rfl⟩ := hu
  rw [List.mem_range] at hi
  omega

/-- The uids handed out for inserted block rows are strictly increasing. -/
theorem pairwise_blockUids (nb : Int) (n : Nat) :
    ((List.range n).map (fun i : Nat => nb + (i : Int))).Pairwise
      (fun a b : Int => a < b) := by
  refine (List.pairwise_map).mpr ?_
  refine (List.pairwise_lt_range n).imp ?_
  intro a b h
  omega

/-- The first component of a flattened update pair is one of the block
uids. -/
theorem flattenedUpdates_fst_mem (uids : List Int)
    (appends : List BlockMicroblockAppend) (p : Int × DataEntry)
    (hp : p ∈ flattenedUpdates uids appends) : p.1 ∈ uids := by
  unfold flattenedUpdates at hp
  rw [List.mem_flatten] at hp
  obtain ⟨L, hL, hpL⟩ := hp
  rw [List.mem_map] at hL
  obtain ⟨q, hq, hLq⟩ := hL
  subst hLq
  rw [List.mem_map] at hpL
  obtain ⟨de, hde, rfl⟩ := hpL
  have hq2 := List.mem_filter.mp hq
  exact (List.of_mem_zip hq2.1).1

/-- Flattened update pairs are weakly ascending in block uid when the
block uids are strictly ascending. -/
theorem flattenedUpdates_pairwise_fst (uids : List Int)
    (appends : List BlockMicroblockAppend)
    (h : uids.Pairwise (fun a b : Int => a < b)) :
    (flattenedUpdates uids appends).Pairwise (fun p q => p.1 ≤ q.1) := by
  unfold flattenedUpdates
  rw [List.pairwise_flatten]
  constructor
  · intro l hl
    rw [List.mem_map] at hl
    obtain ⟨q, hq, rfl⟩ := hl
    refine (List.pairwise_map).mpr ?_
    exact pairwise_of_trivial _ (fun a b => le_refl _) _
  · refine (List.pairwise_map).mpr ?_
    have hz : ((uids.zip appends).filter
        (fun p => decide (0 < p.2.data_entries.length))).Pairwise
          (fun a b => a.1 < b.1) := by
      have hzz := pairwise_fst_zip (fun a b : Int => a < b) uids appends h
      exact List.Pairwise.sublist (List.filter_sublist _) hzz
    refine hz.imp ?_
    intro q₁ q₂ hlt x hx y hy
    rw [List.mem_map] at hx hy
    obtain ⟨dx, _, rfl⟩ := hx
    obtain ⟨dy, _, rfl⟩ := hy
    exact le_of_lt hlt

/-- The flattened updates carry at most as many pairs as the appends carry
data entries. -/
theorem flattenedUpdates_length_le :
    ∀ (uids : List Int) (appends : List BlockMicroblockAppend),
      (flattenedUpdates uids appends).length ≤
        (appends.map (fun b => b.data_entries.length)).sum := by
  intro uids
  induction uids with
  | nil =>
    intro appends
    simp [flattenedUpdates]
  | cons u us' ih =>
    intro appends
    cases appends with
    | nil => simp [flattenedUpdates]
    | cons a as' =>
      unfold flattenedUpdates
      rw [List.zip_cons_cons]
      by_cases hc : 0 < a.data_entries.length
      · rw [List.filter_cons_of_pos (by simp [hc]), List.map_cons,
          List.flatten_cons, List.length_append, List.length_map,
          List.map_cons, List.sum_cons]
        have h2 := ih as'
        unfold flattenedUpdates at h2
        dsimp only []
        omega
      · rw [List.filter_cons_of_neg (by simp [hc]), List.map_cons,
          List.sum_cons]
        have h2 := ih as'
        unfold flattenedUpdates at h2
        omega

/-- The uids returned by insert_blocks_or_microblocks. -/
theorem insertBOM_fst (s : Store) (items : List BlockMicroblock) :
    (insertBlocksOrMicroblocks s items).1 =
      (List.range items.length).map (fun i : Nat => s.nextBlockUid + (i : Int)) := by
  have h : (insertBlocksOrMicroblocks s items).1 =
      (List.range items.length).map (fun i => s.nextBlockUid + (i : Int)) := rfl
  rw [h, rangeCast_eq]

/-- insert_blocks_or_microblocks leaves the data entries alone. -/
theorem insertBOM_dataEntries (s : Store) (items : List BlockMicroblock) :
    (insertBlocksOrMicroblocks s items).2.dataEntries = s.dataEntries := rfl

/-- insert_blocks_or_microblocks leaves the uid sequence alone. -/
theorem insertBOM_nextUid (s : Store) (items : List BlockMicroblock) :
    (insertBlocksOrMicroblocks s items).2.nextUid = s.nextUid := rfl

/-- insert_blocks_or_microblocks advances the block uid counter by the
number of rows. -/
theorem insertBOM_nextBlockUid (s : Store) (items : List BlockMicroblock) :
    (insertBlocksOrMicroblocks s items).2.nextBlockUid =
      s.nextBlockUid + (items.length : Int) := rfl

/-- insert_blocks_or_microblocks preserves the store invariant. -/
theorem StoreInv_insertBOM (s : Store) (items : List BlockMicroblock)
    (hinv : StoreInv s) : StoreInv (insertBlocksOrMicroblocks s items).2 := by
  have hn : (0 : Int) ≤ (items.length : Int) := Int.ofNat_nonneg _
  refine ⟨hinv.uid_lt_next, hinv.next_le_max, hinv.uid_asc, hinv.bu_mono, ?_, ?_,
    hinv.sup_lt_or_max, hinv.chains⟩
  · intro r hr
    have h1 := hinv.bu_lt_nextB r hr
    show r.block_uid < s.nextBlockUid + (items.length : Int)
    omega
  · intro b hb
    have hb2 : b ∈ s.blocks ++
        (((insertBlocksOrMicroblocks s items).1.zip items).map (fun p =>
          { uid := p.1, id := p.2.id, height := p.2.height,
            time_stamp := p.2.time_stamp : BlockRow })) := hb
    rcases List.mem_append.mp hb2 with h | h
    · have h1 := hinv.blocks_uid_lt b h
      show b.uid < s.nextBlockUid + (items.length : Int)
      omega
    · rw [List.mem_map] at h
      obtain ⟨p, hp, rfl⟩ := h
      have hu : p.1 ∈ (insertBlocksOrMicroblocks s items).1 :=
        (List.of_mem_zip hp).1
      rw [insertBOM_fst] at hu
      have h2 := mem_blockUids _ _ _ hu
      exact h2.2

/-- append_blocks_or_microblocks unfolded to its two branches. -/
theorem appendBOM_eq (s : Store) (appends : List BlockMicroblockAppend) :
    appendBlocksOrMicroblocks s appends =
      (if 0 < (flattenedUpdates
            (insertBlocksOrMicroblocks s (appends.map (fun a =>
              { id := a.id, height := (a.height : Int),
                time_stamp := a.time_stamp }))).1 appends).length
       then
         appendDataEntries
           (insertBlocksOrMicroblocks s (appends.map (fun a =>
             { id := a.id, height := (a.height : Int),
               time_stamp := a.time_stamp }))).2
           (flattenedUpdates
             (insertBlocksOrMicroblocks s (appends.map (fun a =>
               { id := a.id, height := (a.height : Int),
                 time_stamp := a.time_stamp }))).1 appends)
       else
         (insertBlocksOrMicroblocks s (appends.map (fun a =>
           { id := a.id, height := (a.height : Int),
             time_stamp := a.time_stamp }))).2) := rfl

/-- append_blocks_or_microblocks preserves the store invariant whenever
the uids it assigns stay below MAX_UID. -/
theorem StoreInv_appendBOM (s : Store) (appends : List BlockMicroblockAppend)
    (hinv : StoreInv s)
    (hbound : s.nextUid +
      (((appends.map (fun b => b.data_entries.length)).sum : Nat) : Int) ≤ MAX_UID) :
    StoreInv (appendBlocksOrMicroblocks s appends) := by
  rw [appendBOM_eq]
  have hinv1 := StoreInv_insertBOM s (appends.map (fun a =>
    { id := a.id, height := (a.height : Int), time_stamp := a.time_stamp })) hinv
  by_cases hc : 0 < (flattenedUpdates
      (insertBlocksOrMicroblocks s (appends.map (fun a =>
        { id := a.id, height := (a.height : Int),
          time_stamp := a.time_stamp }))).1 appends).length
  · rw [if_pos hc]
    refine StoreInv_appendDataEntries _ _ hinv1 ?_ ?_ ?_ ?_
    · intro p hp r hr
      have h1 := flattenedUpdates_fst_mem _ _ p hp
      rw [insertBOM_fst] at h1
      have h2 := mem_blockUids _ _ _ h1
      have h3 := hinv.bu_lt_nextB r hr
      exact le_trans (le_of_lt h3) h2.1
    · intro p hp
      have h1 := flattenedUpdates_fst_mem _ _ p hp
      rw [insertBOM_fst] at h1
      have h2 := mem_blockUids _ _ _ h1
      rw [insertBOM_nextBlockUid]
      exact h2.2
    · refine flattenedUpdates_pairwise_fst _ _ ?_
      rw [insertBOM_fst]
      exact pairwise_blockUids _ _
    · have hlen := flattenedUpdates_length_le
        (insertBlocksOrMicroblocks s (appends.map (fun a =>
          { id := a.id, height := (a.height : Int),
            time_stamp := a.time_stamp }))).1 appends
      have hlen2 : ((flattenedUpdates
          (insertBlocksOrMicroblocks s (appends.map (fun a =>
            { id := a.id, height := (a.height : Int),
              time_stamp := a.time_stamp }))).1 appends).length : Int) ≤
          (((appends.map (fun b => b.data_entries.length)).sum : Nat) : Int) :=
        Int.ofNat_le.mpr hlen
      rw [insertBOM_nextUid]
      omega
  · rw [if_neg hc]
    exact hinv1

/-- maxUidRow returns a member of its list. -/
theorem maxUidRow_mem : ∀ (l : List BlockRow) (b : BlockRow),
    maxUidRow l = some b → b ∈ l := by
  intro l
  induction l with
  | nil =>
    intro b h
    exact absurd h (by simp [maxUidRow])
  | cons x xs ih =>
    intro b h
    rw [maxUidRow] at h
    cases hm : maxUidRow xs with
    | none =>
      rw [hm] at h
      injection h with h1
      rw [← h1]
      exact List.mem_cons_self _ _
    | some c =>
      rw [hm] at h
      injection h with h1
      by_cases hx : c.uid < x.uid
      · rw [if_pos hx] at h1
        rw [← h1]
        exact List.mem_cons_self _ _
      · rw [if_neg hx] at h1
        rw [← h1]
        exact List.mem_cons_of_mem _ (ih c hm)

/-- A map that changes neither uid nor superseded_by preserves the chain
shape. -/
theorem chainLinksOK_map_pres (g : InsertableDataEntry → InsertableDataEntry)
    (hg : ∀ r, (g r).uid = r.uid ∧ (g r).superseded_by = r.superseded_by) :
    ∀ l, chainLinksOK l → chainLinksOK (l.map g) := by
  intro l
  induction l with
  | nil =>
    intro _
    exact trivial
  | cons e tail ih =>
    intro h
    cases tail with
    | nil =>
      show (g e).superseded_by = MAX_UID
      rw [(hg e).2]
      exact h
    | cons f rest =>
      have h2 : e.superseded_by = f.uid ∧ chainLinksOK (f :: rest) := h
      refine ⟨?_, ih h2.2⟩
      rw [(hg e).2, (hg f).1]
      exact h2.1

/-- squash_microblocks preserves the store invariant. -/
theorem StoreInv_squash (s t : Store) (h : squashMicroblocks s = some t)
    (hinv : StoreInv s) : StoreInv t := by
  unfold squashMicroblocks at h
  cases htot : getTotalBlockId s with
  | none =>
    rw [htot] at h
    have h2 : some s = some t := h
    injection h2 with h1
    rw [← h1]
    exact hinv
  | some tid =>
    rw [htot] at h
    cases hkey : getKeyBlockUid s with
    | none =>
      rw [hkey] at h
      have h2 : (none : Option Store) = some t := h
      exact absurd h2 (by simp)
    | some kbu =>
      rw [hkey] at h
      have h2 : some (changeBlockId (deleteMicroblocks
          (updateDataEntriesBlockReferences s kbu)) kbu tid) = some t := h
      injection h2 with h1
      subst h1
      have hkb : ∃ b ∈ s.blocks, b.uid = kbu := by
        unfold getKeyBlockUid at hkey
        rw [Option.map_eq_some'] at hkey
        obtain ⟨b, hb1, hb2⟩ := hkey
        have hmem := maxUidRow_mem _ b hb1
        exact ⟨b, (List.mem_filter.mp hmem).1, hb2⟩
      obtain ⟨bk, hbk, hbku⟩ := hkb
      have hkblt : kbu < s.nextBlockUid := hbku ▸ hinv.blocks_uid_lt bk hbk
      have hDE : (changeBlockId (deleteMicroblocks
          (updateDataEntriesBlockReferences s kbu)) kbu tid).dataEntries =
          s.dataEntries.map (fun r =>
            if kbu < r.block_uid then { r with block_uid := kbu } else r) := rfl
      have hBL : (changeBlockId (deleteMicroblocks
          (updateDataEntriesBlockReferences s kbu)) kbu tid).blocks =
          (s.blocks.filter (fun b => b.time_stamp.isSome)).map (fun b =>
            if b.uid = kbu then { b with id := tid } else b) := rfl
      have hNU : (changeBlockId (deleteMicroblocks
          (updateDataEntriesBlockReferences s kbu)) kbu tid).nextUid =
          s.nextUid := rfl
      have hNB : (changeBlockId (deleteMicroblocks
          (updateDataEntriesBlockReferences s kbu)) kbu tid).nextBlockUid =
          s.nextBlockUid := rfl
      have hg : ∀ r : InsertableDataEntry,
          ((if kbu < r.block_uid then { r with block_uid := kbu } else r)
            : InsertableDataEntry).uid = r.uid ∧
          ((if kbu < r.block_uid then { r with block_uid := kbu } else r)
            : InsertableDataEntry).superseded_by = r.superseded_by ∧
          ((if kbu < r.block_uid then { r with block_uid := kbu } else r)
            : InsertableDataEntry).addrKey = r.addrKey := by
        intro r
        by_cases hx : kbu < r.block_uid
        · rw [if_pos hx]
          exact ⟨rfl, rfl, rfl⟩
        · rw [if_neg hx]
          exact ⟨rfl, rfl, rfl⟩
      have hval : ∀ r : InsertableDataEntry,
          ((if kbu < r.block_uid then { r with block_uid := kbu } else r)
            : InsertableDataEntry).block_uid = min kbu r.block_uid := by
        intro r
        by_cases hx : kbu < r.block_uid
        · rw [if_pos hx]
          show kbu = min kbu r.block_uid
          omega
        · rw [if_neg hx]
          show r.block_uid = min kbu r.block_uid
          omega
      refine ⟨?_, ?_, ?_, ?_, ?_, ?_, ?_, ?_⟩
      · intro r2 hr2
        rw [hDE] at hr2
        rw [List.mem_map] at hr2
        obtain ⟨r, hr, rfl⟩ := hr2
        rw [hNU, (hg r).1]
        exact hinv.uid_lt_next r hr
      · rw [hNU]
        exact hinv.next_le_max
      · rw [hDE]
        refine (List.pairwise_map).mpr ?_
        refine hinv.uid_asc.imp ?_
        intro a b hab
        rw [(hg a).1, (hg b).1]
        exact hab
      · rw [hDE]
        refine (List.pairwise_map).mpr ?_
        refine hinv.bu_mono.imp ?_
        intro a b hab
        rw [hval a, hval b]
        omega
      · intro r2 hr2
        rw [hDE] at hr2
        rw [List.mem_map] at hr2
        obtain ⟨r, hr, rfl⟩ := hr2
        rw [hNB, hval r]
        have := hinv.bu_lt_nextB r hr
        omega
      · intro b2 hb2
        rw [hBL] at hb2
        rw [List.mem_map] at hb2
        obtain ⟨b, hbf, rfl⟩ := hb2
        have hbmem := (List.mem_filter.mp hbf).1
        have hlt := hinv.blocks_uid_lt b hbmem
        have huid : ((if b.uid = kbu then { b with id := tid } else b)
            : BlockRow).uid = b.uid := by
          by_cases hx : b.uid = kbu
          · rw [if_pos hx]
          · rw [if_neg hx]
        rw [hNB, huid]
        exact hlt
      · intro r2 hr2
        rw [hDE] at hr2
        rw [List.mem_map] at hr2
        obtain ⟨r, hr, rfl⟩ := hr2
        rw [hNU, (hg r).2.1]
        exact hinv.sup_lt_or_max r hr
      · intro a k
        rw [rowsForKey_eq_fiber, hDE,
          fiberOf_map _ (fun r => (hg r).2.2) s.dataEntries (a, k)]
        exact chainLinksOK_map_pres _ (fun r => ⟨(hg r).1, (hg r).2.1⟩) _
          (hinv.chains a k)

/-- rollback leaves the uid sequence alone. -/
theorem rollbackStore_nextUid (s : Store) (U : Int) :
    (rollbackStore s U).nextUid = s.nextUid := rfl

/-- rollback leaves the block uid counter alone. -/
theorem rollbackStore_nextBlockUid (s : Store) (U : Int) :
    (rollbackStore s U).nextBlockUid = s.nextBlockUid := rfl

/-- rollback keeps exactly the block rows at or below the target uid. -/
theorem rollbackStore_blocks (s : Store) (U : Int) :
    (rollbackStore s U).blocks =
      s.blocks.filter (fun b => decide (b.uid ≤ U)) := rfl

/-- The data entries after rollback: the rows at or below the target
block, with the rows pointing at a lowest deleted uid reopened. -/
theorem rollbackStore_dataEntries (s : Store) (U : Int) :
    (rollbackStore s U).dataEntries =
      (s.dataEntries.filter (fun r => decide (r.block_uid ≤ U))).map
        (fun r => if r.superseded_by ∈ lowestDeletedUids s U
          then { r with superseded_by := MAX_UID } else r) := rfl

/-- A left fold of min stays in the list it folds over (with the seed). -/
theorem foldl_min_mem : ∀ (us : List Int) (u : Int),
    us.foldl min u ∈ u :: us := by
  intro us
  induction us with
  | nil =>
    intro u
    exact List.mem_cons_self _ _
  | cons v vs ih =>
    intro u
    have h := ih (min u v)
    rcases List.mem_cons.mp h with h1 | h1
    · rcases min_choice u v with h2 | h2
      · have h3 : List.foldl min u (v :: vs) = u := by
          rw [List.foldl_cons, h1, h2]
        rw [h3]
        exact List.mem_cons_self _ _
      · have h3 : List.foldl min u (v :: vs) = v := by
          rw [List.foldl_cons, h1, h2]
        rw [h3]
        exact List.mem_cons_of_mem _ (List.mem_cons_self _ _)
    · have h3 : List.foldl min u (v :: vs) ∈ vs := by
        rw [List.foldl_cons]
        exact h1
      exact List.mem_cons_of_mem _ (List.mem_cons_of_mem _ h3)

/-- A left fold of min over values at least the seed returns the seed. -/
theorem foldl_min_of_le : ∀ (us : List Int) (u : Int),
    (∀ v ∈ us, u ≤ v) → us.foldl min u = u := by
  intro us
  induction us with
  | nil =>
    intro u _
    rfl
  | cons v vs ih =>
    intro u h
    rw [List.foldl_cons, min_eq_left (h v (List.mem_cons_self _ _))]
    exact ih u (fun w hw => h w (List.mem_cons_of_mem _ hw))

/-- The minimum uid of a group is the uid of one of its rows. -/
theorem minUidOf_mem (l : List DeletedDataEntry) (m : Int)
    (h : minUidOf l = some m) : ∃ d ∈ l, m = d.uid := by
  cases l with
  | nil => exact absurd h (by simp [minUidOf])
  | cons d ds =>
    have h2 : some ((ds.map (fun x => x.uid)).foldl min d.uid) = some m := h
    injection h2 with h3
    have h4 := foldl_min_mem (ds.map (fun x => x.uid)) d.uid
    rw [h3] at h4
    rcases List.mem_cons.mp h4 with h5 | h5
    · exact ⟨d, List.mem_cons_self _ _, h5⟩
    · rw [List.mem_map] at h5
      obtain ⟨d2, hd2, he⟩ := h5
      exact ⟨d2, List.mem_cons_of_mem _ hd2, he.symm⟩

/-- When the head row carries the smallest uid, it is the group minimum. -/
theorem minUidOf_head (d : DeletedDataEntry) (ds : List DeletedDataEntry)
    (h : ∀ d' ∈ ds, d.uid ≤ d'.uid) : minUidOf (d :: ds) = some d.uid := by
  have h2 : (ds.map (fun x => x.uid)).foldl min d.uid = d.uid := by
    apply foldl_min_of_le
    intro v hv
    rw [List.mem_map] at hv
    obtain ⟨d2, hd2, rfl⟩ := hv
    exact h d2 hd2
  show some ((ds.map (fun x => x.uid)).foldl min d.uid) = some d.uid
  rw [h2]

/-- In a strictly uid-ascending list, uids identify rows. -/
theorem uid_inj {l : List InsertableDataEntry}
    (h : l.Pairwise (fun a b => a.uid < b.uid)) :
    ∀ x ∈ l, ∀ y ∈ l, x.uid = y.uid → x = y := by
  induction h with
  | nil =>
    intro x hx
    exact absurd hx (by simp)
  | cons hab htail ih =>
    intro x hx y hy he
    rcases List.mem_cons.mp hx with rfl | hx2
    · rcases List.mem_cons.mp hy with rfl | hy2
      · rfl
      · exact absurd he (ne_of_lt (hab y hy2))
    · rcases List.mem_cons.mp hy with rfl | hy2
      · exact absurd he.symm (ne_of_lt (hab x hx2))
      · exact ih x hx2 y hy2 he

/-- Fibers commute with filtering. -/
theorem fiberOf_filter (l : List InsertableDataEntry)
    (p : InsertableDataEntry → Bool) (k : String × String) :
    fiberOf (l.filter p) k = (fiberOf l k).filter p := by
  unfold fiberOf
  rw [List.filter_filter, List.filter_filter]
  apply List.filter_congr
  intro a _
  rw [Bool.and_comm]

/-- Filtering a mapped list along a predicate the map does not affect. -/
theorem filter_map_eq {α β : Type} (f : α → β) (p : β → Bool) (q : α → Bool)
    (hpq : ∀ a, p (f a) = q a) (l : List α) :
    (l.map f).filter p = (l.filter q).map f := by
  rw [List.filter_map]
  have h : l.filter (p ∘ f) = l.filter q := List.filter_congr (fun a _ => hpq a)
  rw [h]

/-- Rolling a per-key chain back: deleting the suffix of rows above the
target block and reopening the row that pointed at the first deleted uid
leaves a chain. -/
theorem chain_rollback (U : Int) (lows : List Int)
    (hmax : MAX_UID ∉ lows) :
    ∀ F : List InsertableDataEntry,
      chainLinksOK F →
      F.Pairwise (fun a b => a.block_uid ≤ b.block_uid) →
      (∀ r ∈ F, r.block_uid ≤ U → r.uid ∉ lows) →
      (∀ pre x post, F = pre ++ x :: post →
        (∀ y ∈ pre, y.block_uid ≤ U) → U < x.block_uid → x.uid ∈ lows) →
      chainLinksOK ((F.filter (fun r => decide (r.block_uid ≤ U))).map
        (fun r => if r.superseded_by ∈ lows
          then { r with superseded_by := MAX_UID } else r)) := by
  intro F
  induction F with
  | nil =>
    intro _ _ _ _
    exact trivial
  | cons e tail ih =>
    intro hch hbu hkept hfirst
    by_cases he : e.block_uid ≤ U
    · rw [List.filter_cons_of_pos (by simp [he])]
      cases tail with
      | nil =>
        have hsup : e.superseded_by = MAX_UID := hch
        show ((if e.superseded_by ∈ lows
            then { e with superseded_by := MAX_UID } else e)
            : InsertableDataEntry).superseded_by = MAX_UID
        by_cases hin : e.superseded_by ∈ lows
        · rw [if_pos hin]
        · rw [if_neg hin]
          exact hsup
      | cons f rest =>
        have hch2 : e.superseded_by = f.uid ∧ chainLinksOK (f :: rest) := hch
        by_cases hf : f.block_uid ≤ U
        · have hfin : f.uid ∉ lows :=
            hkept f (List.mem_cons_of_mem _ (List.mem_cons_self _ _)) hf
          have hein : e.superseded_by ∉ lows := by
            rw [hch2.1]
            exact hfin
          rw [List.filter_cons_of_pos (by simp [hf])]
          refine ⟨?_, ?_⟩
          · show ((if e.superseded_by ∈ lows
                then { e with superseded_by := MAX_UID } else e)
                : InsertableDataEntry).superseded_by =
              ((if f.superseded_by ∈ lows
                then { f with superseded_by := MAX_UID } else f)
                : InsertableDataEntry).uid
            rw [if_neg hein]
            have hfu : ((if f.superseded_by ∈ lows
                then { f with superseded_by := MAX_UID } else f)
                : InsertableDataEntry).uid = f.uid := by
              by_cases hx : f.superseded_by ∈ lows
              · rw [if_pos hx]
              · rw [if_neg hx]
            rw [hfu]
            exact hch2.1
          · have htl := ih hch2.2 (List.pairwise_cons.mp hbu).2
              (fun r hr h1 => hkept r (List.mem_cons_of_mem _ hr) h1)
              ?_
            · rw [List.filter_cons_of_pos (by simp [hf])] at htl
              exact htl
            · intro pre x post hsplit hpre hx
              refine hfirst (e :: pre) x post ?_ ?_ hx
              · rw [List.cons_append, ← hsplit]
              · intro y hy
                rcases List.mem_cons.mp hy with rfl | hy2
                · exact he
                · exact hpre y hy2
        · have hfe : (f :: rest).filter (fun r => decide (r.block_uid ≤ U)) =
              [] := by
            rw [List.filter_eq_nil_iff]
            intro y hy
            rcases List.mem_cons.mp hy with rfl | hy2
            · simp [hf]
            · have h1 := (List.pairwise_cons.mp (List.pairwise_cons.mp hbu).2).1
                y hy2
              simp
              omega
          rw [hfe]
          have hflow : f.uid ∈ lows := by
            refine hfirst [e] f rest rfl ?_ (by omega)
            intro y hy
            rcases List.mem_cons.mp hy with rfl | hy2
            · exact he
            · exact absurd hy2 (by simp)
          have hein : e.superseded_by ∈ lows := by
            rw [hch2.1]
            exact hflow
          show ((if e.superseded_by ∈ lows
              then { e with superseded_by := MAX_UID } else e)
              : InsertableDataEntry).superseded_by = MAX_UID
          rw [if_pos hein]
    · have hall : (e :: tail).filter (fun r => decide (r.block_uid ≤ U)) =
          [] := by
        rw [List.filter_eq_nil_iff]
        intro y hy
        rcases List.mem_cons.mp hy with rfl | hy2
        · simp [he]
        · have h1 := (List.pairwise_cons.mp hbu).1 y hy2
          simp
          omega
      rw [hall]
      exact trivial

/-- Every lowest deleted uid is the uid of a deleted row. -/
theorem lowestDeletedUids_mem (s : Store) (U : Int) :
    ∀ l ∈ lowestDeletedUids s U,
      ∃ e ∈ s.dataEntries, l = e.uid ∧ U < e.block_uid := by
  intro l hl
  unfold lowestDeletedUids at hl
  rw [List.mem_filterMap] at hl
  obtain ⟨k, hk, hmin⟩ := hl
  obtain ⟨d, hd, rfl⟩ := minUidOf_mem _ _ hmin
  have hd2 := (List.mem_filter.mp hd).1
  have hd3 : d ∈ (s.dataEntries.filter (fun r => decide (U < r.block_uid))).map
      (fun r => { uid := r.uid, address := r.address, key := r.key
        : DeletedDataEntry }) := hd2
  rw [List.mem_map] at hd3
  obtain ⟨e, he, rfl⟩ := hd3
  have he2 := List.mem_filter.mp he
  exact ⟨e, he2.1, rfl, of_decide_eq_true he2.2⟩

/-- rollback preserves the store invariant. -/
theorem StoreInv_rollback (s : Store) (U : Int) (hinv : StoreInv s) :
    StoreInv (rollbackStore s U) := by
  have hmaxnot : MAX_UID ∉ lowestDeletedUids s U := by
    intro hmem
    obtain ⟨e, he, hle, _⟩ := lowestDeletedUids_mem s U _ hmem
    have h1 := hinv.uid_lt_next e he
    have h2 := hinv.next_le_max
    omega
  have hg : ∀ r : InsertableDataEntry,
      ((if r.superseded_by ∈ lowestDeletedUids s U
        then { r with superseded_by := MAX_UID } else r)
        : InsertableDataEntry).uid = r.uid ∧
      ((if r.superseded_by ∈ lowestDeletedUids s U
        then { r with superseded_by := MAX_UID } else r)
        : InsertableDataEntry).block_uid = r.block_uid ∧
      ((if r.superseded_by ∈ lowestDeletedUids s U
        then { r with superseded_by := MAX_UID } else r)
        : InsertableDataEntry).addrKey = r.addrKey := by
    intro r
    by_cases hx : r.superseded_by ∈ lowestDeletedUids s U
    · rw [if_pos hx]
      exact ⟨rfl, rfl, rfl⟩
    · rw [if_neg hx]
      exact ⟨rfl, rfl, rfl⟩
  refine ⟨?_, ?_, ?_, ?_, ?_, ?_, ?_, ?_⟩
  · intro r2 hr2
    rw [rollbackStore_dataEntries] at hr2
    rw [List.mem_map] at hr2
    obtain ⟨r, hr, rfl⟩ := hr2
    rw [rollbackStore_nextUid, (hg r).1]
    exact hinv.uid_lt_next r (List.mem_of_mem_filter hr)
  · rw [rollbackStore_nextUid]
    exact hinv.next_le_max
  · rw [rollbackStore_dataEntries]
    refine (List.pairwise_map).mpr ?_
    refine (List.Pairwise.sublist (List.filter_sublist _) hinv.uid_asc).imp ?_
    intro a b hab
    rw [(hg a).1, (hg b).1]
    exact hab
  · rw [rollbackStore_dataEntries]
    refine (List.pairwise_map).mpr ?_
    refine (List.Pairwise.sublist (List.filter_sublist _) hinv.bu_mono).imp ?_
    intro a b hab
    rw [(hg a).2.1, (hg b).2.1]
    exact hab
  · intro r2 hr2
    rw [rollbackStore_dataEntries] at hr2
    rw [List.mem_map] at hr2
    obtain ⟨r, hr, rfl⟩ := hr2
    rw [rollbackStore_nextBlockUid, (hg r).2.1]
    exact hinv.bu_lt_nextB r (List.mem_of_mem_filter hr)
  · intro b hb
    rw [rollbackStore_blocks] at hb
    rw [rollbackStore_nextBlockUid]
    exact hinv.blocks_uid_lt b (List.mem_of_mem_filter hb)
  · intro r2 hr2
    rw [rollbackStore_dataEntries] at hr2
    rw [List.mem_map] at hr2
    obtain ⟨r, hr, rfl⟩ := hr2
    rw [rollbackStore_nextUid]
    by_cases hx : r.superseded_by ∈ lowestDeletedUids s U
    · refine Or.inl ?_
      rw [if_pos hx]
    · rw [if_neg hx]
      exact hinv.sup_lt_or_max r (List.mem_of_mem_filter hr)
  · intro a k
    rw [rowsForKey_eq_fiber, rollbackStore_dataEntries,
      fiberOf_map _ (fun r => (hg r).2.2) _ (a, k), fiberOf_filter]
    refine chain_rollback U _ hmaxnot _ (hinv.chains a k)
      (List.Pairwise.sublist (List.filter_sublist _) hinv.bu_mono) ?_ ?_
    · intro r hr hrU hmem
      obtain ⟨e, he, hle, heU⟩ := lowestDeletedUids_mem s U _ hmem
      have hrmem : r ∈ s.dataEntries := ((mem_fiberOf r _ _).mp hr).1
      have hre : r = e := uid_inj hinv.uid_asc r hrmem e he hle
      rw [hre] at hrU
      omega
    · intro pre x post hsplit hpre hx
      have hxF : x ∈ fiberOf s.dataEntries (a, k) := by
        rw [hsplit]
        exact List.mem_append.mpr (Or.inr (List.mem_cons_self _ _))
      have hxmem : x ∈ s.dataEntries := ((mem_fiberOf x _ _).mp hxF).1
      have hxak : x.addrKey = (a, k) := ((mem_fiberOf x _ _).mp hxF).2
      unfold lowestDeletedUids
      rw [List.mem_filterMap]
      refine ⟨(a, k), ?_, ?_⟩
      · rw [mem_firstOccKeys, List.mem_map]
        refine ⟨{ uid := x.uid, address := x.address, key := x.key }, ?_, hxak⟩
        have hxf : x ∈ s.dataEntries.filter
            (fun r => decide (U < r.block_uid)) :=
          List.mem_filter.mpr ⟨hxmem, by simp [hx]⟩
        show ({ uid := x.uid, address := x.address, key := x.key }
            : DeletedDataEntry) ∈
          (s.dataEntries.filter (fun r => decide (U < r.block_uid))).map
            (fun r => { uid := r.uid, address := r.address, key := r.key })
        rw [List.mem_map]
        exact ⟨x, hxf, rfl⟩
      · have hcomm : (rollbackDataEntriesOp s U).1.filter
            (fun d => decide (d.addrKey = (a, k))) =
            ((s.dataEntries.filter (fun r => decide (U < r.block_uid))).filter
              (fun r => decide (r.addrKey = (a, k)))).map
              (fun r => { uid := r.uid, address := r.address, key := r.key
                : DeletedDataEntry }) := by
          have h0 : (rollbackDataEntriesOp s U).1 =
              (s.dataEntries.filter (fun r => decide (U < r.block_uid))).map
                (fun r => { uid := r.uid, address := r.address, key := r.key
                  : DeletedDataEntry }) := rfl
          rw [h0]
          exact filter_map_eq _ _ _ (fun r => rfl) _
        rw [hcomm]
        have hdd : (s.dataEntries.filter
            (fun r => decide (U < r.block_uid))).filter
              (fun r => decide (r.addrKey = (a, k))) =
            (fiberOf s.dataEntries (a, k)).filter
              (fun r => decide (U < r.block_uid)) := by
          show (s.dataEntries.filter (fun r => decide (U < r.block_uid))).filter
              (fun r => decide (r.addrKey = (a, k))) =
            (s.dataEntries.filter (fun e => decide (e.addrKey = (a, k)))).filter
              (fun r => decide (U < r.block_uid))
          rw [List.filter_filter, List.filter_filter]
          apply List.filter_congr
          intro r _
          rw [Bool.and_comm]
        rw [hdd, hsplit, List.filter_append]
        have hprenil : pre.filter (fun r => decide (U < r.block_uid)) = [] := by
          rw [List.filter_eq_nil_iff]
          intro y hy
          have h1 := hpre y hy
          simp
          omega
        rw [hprenil, List.filter_cons_of_pos (by simp [hx]), List.nil_append,
          List.map_cons]
        have hfpw : (fiberOf s.dataEntries (a, k)).Pairwise
            (fun p q => p.uid < q.uid) :=
          List.Pairwise.sublist (List.filter_sublist _) hinv.uid_asc
        rw [hsplit] at hfpw
        have hxpost : ∀ y ∈ post, x.uid < y.uid :=
          (List.pairwise_cons.mp (List.pairwise_append.mp hfpw).2.1).1
        refine minUidOf_head _ _ ?_
        intro d' hd'
        rw [List.mem_map] at hd'
        obtain ⟨y, hy, rfl⟩ := hd'
        exact le_of_lt (hxpost y (List.mem_of_mem_filter hy))

/-- squash_microblocks never touches the uid sequence. -/
theorem squash_nextUid (s t : Store) (h : squashMicroblocks s = some t) :
    t.nextUid = s.nextUid := by
  unfold squashMicroblocks at h
  cases htot : getTotalBlockId s with
  | none =>
    rw [htot] at h
    have h2 : some s = some t := h
    injection h2 with h1
    rw [← h1]
  | some tid =>
    rw [htot] at h
    cases hkey : getKeyBlockUid s with
    | none =>
      rw [hkey] at h
      have h2 : (none : Option Store) = some t := h
      exact absurd h2 (by simp)
    | some kbu =>
      rw [hkey] at h
      have h2 : some (changeBlockId (deleteMicroblocks
          (updateDataEntriesBlockReferences s kbu)) kbu tid) = some t := h
      injection h2 with h1
      rw [← h1]
      rfl

/-- Every committed store satisfies the invariant. -/
theorem StoreInv_reachable (s : Store) (h : Reachable s) : StoreInv s := by
  induction h with
  | init =>
    refine ⟨?_, by decide, ?_, ?_, ?_, ?_, ?_, ?_⟩
    · intro r hr
      exact absurd hr (by simp [initialStore])
    · simp [initialStore]
    · simp [initialStore]
    · intro r hr
      exact absurd hr (by simp [initialStore])
    · intro b hb
      exact absurd hb (by simp [initialStore])
    · intro r hr
      exact absurd hr (by simp [initialStore])
    · intro a k
      exact trivial
  | step s item t hr hbound happ ih =>
    cases item with
    | blocks bs =>
      have happ2 : (squashMicroblocks s).map
          (fun s1 => appendBlocksOrMicroblocks s1 bs) = some t := happ
      rw [Option.map_eq_some'] at happ2
      obtain ⟨s1, hsq, rfl⟩ := happ2
      have hinv1 := StoreInv_squash s s1 hsq ih
      refine StoreInv_appendBOM s1 bs hinv1 ?_
      rw [squash_nextUid s s1 hsq]
      exact hbound
    | microblock m =>
      have happ2 : some (appendBlocksOrMicroblocks s [m]) = some t := happ
      injection happ2 with h1
      rw [← h1]
      refine StoreInv_appendBOM s [m] ih ?_
      exact hbound
    | rollback sig =>
      have happ2 : (getBlockUid s sig).map
          (fun uid => rollbackStore s uid) = some t := happ
      rw [Option.map_eq_some'] at happ2
      obtain ⟨uid, hgb, rfl⟩ := happ2
      exact StoreInv_rollback s uid ih

/-- A chain whose rows never carry uid = MAX_UID has exactly one current
row. -/
theorem chainLinksOK_countP :
    ∀ l : List InsertableDataEntry, chainLinksOK l →
      (∀ r ∈ l, r.uid ≠ MAX_UID) → l ≠ [] →
      l.countP (fun r => decide (r.superseded_by = MAX_UID)) = 1 := by
  intro l
  induction l with
  | nil =>
    intro _ _ hne
    exact absurd rfl hne
  | cons e tail ih =>
    intro hch hne _
    cases tail with
    | nil =>
      have hsup : e.superseded_by = MAX_UID := hch
      rw [List.countP_cons, List.countP_nil]
      simp [hsup]
    | cons f rest =>
      have hch2 : e.superseded_by = f.uid ∧ chainLinksOK (f :: rest) := hch
      have hef : e.superseded_by ≠ MAX_UID := by
        rw [hch2.1]
        exact hne f (List.mem_cons_of_mem _ (List.mem_cons_self _ _))
      rw [List.countP_cons]
      rw [ih hch2.2 (fun r hrm => hne r (List.mem_cons_of_mem _ hrm)) (by simp)]
      simp [hef]

/-- C1: after every committed transaction of the daemon (append of blocks
or microblocks, squash, or rollback), for every (address, key) pair with
at least one row in data_entries, exactly one such row has
superseded_by = MAX_UID, where MAX_UID = 2^63 - 2. -/
theorem c1_unique_current (s : Store) (a k : String) (hs : Reachable s)
    (hnz : 0 < (rowsForKey s a k).length) :
    MAX_UID = 2 ^ 63 - 2 ∧ currentCount s a k = 1 := by
  have hinv := StoreInv_reachable s hs
  refine ⟨rfl, ?_⟩
  unfold currentCount
  refine chainLinksOK_countP _ (hinv.chains a k) ?_ ?_
  · intro r hrm
    have hrmem : r ∈ s.dataEntries := List.mem_of_mem_filter hrm
    have h1 := hinv.uid_lt_next r hrmem
    have h2 := hinv.next_le_max
    omega
  · intro hnil
    rw [hnil] at hnz
    exact absurd hnz (by simp)

/-- Witness for C1 on the concrete store of scenario S1 (one block with
one data entry committed on the empty store). -/
theorem c1_witness :
    MAX_UID = 2 ^ 63 - 2 ∧ currentCount storeS1 addrX keyPlain = 1 :=
  c1_unique_current storeS1 addrX keyPlain
    (Reachable.step initialStore (.blocks [appendA1]) storeS1 Reachable.init
      (by decide) rfl)
    (by decide)

/-- C5, amended: append_data_entries assigns uid start + i to the i-th
entry in stable input order (start being the sequence value at the call)
and leaves the sequence at start + N; the uids of the committed data
entries are distinct (strictly ascending in table order) and below the
next sequence value — but they need not form a contiguous prefix of the
sequence values (see the rollback counterexample). -/
theorem c5_amended_uid_assignment (s : Store) (us : List (Int × DataEntry))
    (i : Nat) (hreach : Reachable s) :
    (appendDataEntries s us).nextUid = s.nextUid + (us.length : Int) ∧
    (mkEntriesFrom s.nextUid us).get? i =
      (us.get? i).map (fun p =>
        mkInsertableDataEntry p.1 p.2 (s.nextUid + (i : Int))) ∧
    s.dataEntries.Pairwise (fun a b => a.uid < b.uid) ∧
    (∀ r ∈ s.dataEntries, r.uid < s.nextUid) := by
  have hinv := StoreInv_reachable s hreach
  exact ⟨appendDataEntries_nextUid s us, mkEntriesFrom_get? us s.nextUid i,
    hinv.uid_asc, hinv.uid_lt_next⟩

/-- Witness for the amended C5 on the store of scenario S1 with one
further entry appended. -/
theorem c5_witness :
    (appendDataEntries storeS1 [(2, deK)]).nextUid =
      storeS1.nextUid + (([(2, deK)] : List (Int × DataEntry)).length : Int) ∧
    (mkEntriesFrom storeS1.nextUid [(2, deK)]).get? 0 =
      (([(2, deK)] : List (Int × DataEntry)).get? 0).map (fun p =>
        mkInsertableDataEntry p.1 p.2 (storeS1.nextUid + ((0 : Nat) : Int))) ∧
    storeS1.dataEntries.Pairwise (fun a b => a.uid < b.uid) ∧
    (∀ r ∈ storeS1.dataEntries, r.uid < storeS1.nextUid) :=
  c5_amended_uid_assignment storeS1 [(2, deK)] 0
    (Reachable.step initialStore (.blocks [appendA1]) storeS1 Reachable.init
      (by decide) rfl)

/-- squash_microblocks is the identity on stores without microblock
rows. -/
theorem squash_noop_of_noMicro (s : Store) (h : noMicroblockRows s) :
    squashMicroblocks s = some s := by
  have hf : s.blocks.filter (fun b => b.time_stamp.isNone) = [] := by
    rw [List.filter_eq_nil_iff]
    intro b hb
    have hs := h b hb
    cases hts : b.time_stamp with
    | none => rw [hts] at hs; simp at hs
    | some v => simp [hts]
  have hgt : getTotalBlockId s = none := by
    simp [getTotalBlockId, hf, maxUidRow]
  simp [squashMicroblocks, hgt]

/-- Appending blocks that all carry timestamps keeps the store free of
microblock rows. -/
theorem noMicro_appendBOM (t : Store) (bs : List BlockMicroblockAppend)
    (h : noMicroblockRows t) (hts : ∀ a ∈ bs, a.time_stamp.isSome) :
    noMicroblockRows (appendBlocksOrMicroblocks t bs) := by
  intro b hb
  rw [appendBOM_eq] at hb
  have hb2 : b ∈ (insertBlocksOrMicroblocks t (bs.map (fun a =>
      { id := a.id, height := (a.height : Int),
        time_stamp := a.time_stamp }))).2.blocks := by
    by_cases hc : 0 < (flattenedUpdates
        (insertBlocksOrMicroblocks t (bs.map (fun a =>
          { id := a.id, height := (a.height : Int),
            time_stamp := a.time_stamp }))).1 bs).length
    · rw [if_pos hc] at hb
      rw [appendDataEntries_blocks] at hb
      exact hb
    · rw [if_neg hc] at hb
      exact hb
  have hb3 : b ∈ t.blocks ++
      (((insertBlocksOrMicroblocks t (bs.map (fun a =>
        { id := a.id, height := (a.height : Int),
          time_stamp := a.time_stamp }))).1.zip (bs.map (fun a =>
        { id := a.id, height := (a.height : Int),
          time_stamp := a.time_stamp : BlockMicroblock }))).map (fun p =>
        { uid := p.1, id := p.2.id, height := p.2.height,
          time_stamp := p.2.time_stamp : BlockRow })) := hb2
  rcases List.mem_append.mp hb3 with h1 | h1
  · exact h b h1
  · rw [List.mem_map] at h1
    obtain ⟨p, hp, rfl⟩ := h1
    have hp2 := (List.of_mem_zip hp).2
    rw [List.mem_map] at hp2
    obtain ⟨a, ha, hpa⟩ := hp2
    show p.2.time_stamp.isSome
    rw [← hpa]
    exact hts a ha

/-- The append delta relation is reflexive. -/
theorem AppendDelta_refl (s : Store) (U : Int) : AppendDelta s s U := by
  refine ⟨s.dataEntries, [], [], ?_, ?_, ?_, ?_, ?_⟩
  · rw [List.append_nil]
  · intro b hb
    exact absurd hb (by simp)
  · rw [List.append_nil]
  · have h := forall₂_map_self (closedFrom []) id s.dataEntries
      (fun a _ => Or.inl ⟨rfl, fun _ => rfl⟩)
    rw [List.map_id] at h
    exact h
  · intro e he
    exact absurd he (by simp)

/-- Composing a Forall₂ with a pointwise classified map. -/
theorem forall₂_trans_map {α : Type} {R S T : α → α → Prop} (g : α → α)
    (hcomp : ∀ a b, R a b → S b (g b) → T a (g b)) :
    ∀ {l₁ l₂ : List α}, List.Forall₂ R l₁ l₂ → (∀ b ∈ l₂, S b (g b)) →
      List.Forall₂ T l₁ (l₂.map g) := by
  intro l₁ l₂ h
  induction h with
  | nil =>
    intro _
    exact List.Forall₂.nil
  | cons hab htail ih =>
    intro hS
    rw [List.map_cons]
    exact List.Forall₂.cons (hcomp _ _ hab (hS _ (List.mem_cons_self _ _)))
      (ih (fun b hb => hS b (List.mem_cons_of_mem _ hb)))

/-- Two close passes compose: closing against newE and then against ins is
closing against the (rewritten) newE together with ins, provided no newE
uid is MAX_UID and the second pass only rewrites superseded_by. -/
theorem closedFrom_compose (newE ins : List InsertableDataEntry)
    (cl : InsertableDataEntry → InsertableDataEntry)
    (hcl : ∀ x, ∃ v, cl x = { x with superseded_by := v })
    (hne : ∀ x ∈ newE, x.uid ≠ MAX_UID)
    {r r2 r3 : InsertableDataEntry}
    (h1 : closedFrom newE r r2) (h2 : closedFrom ins r2 r3) :
    closedFrom (newE.map cl ++ ins) r r3 := by
  have hclak : ∀ x, (cl x).addrKey = x.addrKey := by
    intro x
    obtain ⟨v, hv⟩ := hcl x
    rw [hv]
    rfl
  have hfib : fiberOf (newE.map cl ++ ins) r.addrKey =
      (fiberOf newE r.addrKey).map cl ++ fiberOf ins r.addrKey := by
    rw [fiberOf_append, fiberOf_map _ hclak]
  rcases h1 with ⟨hr2, himp1⟩ | ⟨hmax1, x, rest, hfe, hr2⟩
  · subst hr2
    rcases h2 with ⟨hr3, himp2⟩ | ⟨hmax2, y, rest2, hfi, hr3⟩
    · refine Or.inl ⟨hr3, ?_⟩
      intro hm
      rw [hfib, himp1 hm, himp2 hm]
      rfl
    · refine Or.inr ⟨hmax2, y, rest2, ?_, hr3⟩
      rw [hfib, himp1 hmax2, hfi]
      rfl
  · have hxne : x.uid ≠ MAX_UID := by
      have hxm : x ∈ fiberOf newE r.addrKey := by
        rw [hfe]
        exact List.mem_cons_self _ _
      exact hne x (List.mem_of_mem_filter hxm)
    have hr2sup : r2.superseded_by = x.uid := by
      rw [hr2]
    rcases h2 with ⟨hr3, himp2⟩ | ⟨hmax2, y, rest2, hfi, hr3⟩
    · subst hr3
      refine Or.inr ⟨hmax1, cl x, (rest.map cl ++ fiberOf ins r.addrKey),
        ?_, ?_⟩
      · rw [hfib, hfe, List.map_cons, List.cons_append]
      · obtain ⟨v, hv⟩ := hcl x
        have hclu : (cl x).uid = x.uid := by
          rw [hv]
        rw [hclu]
        exact hr2
    · exact absurd (hr2sup ▸ hmax2) hxne

/-- Projections of the close map. -/
theorem closeRow_proj (fu : List DataEntryUpdate) (x : InsertableDataEntry) :
    ((fun r : InsertableDataEntry =>
      match fu.find? (fun u : DataEntryUpdate =>
          decide (u.address = r.address ∧ u.key = r.key)) with
      | some u =>
        if r.superseded_by = MAX_UID then { r with superseded_by := u.superseded_by }
        else r
      | none => r) x).block_uid = x.block_uid ∧
    ((fun r : InsertableDataEntry =>
      match fu.find? (fun u : DataEntryUpdate =>
          decide (u.address = r.address ∧ u.key = r.key)) with
      | some u =>
        if r.superseded_by = MAX_UID then { r with superseded_by := u.superseded_by }
        else r
      | none => r) x).uid = x.uid := by
  obtain ⟨v, hv⟩ := closeRow_shape fu x
  constructor
  · have h1 := congrArg InsertableDataEntry.block_uid hv
    exact h1
  · have h1 := congrArg InsertableDataEntry.uid hv
    exact h1

/-- Appending data entries on top of an append delta extends the delta. -/
theorem AppendDelta_appendDE (s t : Store) (U : Int)
    (us : List (Int × DataEntry))
    (hd : AppendDelta s t U)
    (ht : StoreInv t)
    (hsn : s.nextUid ≤ t.nextUid)
    (hbu : ∀ p ∈ us, U < p.1) :
    AppendDelta s (appendDataEntries t us) U := by
  obtain ⟨oldPart, newE, newB, hB, hBU, hDE, hF2, hNE⟩ := hd
  have hpw := mkEntriesFrom_pairwise_uid us t.nextUid
  have hneMax : ∀ x ∈ newE, x.uid ≠ MAX_UID := by
    intro x hx
    have hxm : x ∈ t.dataEntries := by
      rw [hDE]
      exact List.mem_append.mpr (Or.inr hx)
    have h1 := ht.uid_lt_next x hxm
    have h2 := ht.next_le_max
    omega
  refine ⟨oldPart.map (fun r : InsertableDataEntry =>
      match (firstUidsOf (chainedGroups (mkEntriesFrom t.nextUid us))).find?
          (fun u : DataEntryUpdate =>
            decide (u.address = r.address ∧ u.key = r.key)) with
      | some u =>
        if r.superseded_by = MAX_UID then { r with superseded_by := u.superseded_by }
        else r
      | none => r),
    newE.map (fun r : InsertableDataEntry =>
      match (firstUidsOf (chainedGroups (mkEntriesFrom t.nextUid us))).find?
          (fun u : DataEntryUpdate =>
            decide (u.address = r.address ∧ u.key = r.key)) with
      | some u =>
        if r.superseded_by = MAX_UID then { r with superseded_by := u.superseded_by }
        else r
      | none => r) ++ insertedOf (chainedGroups (mkEntriesFrom t.nextUid us)),
    newB, ?_, hBU, ?_, ?_, ?_⟩
  · rw [appendDataEntries_blocks, hB]
  · rw [appendDataEntries_decomp, hDE, List.map_append, List.append_assoc]
  · refine forall₂_trans_map _ ?_ hF2
      (fun b _ => closeRow_cases (mkEntriesFrom t.nextUid us) hpw b)
    intro a b hR hS
    exact closedFrom_compose newE _ _
      (closeRow_shape (firstUidsOf (chainedGroups
        (mkEntriesFrom t.nextUid us)))) hneMax hR hS
  · intro q hq
    rcases List.mem_append.mp hq with h1 | h1
    · rw [List.mem_map] at h1
      obtain ⟨x, hx, rfl⟩ := h1
      have hp := closeRow_proj
        (firstUidsOf (chainedGroups (mkEntriesFrom t.nextUid us))) x
      rw [hp.1, hp.2]
      exact hNE x hx
    · obtain ⟨⟨e, he, hqe⟩, _⟩ := insertedOf_mem _ hpw q h1
      have hb := mkEntriesFrom_uid_bound us t.nextUid e he
      obtain ⟨p, hp, hep⟩ := mkEntriesFrom_mem us t.nextUid e he
      constructor
      · have hqb : q.block_uid = e.block_uid := by
          rw [hqe]
        rw [hqb, hep, mkIDE_bu]
        exact hbu p hp
      · have hqu : q.uid = e.uid := by
          rw [hqe]
        rw [hqu]
        have h3 := hb.1
        omega

/-- Inserting block rows on top of an append delta extends the delta. -/
theorem AppendDelta_insertBOM (s t : Store) (U : Int)
    (items : List BlockMicroblock)
    (hd : AppendDelta s t U) (hU : U < t.nextBlockUid) :
    AppendDelta s (insertBlocksOrMicroblocks t items).2 U := by
  obtain ⟨oldPart, newE, newB, hB, hBU, hDE, hF2, hNE⟩ := hd
  refine ⟨oldPart, newE,
    newB ++ (((insertBlocksOrMicroblocks t items).1.zip items).map (fun p =>
      { uid := p.1, id := p.2.id, height := p.2.height,
        time_stamp := p.2.time_stamp : BlockRow })), ?_, ?_, ?_, hF2, hNE⟩
  · have hbl : (insertBlocksOrMicroblocks t items).2.blocks =
        t.blocks ++ (((insertBlocksOrMicroblocks t items).1.zip items).map
          (fun p =>
            { uid := p.1, id := p.2.id, height := p.2.height,
              time_stamp := p.2.time_stamp : BlockRow })) := rfl
    rw [hbl, hB, List.append_assoc]
  · intro b hb
    rcases List.mem_append.mp hb with h1 | h1
    · exact hBU b h1
    · rw [List.mem_map] at h1
      obtain ⟨p, hp, rfl⟩ := h1
      have hu : p.1 ∈ (insertBlocksOrMicroblocks t items).1 :=
        (List.of_mem_zip hp).1
      rw [insertBOM_fst] at hu
      have h2 := mem_blockUids _ _ _ hu
      show U < p.1
      omega
  · rw [insertBOM_dataEntries, hDE]

/-- A block-or-microblock append on top of an append delta extends the
delta. -/
theorem AppendDelta_appendBOM (s t : Store) (U : Int)
    (bs : List BlockMicroblockAppend)
    (hd : AppendDelta s t U) (ht : StoreInv t)
    (hsn : s.nextUid ≤ t.nextUid) (hU : U < t.nextBlockUid) :
    AppendDelta s (appendBlocksOrMicroblocks t bs) U := by
  rw [appendBOM_eq]
  have hd1 := AppendDelta_insertBOM s t U (bs.map (fun a =>
    { id := a.id, height := (a.height : Int), time_stamp := a.time_stamp }))
    hd hU
  have ht1 := StoreInv_insertBOM t (bs.map (fun a =>
    { id := a.id, height := (a.height : Int), time_stamp := a.time_stamp })) ht
  by_cases hc : 0 < (flattenedUpdates
      (insertBlocksOrMicroblocks t (bs.map (fun a =>
        { id := a.id, height := (a.height : Int),
          time_stamp := a.time_stamp }))).1 bs).length
  · rw [if_pos hc]
    refine AppendDelta_appendDE s _ U _ hd1 ht1 ?_ ?_
    · rw [insertBOM_nextUid]
      exact hsn
    · intro p hp
      have h1 := flattenedUpdates_fst_mem _ _ p hp
      rw [insertBOM_fst] at h1
      have h2 := mem_blockUids _ _ _ h1
      omega
  · rw [if_neg hc]
    exact hd1

/-- append_blocks_or_microblocks never decreases the uid counters. -/
theorem appendBOM_counters (t : Store) (bs : List BlockMicroblockAppend) :
    t.nextUid ≤ (appendBlocksOrMicroblocks t bs).nextUid ∧
    t.nextBlockUid ≤ (appendBlocksOrMicroblocks t bs).nextBlockUid := by
  rw [appendBOM_eq]
  by_cases hc : 0 < (flattenedUpdates
      (insertBlocksOrMicroblocks t (bs.map (fun a =>
        { id := a.id, height := (a.height : Int),
          time_stamp := a.time_stamp }))).1 bs).length
  · rw [if_pos hc]
    constructor
    · rw [appendDataEntries_nextUid, insertBOM_nextUid]
      have h1 : (0 : Int) ≤ ((flattenedUpdates
          (insertBlocksOrMicroblocks t (bs.map (fun a =>
            { id := a.id, height := (a.height : Int),
              time_stamp := a.time_stamp }))).1 bs).length : Int) :=
        Int.ofNat_nonneg _
      omega
    · rw [appendDataEntries_nextBlockUid, insertBOM_nextBlockUid]
      have h1 : (0 : Int) ≤ ((bs.map (fun a =>
          { id := a.id, height := (a.height : Int),
            time_stamp := a.time_stamp : BlockMicroblock })).length : Int) :=
        Int.ofNat_nonneg _
      omega
  · rw [if_neg hc]
    constructor
    · rw [insertBOM_nextUid]
    · rw [insertBOM_nextBlockUid]
      have h1 : (0 : Int) ≤ ((bs.map (fun a =>
          { id := a.id, height := (a.height : Int),
            time_stamp := a.time_stamp : BlockMicroblock })).length : Int) :=
        Int.ofNat_nonneg _
      omega

/-- Mapping back along a Forall₂ whose pairs are undone by g. -/
theorem forall₂_map_back {α : Type} {R : α → α → Prop} (g : α → α) :
    ∀ {l₁ l₂ : List α}, List.Forall₂ R l₁ l₂ →
      (∀ a b, a ∈ l₁ → b ∈ l₂ → R a b → g b = a) → l₂.map g = l₁ := by
  intro l₁ l₂ h
  induction h with
  | nil =>
    intro _
    rfl
  | cons hab htail ih =>
    intro hg
    rw [List.map_cons,
      hg _ _ (List.mem_cons_self _ _) (List.mem_cons_self _ _) hab,
      ih (fun a b ha hb hr =>
        hg a b (List.mem_cons_of_mem _ ha) (List.mem_cons_of_mem _ hb) hr)]

/-- Rolling back to the base of an append delta restores the block and
data-entry tables exactly. -/
theorem rollback_of_delta (s t : Store) (U : Int)
    (hs : StoreInv s) (ht : StoreInv t)
    (hd : AppendDelta s t U)
    (hblocks : ∀ b ∈ s.blocks, b.uid ≤ U)
    (hdata : ∀ r ∈ s.dataEntries, r.block_uid ≤ U) :
    (rollbackStore t U).blocks = s.blocks ∧
    (rollbackStore t U).dataEntries = s.dataEntries := by
  obtain ⟨oldPart, newE, newB, hB, hBU, hDE, hF2, hNE⟩ := hd
  have hBL : (rollbackStore t U).blocks = s.blocks := by
    rw [rollbackStore_blocks, hB, List.filter_append]
    have h1 : s.blocks.filter (fun b => decide (b.uid ≤ U)) = s.blocks :=
      List.filter_eq_self.mpr (fun b hb => by simp [hblocks b hb])
    have h2 : newB.filter (fun b => decide (b.uid ≤ U)) = [] := by
      rw [List.filter_eq_nil_iff]
      intro b hb
      have h3 := hBU b hb
      simp
      omega
    rw [h1, h2, List.append_nil]
  refine ⟨hBL, ?_⟩
  have hOldLift : ∀ r2 ∈ oldPart,
      ∃ r ∈ s.dataEntries, closedFrom newE r r2 := forall₂_mem_right hF2
  have hOldBU : ∀ r2 ∈ oldPart, r2.block_uid ≤ U := by
    intro r2 hr2
    obtain ⟨r, hr, hc⟩ := hOldLift r2 hr2
    obtain ⟨v, hv⟩ := closedFrom_shape hc
    have hb2 : r2.block_uid = r.block_uid := by
      rw [hv]
    rw [hb2]
    exact hdata r hr
  have hfilter1 : t.dataEntries.filter (fun r => decide (r.block_uid ≤ U)) =
      oldPart := by
    rw [hDE, List.filter_append]
    have h1 : oldPart.filter (fun r => decide (r.block_uid ≤ U)) = oldPart :=
      List.filter_eq_self.mpr (fun r hr => by simp [hOldBU r hr])
    have h2 : newE.filter (fun r => decide (r.block_uid ≤ U)) = [] := by
      rw [List.filter_eq_nil_iff]
      intro e he
      have h3 := (hNE e he).1
      simp
      omega
    rw [h1, h2, List.append_nil]
  have hnewE_mem : ∀ e ∈ newE, e ∈ t.dataEntries := by
    intro e he
    rw [hDE]
    exact List.mem_append.mpr (Or.inr he)
  have hLow : ∀ l ∈ lowestDeletedUids t U, ∃ e ∈ newE, l = e.uid := by
    intro l hl
    obtain ⟨e, he, hle, heU⟩ := lowestDeletedUids_mem t U l hl
    rw [hDE] at he
    rcases List.mem_append.mp he with h1 | h1
    · have h2 := hOldBU e h1
      omega
    · exact ⟨e, h1, hle⟩
  have hLowLo : ∀ l ∈ lowestDeletedUids t U, s.nextUid ≤ l := by
    intro l hl
    obtain ⟨e, he, rfl⟩ := hLow l hl
    exact (hNE e he).2
  have hLowMax : MAX_UID ∉ lowestDeletedUids t U := by
    intro hmem
    obtain ⟨e, he, hle⟩ := hLow _ hmem
    have h1 := ht.uid_lt_next e (hnewE_mem e he)
    have h2 := ht.next_le_max
    omega
  rw [rollbackStore_dataEntries, hfilter1]
  refine forall₂_map_back _ hF2 ?_
  intro r r2 hrmem hr2mem hc
  rcases hc with ⟨hr2, himp⟩ | ⟨hmax, x, rest, hfe, hr2⟩
  · subst hr2
    by_cases hin : r2.superseded_by ∈ lowestDeletedUids t U
    · exfalso
      rcases hs.sup_lt_or_max r2 hrmem with h1 | h1
      · rw [h1] at hin
        exact hLowMax hin
      · have h2 := hLowLo _ hin
        omega
    · rw [if_neg hin]
  · have hxmemN : x ∈ newE := by
      have h1 : x ∈ fiberOf newE r.addrKey := by
        rw [hfe]
        exact List.mem_cons_self _ _
      exact List.mem_of_mem_filter h1
    have hxbu : U < x.block_uid := (hNE x hxmemN).1
    have hfilter2 : t.dataEntries.filter
        (fun q => decide (U < q.block_uid)) = newE := by
      rw [hDE, List.filter_append]
      have h1 : oldPart.filter (fun q => decide (U < q.block_uid)) = [] := by
        rw [List.filter_eq_nil_iff]
        intro q hq
        have h2 := hOldBU q hq
        simp
        omega
      have h2 : newE.filter (fun q => decide (U < q.block_uid)) = newE :=
        List.filter_eq_self.mpr (fun e he => by simp [(hNE e he).1])
      rw [h1, h2, List.nil_append]
    have hxin : x.uid ∈ lowestDeletedUids t U := by
      unfold lowestDeletedUids
      rw [List.mem_filterMap]
      refine ⟨r.addrKey, ?_, ?_⟩
      · rw [mem_firstOccKeys, List.mem_map]
        refine ⟨{ uid := x.uid, address := x.address, key := x.key }, ?_, ?_⟩
        · show ({ uid := x.uid, address := x.address, key := x.key }
              : DeletedDataEntry) ∈
            (t.dataEntries.filter (fun q => decide (U < q.block_uid))).map
              (fun q => { uid := q.uid, address := q.address, key := q.key })
          rw [List.mem_map]
          exact ⟨x, List.mem_filter.mpr
            ⟨hnewE_mem x hxmemN, by simp [hxbu]⟩, rfl⟩
        · have h1 : x ∈ fiberOf newE r.addrKey := by
            rw [hfe]
            exact List.mem_cons_self _ _
          exact ((mem_fiberOf x newE r.addrKey).mp h1).2
      · have hcomm : (rollbackDataEntriesOp t U).1.filter
            (fun d => decide (d.addrKey = r.addrKey)) =
            ((t.dataEntries.filter (fun q => decide (U < q.block_uid))).filter
              (fun q => decide (q.addrKey = r.addrKey))).map
              (fun q => { uid := q.uid, address := q.address, key := q.key
                : DeletedDataEntry }) := by
          have h0 : (rollbackDataEntriesOp t U).1 =
              (t.dataEntries.filter (fun q => decide (U < q.block_uid))).map
                (fun q => { uid := q.uid, address := q.address, key := q.key
                  : DeletedDataEntry }) := rfl
          rw [h0]
          exact filter_map_eq _ _ _ (fun q => rfl) _
        rw [hcomm, hfilter2]
        have hfib2 : newE.filter (fun q => decide (q.addrKey = r.addrKey)) =
            x :: rest := hfe
        rw [hfib2, List.map_cons]
        refine minUidOf_head _ _ ?_
        intro d' hd'
        rw [List.mem_map] at hd'
        obtain ⟨y, hy, rfl⟩ := hd'
        have hfpw : (fiberOf newE r.addrKey).Pairwise
            (fun p q => p.uid < q.uid) := by
          have h1 : newE.Pairwise (fun p q => p.uid < q.uid) := by
            have h2 := ht.uid_asc
            rw [hDE] at h2
            exact (List.pairwise_append.mp h2).2.1
          exact List.Pairwise.sublist (List.filter_sublist _) h1
        rw [hfe] at hfpw
        exact le_of_lt ((List.pairwise_cons.mp hfpw).1 y hy)
    have hr2sup : r2.superseded_by = x.uid := by
      rw [hr2]
    have hin : r2.superseded_by ∈ lowestDeletedUids t U := by
      rw [hr2sup]
      exact hxin
    rw [if_pos hin, hr2]
    show ({ r with superseded_by := MAX_UID } : InsertableDataEntry) = r
    rw [← hmax]

/-- append_blocks_or_microblocks advances the uid sequence by at most the
number of data entries carried. -/
theorem appendBOM_nextUid_le (t : Store) (bs : List BlockMicroblockAppend) :
    (appendBlocksOrMicroblocks t bs).nextUid ≤
      t.nextUid + (((bs.map (fun b => b.data_entries.length)).sum : Nat) : Int) := by
  rw [appendBOM_eq]
  by_cases hc : 0 < (flattenedUpdates
      (insertBlocksOrMicroblocks t (bs.map (fun a =>
        { id := a.id, height := (a.height : Int),
          time_stamp := a.time_stamp }))).1 bs).length
  · rw [if_pos hc, appendDataEntries_nextUid, insertBOM_nextUid]
    have h1 := flattenedUpdates_length_le
      (insertBlocksOrMicroblocks t (bs.map (fun a =>
        { id := a.id, height := (a.height : Int),
          time_stamp := a.time_stamp }))).1 bs
    have h2 : ((flattenedUpdates
        (insertBlocksOrMicroblocks t (bs.map (fun a =>
          { id := a.id, height := (a.height : Int),
            time_stamp := a.time_stamp }))).1 bs).length : Int) ≤
        (((bs.map (fun b => b.data_entries.length)).sum : Nat) : Int) :=
      Int.ofNat_le.mpr h1
    omega
  · rw [if_neg hc, insertBOM_nextUid]
    have h1 : (0 : Int) ≤ (((bs.map (fun b => b.data_entries.length)).sum
        : Nat) : Int) := Int.ofNat_nonneg _
    omega

/-- Processing a run of microblock items keeps the invariant and the
append delta. -/
theorem applyItems_micro_phase (s : Store) (U : Int) :
    ∀ (mitems : List BlockMicroblockAppend) (t' t : Store),
      StoreInv t' → AppendDelta s t' U →
      s.nextUid ≤ t'.nextUid → U < t'.nextBlockUid →
      t'.nextUid + (itemsEntryCount (mitems.map UpdatesItem.microblock) : Int)
        ≤ MAX_UID →
      applyUpdatesItems t' (mitems.map UpdatesItem.microblock) = some t →
      StoreInv t ∧ AppendDelta s t U := by
  intro mitems
  induction mitems with
  | nil =>
    intro t' t h1 h2 h3 h4 h5 happ
    have h6 : some t' = some t := happ
    injection h6 with he
    rw [← he]
    exact ⟨h1, h2⟩
  | cons m rest ih =>
    intro t' t h1 h2 h3 h4 h5 happ
    have happ2 : applyUpdatesItems (appendBlocksOrMicroblocks t' [m])
        (rest.map UpdatesItem.microblock) = some t := happ
    have he : itemsEntryCount ((m :: rest).map UpdatesItem.microblock) =
        m.data_entries.length +
          itemsEntryCount (rest.map UpdatesItem.microblock) := rfl
    rw [he] at h5
    have hb1 : t'.nextUid + (((([m] : List BlockMicroblockAppend).map
        (fun b => b.data_entries.length)).sum : Nat) : Int) ≤ MAX_UID := by
      have hg : (([m] : List BlockMicroblockAppend).map
          (fun b => b.data_entries.length)).sum = m.data_entries.length := rfl
      rw [hg]
      omega
    have hstep_inv := StoreInv_appendBOM t' [m] h1 hb1
    have hstep_delta := AppendDelta_appendBOM s t' U [m] h2 h1 h3 h4
    have hcnt := appendBOM_counters t' [m]
    have hnu := appendBOM_nextUid_le t' [m]
    refine ih _ t hstep_inv hstep_delta (le_trans h3 hcnt.1)
      (lt_of_lt_of_le h4 hcnt.2) ?_ happ2
    have hg : (([m] : List BlockMicroblockAppend).map
        (fun b => b.data_entries.length)).sum = m.data_entries.length := rfl
    rw [hg] at hnu
    omega

/-- Processing a run of block items on a microblock-free store keeps the
invariant, the microblock-freeness and the append delta, and hands over
to the remaining items. -/
theorem applyItems_block_phase (s : Store) (U : Int) :
    ∀ (bitems : List (List BlockMicroblockAppend)) (rest : List UpdatesItem)
      (t' t : Store),
      StoreInv t' → noMicroblockRows t' → AppendDelta s t' U →
      s.nextUid ≤ t'.nextUid → U < t'.nextBlockUid →
      (∀ bs ∈ bitems, ∀ a ∈ bs, a.time_stamp.isSome) →
      t'.nextUid +
        (itemsEntryCount (bitems.map UpdatesItem.blocks ++ rest) : Int)
        ≤ MAX_UID →
      applyUpdatesItems t' (bitems.map UpdatesItem.blocks ++ rest) = some t →
      ∃ t'', StoreInv t'' ∧ AppendDelta s t'' U ∧
        s.nextUid ≤ t''.nextUid ∧ U < t''.nextBlockUid ∧
        t''.nextUid + (itemsEntryCount rest : Int) ≤ MAX_UID ∧
        applyUpdatesItems t'' rest = some t := by
  intro bitems
  induction bitems with
  | nil =>
    intro rest t' t h1 h2 h3 h4 h5 h6 h7 happ
    exact ⟨t', h1, h3, h4, h5, h7, happ⟩
  | cons bs brest ih =>
    intro rest t' t h1 h2 h3 h4 h5 h6 h7 happ
    have hsq := squash_noop_of_noMicro t' h2
    have happstep : applyUpdatesItem t' (.blocks bs) =
        some (appendBlocksOrMicroblocks t' bs) := by
      show (squashMicroblocks t').map
        (fun s1 => appendBlocksOrMicroblocks s1 bs) = _
      rw [hsq]
      rfl
    have h0 : applyUpdatesItems t'
        ((bs :: brest).map UpdatesItem.blocks ++ rest) =
        (match applyUpdatesItem t' (.blocks bs) with
          | some s1 =>
            applyUpdatesItems s1 (brest.map UpdatesItem.blocks ++ rest)
          | none => none) := rfl
    rw [h0, happstep] at happ
    have happ2 : applyUpdatesItems (appendBlocksOrMicroblocks t' bs)
        (brest.map UpdatesItem.blocks ++ rest) = some t := happ
    have he : itemsEntryCount ((bs :: brest).map UpdatesItem.blocks ++ rest) =
        (bs.map (fun b => b.data_entries.length)).sum +
          itemsEntryCount (brest.map UpdatesItem.blocks ++ rest) := rfl
    rw [he] at h7
    have hb1 : t'.nextUid + (((bs.map (fun b => b.data_entries.length)).sum
        : Nat) : Int) ≤ MAX_UID := by
      omega
    have hinv2 := StoreInv_appendBOM t' bs h1 hb1
    have hdelta2 := AppendDelta_appendBOM s t' U bs h3 h1 h4 h5
    have hnm2 := noMicro_appendBOM t' bs h2 (h6 bs (List.mem_cons_self _ _))
    have hcnt := appendBOM_counters t' bs
    have hle := appendBOM_nextUid_le t' bs
    refine ih rest _ t hinv2 hnm2 hdelta2 (le_trans h4 hcnt.1)
      (lt_of_lt_of_le h5 hcnt.2)
      (fun bs' hbs' => h6 bs' (List.mem_cons_of_mem _ hbs')) ?_ happ2
    omega

/-- C2, amended: for a reachable base store whose blocks and data entries
all sit at or below the target uid U, appending any run of timestamped
block batches followed by any run of microblocks (the shape in which no
squash rewrites previously committed rows) and then rolling back to U
restores blocks_microblocks and data_entries exactly; the unconditional
claim is refuted by the microblock-then-block counterexample, where the
squash rewrites the base block id. -/
theorem c2_amended_rollback (s t : Store) (U : Int)
    (bitems : List (List BlockMicroblockAppend))
    (mitems : List BlockMicroblockAppend)
    (hinv : StoreInv s)
    (hnm : noMicroblockRows s)
    (hts : ∀ bs ∈ bitems, ∀ a ∈ bs, a.time_stamp.isSome)
    (hblocks : ∀ b ∈ s.blocks, b.uid ≤ U)
    (hdata : ∀ r ∈ s.dataEntries, r.block_uid ≤ U)
    (hU : U < s.nextBlockUid)
    (hbound : s.nextUid +
      (itemsEntryCount (blocksThenMicros bitems mitems) : Int) ≤ MAX_UID)
    (happ : applyUpdatesItems s (blocksThenMicros bitems mitems) = some t) :
    (rollbackStore t U).blocks = s.blocks ∧
    (rollbackStore t U).dataEntries = s.dataEntries := by
  have hA := applyItems_block_phase s U bitems
    (mitems.map UpdatesItem.microblock) s t hinv hnm (AppendDelta_refl s U)
    (le_refl _) hU hts hbound happ
  obtain ⟨t'', h1, h3, h4, h5, h6, happ2⟩ := hA
  have hB := applyItems_micro_phase s U mitems t'' t h1 h3 h4 h5 h6 happ2
  exact rollback_of_delta s t U hinv hB.1 hB.2 hblocks hdata

/-- Witness for the amended C2: block A committed, then a block batch B
and a microblock on top, rolled back to uid 1. -/
theorem c2_witness :
    (rollbackStore (appendBlocksOrMicroblocks
      (appendBlocksOrMicroblocks storeA0 [appendB0]) [appendMu0]) 1).blocks =
      storeA0.blocks ∧
    (rollbackStore (appendBlocksOrMicroblocks
      (appendBlocksOrMicroblocks storeA0 [appendB0]) [appendMu0])
        1).dataEntries =
      storeA0.dataEntries :=
  c2_amended_rollback storeA0 _ 1 [[appendB0]] [appendMu0]
    (StoreInv_reachable storeA0
      (Reachable.step _ (.blocks [appendA0]) _ Reachable.init (by decide) rfl))
    (by decide) (by decide) (by decide) (by decide) (by decide) (by decide) rfl
